import Mathlib

/-!
Verification development for the PDF-to-HTML paragraph tagger.

The Python sources (`all.py`, `zone.py`) are shallowly embedded here:
strings become `List Char`, page-coordinate numbers become `ℚ`
(the source only ever compares and takes min/max/averages of them, and
the concrete inputs exercised below are exactly representable, so the
rational model agrees with the float semantics on everything proved),
and the PDF text provider (PyMuPDF) is passed in as an explicit function
parameter, as it is an external collaborator in the spec.
-/

namespace PdfTagger

/-! ## Heading classification (`all.py`, `infer_headings_for_page`, lines 840-897)

A region of `all.py` is the dict `{'id', 'rect', 'text', 'tag'}`. -/

/-- A region as stored in `state.regions` of `all.py`. -/
structure RegionA where
  id : List Char
  rect : ℚ × ℚ × ℚ × ℚ
  text : List Char
  tag : List Char
  deriving Repr, DecidableEq

/-- Average span font size for one region (`all.py` lines 864-874):
spans with falsy (zero) size are skipped (`if sz:`), and a region with
no counted spans has average `0.0`. -/
def span_avg (szs : List ℚ) : ℚ :=
  let counted := szs.filter (fun sz => sz ≠ 0)
  if counted.length = 0 then 0 else counted.sum / counted.length

/-- One step of Python's `max`: a later element replaces the current
maximum only when strictly greater (first maximum wins ties). -/
def pymax2 (acc x : ℚ) : ℚ := if acc < x then x else acc

/-- Python's `max` over a list, `0.0` when empty (`max_sz = max(sizes) if
sizes else 0.0`, `all.py` line 876). -/
def pymax (l : List ℚ) : ℚ :=
  match l with
  | [] => 0
  | a :: as => as.foldl pymax2 a

/-- The threshold ladder of `all.py` lines 884-892.  The float literals
`0.9`, `0.75`, `0.6` are exactly the rationals used here at every input
exercised in this development. -/
def heading_tag_of_ratio (ratio : ℚ) : List Char :=
  if ratio > 9/10 then "h1".toList
  else if ratio > 3/4 then "h2".toList
  else if ratio > 3/5 then "h3".toList
  else "p".toList

/-- Result status of `infer_headings_for_page`: the two `messagebox.showinfo`
early returns ("No regions on this page", "Could not detect font sizes"),
and the successful pass. -/
inductive InferStatus where
  | noRegions
  | noSizes
  | ok
  deriving Repr, DecidableEq

/-- `all.py` lines 840-896, with the PDF span-size provider abstracted as
`spansOf` (the source queries `page.get_text('dict', clip=rect)`; the claims
never depend on how the spans are obtained, only on their sizes).
Returns the reported status together with the region list afterwards; the
source mutates `regs` in place only on the `ok` path. -/
def infer_headings_for_page (regs : List RegionA) (spansOf : RegionA → List ℚ) :
    InferStatus × List RegionA :=
  if regs.isEmpty then (InferStatus.noRegions, regs)
  else
    let sizes := regs.map (fun r => span_avg (spansOf r))
    let max_sz := pymax sizes
    if max_sz ≤ 0 then (InferStatus.noSizes, regs)
    else
      (InferStatus.ok,
        (regs.zip sizes).map (fun p =>
          let ratio := if max_sz > 0 then p.2 / max_sz else 0
          let new_tag := heading_tag_of_ratio ratio
          { p.1 with tag := new_tag, id := new_tag ++ '_' :: p.1.id }))

end PdfTagger

namespace PdfTagger

/-! Concrete regions for the boundary test of C5. -/

/-- Three concrete regions used to exercise the classifier. -/
def c5regs : List RegionA :=
  [ { id := "p1_r1".toList, rect := (0, 0, 10, 10), text := "A".toList, tag := "p".toList }
  , { id := "p1_r2".toList, rect := (0, 20, 10, 30), text := "B".toList, tag := "p".toList }
  , { id := "p1_r3".toList, rect := (0, 40, 10, 50), text := "C".toList, tag := "p".toList } ]

/-- Span sizes making the three regions average 12, 9 and 6. -/
def c5spans (r : RegionA) : List ℚ :=
  if r.id = "p1_r1".toList then [12]
  else if r.id = "p1_r2".toList then [9]
  else [6]

/-! ## Region geometry (`zone.py`)

`zone.py` stores paragraphs as `{'bbox', 'text', 'words'}`; a word is a
PyMuPDF tuple `(x0, y0, x1, y1, text, block_no, line_no, word_no)` of which
only the first five components are ever read. -/

/-- A word span as used by `zone.py`. -/
structure WordZ where
  x0 : ℚ
  y0 : ℚ
  x1 : ℚ
  y1 : ℚ
  text : List Char
  deriving Repr, DecidableEq

/-- A paragraph record of `zone.py` (`{'bbox', 'text', 'words'}`). -/
structure Para where
  bbox : ℚ × ℚ × ℚ × ℚ
  text : List Char
  words : List WordZ
  deriving Repr, DecidableEq

instance : Inhabited Para := ⟨⟨(0, 0, 0, 0), [], []⟩⟩

/-- One step of Python's `min` (first minimum wins ties). -/
def pymin2 (a b : ℚ) : ℚ := if b < a then b else a

/-- Python's `min` over a non-empty sequence (the `[]` case never arises
at any call site below). -/
def pyminL (l : List ℚ) : ℚ :=
  match l with
  | [] => 0
  | a :: as => as.foldl pymin2 a

/-- Python's `max` over a non-empty sequence. -/
def pymaxL (l : List ℚ) : ℚ :=
  match l with
  | [] => 0
  | a :: as => as.foldl pymax2 a

/-- `zone.py` lines 14-19: componentwise min/max union of two boxes. -/
def bbox_merge (b1 b2 : ℚ × ℚ × ℚ × ℚ) : ℚ × ℚ × ℚ × ℚ :=
  (pymin2 b1.1 b2.1, pymin2 b1.2.1 b2.2.1,
   pymax2 b1.2.2.1 b2.2.2.1, pymax2 b1.2.2.2 b2.2.2.2)

/-- Union bounding box of a non-empty list of boxes (left fold of
`bbox_merge` from the first box). -/
def union_bbox (l : List (ℚ × ℚ × ℚ × ℚ)) : ℚ × ℚ × ℚ × ℚ :=
  match l with
  | [] => (0, 0, 0, 0)
  | b :: bs => bs.foldl bbox_merge b

/-- Squared distance from a word's centre to the click point.  The source
(`zone.py` line 33) compares `math.hypot` values; real square root is
strictly monotone, so comparing squared distances selects the same words. -/
def word_dist2 (w : WordZ) (cx cy : ℚ) : ℚ :=
  ((w.x0 + w.x1) / 2 - cx) ^ 2 + ((w.y0 + w.y1) / 2 - cy) ^ 2

/-- Loop of `nearest_word_index` (`zone.py` lines 27-37): scan the words,
keeping the first index attaining the minimal distance. -/
def nwi_go (cx cy : ℚ) : List WordZ → ℕ → Option (ℕ × ℚ) → Option ℕ
  | [], _, best => best.map (fun p => p.1)
  | w :: rest, i, best =>
      let d := word_dist2 w cx cy
      match best with
      | none => nwi_go cx cy rest (i + 1) (some (i, d))
      | some (bi, bd) =>
          if d < bd then nwi_go cx cy rest (i + 1) (some (i, d))
          else nwi_go cx cy rest (i + 1) (some (bi, bd))

/-- `zone.py` lines 27-37: index of the word nearest to the click point
(`none` only when the word list is empty). -/
def nearest_word_index (ws : List WordZ) (cx cy : ℚ) : Option ℕ :=
  nwi_go cx cy ws 0 none

/-- `" ".join(w[4] for w in ws)`. -/
def join_word_texts (ws : List WordZ) : List Char :=
  List.intercalate [' '] (ws.map (fun w => w.text))

/-- Tight bounding box of a non-empty word list, as computed by
`zone.py` lines 286-289 (`min(w[0] ...)`, `max(w[2] ...)`, ...). -/
def words_tight_bbox (ws : List WordZ) : ℚ × ℚ × ℚ × ℚ :=
  (pyminL (ws.map (fun w => w.x0)), pyminL (ws.map (fun w => w.y0)),
   pymaxL (ws.map (fun w => w.x1)), pymaxL (ws.map (fun w => w.y1)))

/-- `zone.py` lines 257-302, the pure core of `on_split_horizontal`: given
the stored click point, split the paragraph's words after the nearest word.
`none` models every early return (no words, empty right side); on success
the two replacement paragraphs are returned in list order (left first, as
inserted by the two `paras.insert(pi, ...)` calls). -/
def on_split_horizontal (para : Para) (x y : ℚ) : Option (Para × Para) :=
  match para.words with
  | [] => none
  | _ :: _ =>
    match nearest_word_index para.words x y with
    | none => none
    | some idx_word =>
        let left_words := para.words.take (idx_word + 1)
        let right_words := para.words.drop (idx_word + 1)
        if right_words = [] then none
        else
          some ({ bbox := words_tight_bbox left_words,
                  text := join_word_texts left_words,
                  words := left_words },
                { bbox := words_tight_bbox right_words,
                  text := join_word_texts right_words,
                  words := right_words })

/-- Result of `on_merge`: the two `messagebox` rejections ("Select 2+
adjacent paragraphs", "Selected must be adjacent") and success. -/
inductive MergeRes where
  | tooFew
  | nonAdjacent
  | ok (paras : List Para)
  deriving Repr, DecidableEq

/-- The pop/accumulate loop of `on_merge` (`zone.py` lines 354-359),
processing the selected indices in descending order.  State is the
current paragraph list with the accumulated texts, words and box. -/
def merge_loop :
    List ℕ → List Para × List (List Char) × List WordZ × (ℚ × ℚ × ℚ × ℚ) →
    List Para × List (List Char) × List WordZ × (ℚ × ℚ × ℚ × ℚ)
  | [], st => st
  | idx :: rest, (ps, texts, ws, bb) =>
      let p := ps[idx]!
      merge_loop rest (ps.eraseIdx idx, p.text :: texts, p.words ++ ws,
        bbox_merge bb p.bbox)

/-- `zone.py` lines 339-363, the pure core of `on_merge`.  `sel` is
`sorted(self.selected_indices)`; the caller guarantees the indices are
within range (they come from canvas clicks on drawn paragraphs). -/
def on_merge (paras : List Para) (sel : List ℕ) : MergeRes :=
  if sel.length < 2 then MergeRes.tooFew
  else if ¬ (sel.zip sel.tail).all (fun ab => ab.2 = ab.1 + 1) then
    MergeRes.nonAdjacent
  else
    let first := sel.headD 0
    let st := merge_loop sel.reverse
      (paras, [], [], (paras[first]!).bbox)
    MergeRes.ok (st.1.insertIdx first
      { bbox := st.2.2.2, text := List.intercalate ['\n'] st.2.1,
        words := st.2.2.1 })

/-! Concrete paragraph for the C7 counterexample: the stored box
`(0,0,100,100)` is strictly larger than the tight box of its two words. -/

/-- Paragraph whose stored bbox is not the tight bbox of its words. -/
def c7para : Para :=
  { bbox := (0, 0, 100, 100),
    text := "a b".toList,
    words := [⟨10, 10, 20, 20, "a".toList⟩, ⟨30, 10, 40, 20, "b".toList⟩] }

/-- Left half produced by splitting `c7para` at the click point (11, 11). -/
def c7left : Para :=
  { bbox := (10, 10, 20, 20), text := "a".toList,
    words := [⟨10, 10, 20, 20, "a".toList⟩] }

/-- Right half produced by splitting `c7para` at the click point (11, 11). -/
def c7right : Para :=
  { bbox := (30, 10, 40, 20), text := "b".toList,
    words := [⟨30, 10, 40, 20, "b".toList⟩] }

/-- Three concrete paragraphs used to exercise `on_merge`. -/
def c8paras : List Para :=
  [ { bbox := (0, 0, 10, 10), text := "one".toList, words := [] }
  , { bbox := (0, 12, 10, 20), text := "two".toList, words := [⟨1, 13, 3, 19, "two".toList⟩] }
  , { bbox := (0, 22, 10, 30), text := "three".toList, words := [⟨1, 23, 3, 29, "three".toList⟩] } ]

/-! ## Symbol entities (`all.py` lines 96-158) -/

/-- The expanded symbol-entity table of `all.py` lines 96-150, in its
insertion (iteration) order. -/
def HTML_ENTITY_MAP : List (Char × List Char) := [
  ('©', "&copy;".toList),
  ('®', "&reg;".toList),
  ('™', "&trade;".toList),
  ('—', "&mdash;".toList),
  ('–', "&ndash;".toList),
  ('·', "&middot;".toList),
  ('…', "&hellip;".toList),
  ('“', "&ldquo;".toList),
  ('”', "&rdquo;".toList),
  ('‘', "&lsquo;".toList),
  ('’', "&rsquo;".toList),
  ('•', "&bull;".toList),
  ('°', "&deg;".toList),
  ('£', "&pound;".toList),
  ('€', "&euro;".toList),
  ('₹', "&#8377;".toList),
  ('±', "&plusmn;".toList),
  ('×', "&times;".toList),
  ('÷', "&divide;".toList),
  ('≤', "&le;".toList),
  ('≥', "&ge;".toList),
  ('≠', "&ne;".toList),
  ('≈', "&asymp;".toList),
  ('≡', "&equiv;".toList),
  ('∼', "&sim;".toList),
  ('∑', "&sum;".toList),
  ('∏', "&prod;".toList),
  ('∫', "&int;".toList),
  ('√', "&radic;".toList),
  ('∞', "&infin;".toList),
  ('∂', "&part;".toList),
  ('∇', "&nabla;".toList),
  ('∈', "&in;".toList),
  ('∉', "&notin;".toList),
  ('∅', "&#8709;".toList),
  ('∝', "&prop;".toList),
  ('∴', "&there4;".toList),
  ('∵', "&because;".toList),
  ('⇒', "&rArr;".toList),
  ('⇔', "&hArr;".toList),
  ('←', "&larr;".toList),
  ('→', "&rarr;".toList),
  ('↔', "&harr;".toList),
  ('↦', "&#8614;".toList),
  ('≅', "&cong;".toList),
  ('∗', "&lowast;".toList),
  ('α', "&alpha;".toList),
  ('β', "&beta;".toList),
  ('γ', "&gamma;".toList),
  ('δ', "&delta;".toList),
  ('ε', "&epsilon;".toList),
  ('ζ', "&zeta;".toList),
  ('η', "&eta;".toList),
  ('θ', "&theta;".toList),
  ('ι', "&iota;".toList),
  ('κ', "&kappa;".toList),
  ('λ', "&lambda;".toList),
  ('μ', "&mu;".toList),
  ('ν', "&nu;".toList),
  ('ξ', "&xi;".toList),
  ('ο', "&omicron;".toList),
  ('π', "&pi;".toList),
  ('ρ', "&rho;".toList),
  ('σ', "&sigma;".toList),
  ('τ', "&tau;".toList),
  ('υ', "&upsilon;".toList),
  ('φ', "&phi;".toList),
  ('χ', "&chi;".toList),
  ('ψ', "&psi;".toList),
  ('ω', "&omega;".toList),
  ('ς', "&sigmaf;".toList),
  ('ϑ', "&#976;".toList),
  ('Α', "&Alpha;".toList),
  ('Β', "&Beta;".toList),
  ('Γ', "&Gamma;".toList),
  ('Δ', "&Delta;".toList),
  ('Ε', "&Epsilon;".toList),
  ('Ζ', "&Zeta;".toList),
  ('Η', "&Eta;".toList),
  ('Θ', "&Theta;".toList),
  ('Ι', "&Iota;".toList),
  ('Κ', "&Kappa;".toList),
  ('Λ', "&Lambda;".toList),
  ('Μ', "&Mu;".toList),
  ('Ν', "&Nu;".toList),
  ('Ξ', "&Xi;".toList),
  ('Ο', "&Omicron;".toList),
  ('Π', "&Pi;".toList),
  ('Ρ', "&Rho;".toList),
  ('Σ', "&Sigma;".toList),
  ('Τ', "&Tau;".toList),
  ('Υ', "&Upsilon;".toList),
  ('Φ', "&Phi;".toList),
  ('Χ', "&Chi;".toList),
  ('Ψ', "&Psi;".toList),
  ('Ω', "&Omega;".toList),
  ('á', "&aacute;".toList),
  ('à', "&agrave;".toList),
  ('â', "&acirc;".toList),
  ('ä', "&auml;".toList),
  ('ã', "&atilde;".toList),
  ('å', "&aring;".toList),
  ('Á', "&Aacute;".toList),
  ('À', "&Agrave;".toList),
  ('Â', "&Acirc;".toList),
  ('Ä', "&Auml;".toList),
  ('Ã', "&Atilde;".toList),
  ('Å', "&Aring;".toList),
  ('é', "&eacute;".toList),
  ('è', "&egrave;".toList),
  ('ê', "&ecirc;".toList),
  ('ë', "&euml;".toList),
  ('É', "&Eacute;".toList),
  ('È', "&Egrave;".toList),
  ('Ê', "&Ecirc;".toList),
  ('Ë', "&Euml;".toList),
  ('í', "&iacute;".toList),
  ('ì', "&igrave;".toList),
  ('î', "&icirc;".toList),
  ('ï', "&iuml;".toList),
  ('Í', "&Iacute;".toList),
  ('Ì', "&Igrave;".toList),
  ('Î', "&Icirc;".toList),
  ('Ï', "&Iuml;".toList),
  ('ó', "&oacute;".toList),
  ('ò', "&ograve;".toList),
  ('ô', "&ocirc;".toList),
  ('ö', "&ouml;".toList),
  ('õ', "&otilde;".toList),
  ('Ó', "&Oacute;".toList),
  ('Ò', "&Ograve;".toList),
  ('Ô', "&Ocirc;".toList),
  ('Ö', "&Ouml;".toList),
  ('Õ', "&Otilde;".toList),
  ('ú', "&uacute;".toList),
  ('ù', "&ugrave;".toList),
  ('û', "&ucirc;".toList),
  ('ü', "&uuml;".toList),
  ('Ú', "&Uacute;".toList),
  ('Ù', "&Ugrave;".toList),
  ('Û', "&Ucirc;".toList),
  ('Ü', "&Uuml;".toList),
  ('ñ', "&ntilde;".toList),
  ('Ñ', "&Ntilde;".toList),
  ('ç', "&ccedil;".toList),
  ('Ç', "&Ccedil;".toList),
  ('œ', "&oelig;".toList),
  ('Œ', "&OElig;".toList),
  ('æ', "&aelig;".toList),
  ('Æ', "&AElig;".toList),
  ('‹', "&lsaquo;".toList),
  ('›', "&rsaquo;".toList),
  ('«', "&laquo;".toList),
  ('»', "&raquo;".toList) ]

/-- One `str.replace` pass (Python semantics: leftmost non-overlapping
occurrences, scanning left to right), run on explicit fuel; fuel
`s.length` is enough for every non-empty pattern, and exhausted fuel
returns the remaining text unchanged. -/
def replaceAllF : ℕ → List Char → List Char → List Char → List Char
  | 0, _, _, s => s
  | _ + 1, _, _, [] => []
  | fuel + 1, p, r, c :: cs =>
      if p.isPrefixOf (c :: cs) then
        r ++ replaceAllF fuel p r (List.drop (p.length - 1) cs)
      else c :: replaceAllF fuel p r cs

/-- Python `s.replace(p, r)` for a non-empty pattern `p`. -/
def replaceAll (p r s : List Char) : List Char := replaceAllF s.length p r s

/-- `all.py` lines 152-158: apply every entry of the symbol table in
iteration order (`text.replace(k, v)` for each pair). -/
def apply_html_entities (text : List Char) : List Char :=
  if text = [] then text
  else HTML_ENTITY_MAP.foldl (fun acc kv => replaceAll [kv.1] kv.2 acc) text

/-! ## Span styling and inline-markup-preserving escaping
(`all.py` lines 160-264) -/

/-- The two nesting orders of `NESTING_PREF` (`all.py` line 26). -/
inductive NestingPref where
  | b_outside_i
  | i_outside_b
  deriving Repr, DecidableEq

/-- `all.py` lines 165-179 (`wrap_span_text`), with the process-wide
`NESTING_PREF` passed explicitly. -/
def wrap_span_text (s : List Char) (is_bold is_italic : Bool)
    (pref : NestingPref) : List Char :=
  if is_bold && is_italic then
    match pref with
    | NestingPref.b_outside_i => "<b><i>".toList ++ s ++ "</i></b>".toList
    | NestingPref.i_outside_b => "<i><b>".toList ++ s ++ "</b></i>".toList
  else if is_bold then "<b>".toList ++ s ++ "</b>".toList
  else if is_italic then "<i>".toList ++ s ++ "</i>".toList
  else s

/-- ASCII lower-casing viewed as a code point, modelling the
case-insensitive (`re.I`) matching of the ASCII tag literals. -/
def lowChar (c : Char) : ℕ :=
  if 65 ≤ c.toNat ∧ c.toNat ≤ 90 then c.toNat + 32 else c.toNat

/-- Case-insensitive literal match: on success returns the rest of the
text after the literal. -/
def matchLit : List Char → List Char → Option (List Char)
  | [], s => some s
  | _ :: _, [] => none
  | p :: ps, c :: cs => if lowChar p = lowChar c then matchLit ps cs else none

/-- Python's `\s` on the ASCII range (the tag regexes only ever skip
whitespace between ASCII tags). -/
def isPySpace (c : Char) : Bool :=
  c == ' ' || c == '\t' || c == '\n' || c == '\r' || c == '\x0b' || c == '\x0c'

/-- Lazy search for `cl1` followed by `\s*` and `cl2` (the `(.*?)</i>\s*</b>`
part of the nested-pair regex): returns the shortest prefix before the
closing sequence and the rest after it.  The whitespace skip is greedy but
deterministic, since no whitespace character can begin `cl2`. -/
def findClosePair (cl1 cl2 : List Char) : List Char → Option (List Char × List Char)
  | [] => none
  | c :: cs =>
      match (matchLit cl1 (c :: cs)).bind
          (fun r => matchLit cl2 (r.dropWhile isPySpace)) with
      | some rest => some ([], rest)
      | none => (findClosePair cl1 cl2 cs).map (fun pr => (c :: pr.1, pr.2))

/-- Lazy search for a single closing literal (the `(.*?)</b>` part of the
single-pair regexes). -/
def findCloseOne (cl : List Char) : List Char → Option (List Char × List Char)
  | [] => none
  | c :: cs =>
      match matchLit cl (c :: cs) with
      | some rest => some ([], rest)
      | none => (findCloseOne cl cs).map (fun pr => (c :: pr.1, pr.2))

/-- Match of the nested-pair regex `o1\s*o2(.*?)cl1\s*cl2` anchored at the
start of `s`; returns the lazily captured group and the rest. -/
def matchNestedAt (o1 o2 cl1 cl2 : List Char) (s : List Char) :
    Option (List Char × List Char) :=
  (matchLit o1 s).bind fun r1 =>
  (matchLit o2 (r1.dropWhile isPySpace)).bind fun r2 =>
  findClosePair cl1 cl2 r2

/-- Match of a single-pair regex `op(.*?)cl` anchored at the start of `s`. -/
def matchSingleAt (op cl : List Char) (s : List Char) :
    Option (List Char × List Char) :=
  (matchLit op s).bind (findCloseOne cl)

/-- `re.sub` scan: try the matcher at each position left to right,
replacing every non-overlapping match.  Run on explicit fuel (each step
consumes at least one character, so fuel `s.length` is always enough;
exhausted fuel returns the remaining text unchanged). -/
def protectScanF (matcher : List Char → Option (List Char × List Char))
    (repl : List Char → List Char) : ℕ → List Char → List Char
  | 0, s => s
  | fuel + 1, s =>
      match matcher s with
      | some (inner, rest) => repl inner ++ protectScanF matcher repl fuel rest
      | none =>
          match s with
          | [] => []
          | c :: cs => c :: protectScanF matcher repl fuel cs

def ph_b_open : List Char := "@@B_OPEN@@".toList
def ph_b_close : List Char := "@@B_CLOSE@@".toList
def ph_i_open : List Char := "@@I_OPEN@@".toList
def ph_i_close : List Char := "@@I_CLOSE@@".toList

def openB : List Char := "<b>".toList
def closeB : List Char := "</b>".toList
def openI : List Char := "<i>".toList
def closeI : List Char := "</i>".toList

/-- `inner.replace('<', '&lt;').replace('>', '&gt;')`. -/
def esc_angle (s : List Char) : List Char :=
  replaceAll ['>'] "&gt;".toList (replaceAll ['<'] "&lt;".toList s)

/-- First regex pass of `escape_html_keep_bi_and_entities`
(`re.sub(r'<b>\s*<i>(.*?)</i>\s*</b>', protect_nested, ...)`); every match
of this pattern starts with `<b`, so `protect_nested` takes its first
branch. -/
def sub_nested_bi (s : List Char) : List Char :=
  protectScanF (matchNestedAt openB openI closeI closeB)
    (fun inner => ph_b_open ++ ph_i_open ++ esc_angle inner ++ ph_i_close ++ ph_b_close)
    s.length s

/-- Second regex pass (`<i>\s*<b>(.*?)</b>\s*</i>`); every match starts
with `<i`, so `protect_nested` takes its second branch. -/
def sub_nested_ib (s : List Char) : List Char :=
  protectScanF (matchNestedAt openI openB closeB closeI)
    (fun inner => ph_i_open ++ ph_b_open ++ esc_angle inner ++ ph_b_close ++ ph_i_close)
    s.length s

/-- Third regex pass (`<b>(.*?)</b>`, `protect_b`). -/
def sub_single_b (s : List Char) : List Char :=
  protectScanF (matchSingleAt openB closeB)
    (fun inner => ph_b_open ++ esc_angle inner ++ ph_b_close)
    s.length s

/-- Fourth regex pass (`<i>(.*?)</i>`, `protect_i`). -/
def sub_single_i (s : List Char) : List Char :=
  protectScanF (matchSingleAt openI closeI)
    (fun inner => ph_i_open ++ esc_angle inner ++ ph_i_close)
    s.length s

/-- `\d+;` after at least one digit has been read (ASCII digits, as in the
source pattern). -/
def digit_semi_tail : List Char → Bool
  | [] => false
  | c :: cs => if c = ';' then true else if c.isDigit then digit_semi_tail cs else false

/-- `\d+;`. -/
def digit_semi : List Char → Bool
  | [] => false
  | c :: cs => if c.isDigit then digit_semi_tail cs else false

/-- `[0-9a-fA-F]`. -/
def isHexChar (c : Char) : Bool :=
  c.isDigit || ('a' ≤ c && c ≤ 'f') || ('A' ≤ c && c ≤ 'F')

def hex_semi_tail : List Char → Bool
  | [] => false
  | c :: cs => if c = ';' then true else if isHexChar c then hex_semi_tail cs else false

/-- `[0-9a-fA-F]+;`. -/
def hex_semi : List Char → Bool
  | [] => false
  | c :: cs => if isHexChar c then hex_semi_tail cs else false

/-- `[a-zA-Z]`. -/
def isAsciiLetter (c : Char) : Bool :=
  ('a' ≤ c && c ≤ 'z') || ('A' ≤ c && c ≤ 'Z')

/-- `[a-zA-Z0-9]`. -/
def isAsciiAlnum (c : Char) : Bool := c.isDigit || isAsciiLetter c

def name_semi_tail : List Char → Bool
  | [] => false
  | c :: cs => if c = ';' then true else if isAsciiAlnum c then name_semi_tail cs else false

/-- `[a-zA-Z0-9]+;` after the leading letter. -/
def name_semi : List Char → Bool
  | [] => false
  | c :: cs => if isAsciiAlnum c then name_semi_tail cs else false

/-- `re.match(r'(#\d+;|#x[0-9a-fA-F]+;|[a-zA-Z][a-zA-Z0-9]+;)', following)`
of `amp_repl` (`all.py` lines 252-257): does the text after a `&` begin
with a valid named or numeric entity body? -/
def entity_at : List Char → Bool
  | [] => false
  | c :: cs =>
      if c = '#' then
        match cs with
        | 'x' :: cs2 => hex_semi cs2
        | _ => digit_semi cs
      else if isAsciiLetter c then name_semi cs
      else false

/-- The `&`-escaping pass (`all.py` lines 251-258): each `&` is kept when
the following 30 characters of the pre-substitution text begin with a
valid entity body, and becomes `&amp;` otherwise. -/
def amp_escape : List Char → List Char
  | [] => []
  | c :: cs =>
      (if c = '&' then (if entity_at (cs.take 30) then ['&'] else "&amp;".toList)
       else [c]) ++ amp_escape cs

/-- The four placeholder-restoring replaces of `all.py` lines 261-262, in
source order: `B_OPEN`, `B_CLOSE`, `I_OPEN`, `I_CLOSE`. -/
def restore_placeholders (s : List Char) : List Char :=
  replaceAll ph_i_close "</i>".toList
    (replaceAll ph_i_open "<i>".toList
      (replaceAll ph_b_close "</b>".toList
        (replaceAll ph_b_open "<b>".toList s)))

/-- `all.py` lines 207-264 (`escape_html_keep_bi_and_entities`): protect
the recognized inline pairs, escape stray angle brackets, escape `&` not
starting a valid entity, restore the protected tags. -/
def escape_html_keep_bi_and_entities (text : List Char) : List Char :=
  if text = [] then []
  else
    restore_placeholders
      (amp_escape
        (esc_angle
          (sub_single_i
            (sub_single_b
              (sub_nested_ib
                (sub_nested_bi text))))))

/-- Does the `re.sub` scan of `matcher` find a match at any position of
`s`?  (`re.search` for the corresponding pattern.) -/
def scan_has_match (matcher : List Char → Option (List Char × List Char)) :
    List Char → Bool
  | [] => false
  | c :: cs => (matcher (c :: cs)).isSome || scan_has_match matcher cs

/-- The string contains a match of one of the four recognized inline-tag
patterns (`<b>\s*<i>(.*?)</i>\s*</b>`, `<i>\s*<b>(.*?)</b>\s*</i>`,
`<b>(.*?)</b>`, `<i>(.*?)</i>`, all case-insensitive). -/
def has_tag_pair (s : List Char) : Bool :=
  scan_has_match (matchNestedAt openB openI closeI closeB) s ||
  scan_has_match (matchNestedAt openI openB closeB closeI) s ||
  scan_has_match (matchSingleAt openB closeB) s ||
  scan_has_match (matchSingleAt openI closeI) s

/-- The string contains two adjacent `@` characters (the placeholder
delimiter `@@`). -/
def hasAA : List Char → Bool
  | [] => false
  | [_] => false
  | a :: b :: t => (a = '@' && b = '@') || hasAA (b :: t)

/-- Case-insensitive occurrence of `p` anywhere in the string (an
`re.I`-occurrence of a tag literal). -/
def ciHasSub (p : List Char) : List Char → Bool
  | [] => false
  | c :: cs => (matchLit p (c :: cs)).isSome || ciHasSub p cs

/-- No occurrence of `p` starts at any position of `s` (exact,
case-sensitive — the `str.replace` notion of occurrence). -/
def noOcc (p s : List Char) : Prop := ∀ i : ℕ, ¬ p.isPrefixOf (s.drop i)

/-- No occurrence of `p` starts inside the segment `u` when the text
continues with `v`. -/
def noStartIn (p u v : List Char) : Prop :=
  ∀ i : ℕ, i < u.length → ¬ p.isPrefixOf (u.drop i ++ v)

/-! ## Nested section builder (`all.py` lines 266-341) -/

/-- One entry of the `out` list built by
`build_nested_sections_from_regions`: each `out.append(...)` appends
either a section opener (recorded here with its numeric id path, rendered
by `render_item`), a section closer, or a leaf element line. -/
inductive OutItem where
  | secOpen (path : List ℕ)
  | secClose
  | leaf (line : List Char)
  deriving Repr, DecidableEq

/-- ASCII lower-casing of a character (`tag.lower()`; tags are ASCII). -/
def asciiLower (c : Char) : Char :=
  if 'A' ≤ c ∧ c ≤ 'Z' then Char.ofNat (c.toNat + 32) else c

/-- `str.lower` on ASCII strings. -/
def str_lower (s : List Char) : List Char := s.map asciiLower

/-- `level_map = {'h1': 1, 'h2': 2, 'h3': 3, 'h4': 4}` (`all.py` line 278). -/
def level_map (tag : List Char) : Option ℕ :=
  if tag = "h1".toList then some 1
  else if tag = "h2".toList then some 2
  else if tag = "h3".toList then some 3
  else if tag = "h4".toList then some 4
  else none

/-- `counters[lvl] += 1; for lower in range(lvl+1, 5): counters[lower] = 0`
(`all.py` lines 301-303), on counters modelled as a function from level to
count (the source's five-element list read only at indices `1..lvl ≤ 4`). -/
def bump_counters (c : ℕ → ℕ) (lvl : ℕ) : ℕ → ℕ :=
  fun j => if j = lvl then c j + 1 else if lvl < j then 0 else c j

/-- `close_to_level` (`all.py` lines 283-287): pop and close every open
section whose level is ≥ the target.  The stack is kept top-first (the
Python list's end is the head here). -/
def close_to_level (target : ℕ) : List ℕ → List ℕ × List OutItem
  | [] => ([], [])
  | l :: rest =>
      if target ≤ l then
        let pr := close_to_level target rest
        (pr.1, OutItem.secClose :: pr.2)
      else (l :: rest, [])

/-- `sec_id = ".".join([str(page_index+1)] + [str(counters[i]) for i in
range(1, lvl+1)])` (`all.py` lines 316-319), as a numeric path. -/
def sec_path (pageIndex : ℕ) (c : ℕ → ℕ) (lvl : ℕ) : List ℕ :=
  (pageIndex + 1) :: (List.range' 1 lvl).map c

/-- `f'<{tag} id="{rid}">{text_esc}</{tag}>'` (`all.py` lines 325 and 334). -/
def leaf_line (tag rid text_esc : List Char) : List Char :=
  '<' :: tag ++ (' ' :: "id=".toList ++ '"' :: rid ++ ['"', '>']) ++
    text_esc ++ ('<' :: '/' :: tag ++ ['>'])

/-- The loop state of `build_nested_sections_from_regions`: the five
counters (as a function), the open-section stack (top first), the
`base_opened` flag, and the `out` list. -/
structure BuildState where
  counters : ℕ → ℕ
  openStack : List ℕ
  baseOpened : Bool
  out : List OutItem

/-- Body of the `for r in regs:` loop (`all.py` lines 291-334).  The text
fallback `extract_text_from_rect(page, ...)` queries the external PDF
provider and is passed in as `fallback`; `autoEntities` is the
process-wide `AUTO_ENTITIES` toggle. -/
def build_step (pageIndex : ℕ) (autoEntities : Bool)
    (fallback : RegionA → List Char) (st : BuildState) (r : RegionA) :
    BuildState :=
  let tag := str_lower (if r.tag = [] then "p".toList else r.tag)
  let text0 := if r.text = [] then fallback r else r.text
  let text1 := if autoEntities then apply_html_entities text0 else text0
  let text_esc := escape_html_keep_bi_and_entities text1
  match level_map tag with
  | some lvl =>
      let counters := bump_counters st.counters lvl
      let baseOut : List OutItem :=
        if st.baseOpened then [] else [OutItem.secOpen [pageIndex + 1]]
      let baseStack := if st.baseOpened then st.openStack else 0 :: st.openStack
      let closed := close_to_level lvl baseStack
      { counters := counters,
        openStack := lvl :: closed.1,
        baseOpened := true,
        out := st.out ++ baseOut ++ closed.2 ++
          [OutItem.secOpen (sec_path pageIndex counters lvl),
           OutItem.leaf (leaf_line tag r.id text_esc)] }
  | none =>
      let baseOut : List OutItem :=
        if st.baseOpened then [] else [OutItem.secOpen [pageIndex + 1]]
      let baseStack := if st.baseOpened then st.openStack else 0 :: st.openStack
      { counters := st.counters,
        openStack := baseStack,
        baseOpened := true,
        out := st.out ++ baseOut ++ [OutItem.leaf (leaf_line tag r.id text_esc)] }

/-- `build_nested_sections_from_regions` as the sequence of appended
items: run the loop from the initial state and close every section still
open at the end (`all.py` lines 337-339). -/
def build_items (regs : List RegionA) (pageIndex : ℕ) (autoEntities : Bool)
    (fallback : RegionA → List Char) : List OutItem :=
  let st := regs.foldl (build_step pageIndex autoEntities fallback)
    { counters := fun _ => 0, openStack := [], baseOpened := false, out := [] }
  st.out ++ st.openStack.map (fun _ => OutItem.secClose)

/-- Decimal rendering of a section-path component. -/
def path_string (p : List ℕ) : List Char :=
  List.intercalate ['.'] (p.map (fun n => (Nat.repr n).toList))

/-- The string each `OutItem` stands for in the source's `out` list. -/
def render_item : OutItem → List Char
  | OutItem.secOpen p =>
      '<' :: "section ".toList ++ "id=".toList ++ '"' :: path_string p ++ ['"', '>']
  | OutItem.secClose => "</section>".toList
  | OutItem.leaf l => l

/-- `all.py` lines 267-341: the returned HTML chunk `"\n".join(out)`. -/
def build_nested_sections_from_regions (regs : List RegionA) (pageIndex : ℕ)
    (autoEntities : Bool) (fallback : RegionA → List Char) : List Char :=
  List.intercalate ['\n'] ((build_items regs pageIndex autoEntities fallback).map render_item)

/-- Maximum number of simultaneously open sections while scanning the
item sequence (current depth, running maximum). -/
def depth_run : List OutItem → ℕ → ℕ → ℕ × ℕ
  | [], d, m => (d, m)
  | OutItem.secOpen _ :: rest, d, m => depth_run rest (d + 1) (max m (d + 1))
  | OutItem.secClose :: rest, d, m => depth_run rest (d - 1) m
  | OutItem.leaf _ :: rest, d, m => depth_run rest d m

/-- Maximum open-section depth over the whole item sequence. -/
def max_open_depth (items : List OutItem) : ℕ := (depth_run items 0 0).2

/-- Strict lexicographic order on numeric id paths (a proper prefix
precedes its extensions). -/
def lex_lt : List ℕ → List ℕ → Bool
  | [], [] => false
  | [], _ :: _ => true
  | _ :: _, [] => false
  | a :: as, b :: bs => if a < b then true else if a = b then lex_lt as bs else false

/-- Sibling-order checker: scan the items with a stack holding, for every
open section (plus a virtual root at the bottom), the path of its last
direct child section; opening a section requires it to come strictly
lexicographically after its parent's previous child.  Returns the final
stack, or `none` on a violation (or on ill-nested input). -/
def sib_run : List OutItem → List (Option (List ℕ)) →
    Option (List (Option (List ℕ)))
  | [], st => some st
  | OutItem.secOpen p :: rest, st =>
      match st with
      | [] => none
      | c :: parentRest =>
          match c with
          | none => sib_run rest (none :: some p :: parentRest)
          | some q =>
              if lex_lt q p then sib_run rest (none :: some p :: parentRest)
              else none
  | OutItem.secClose :: rest, st =>
      match st with
      | [] => none
      | _ :: [] => none
      | _ :: c2 :: r2 => sib_run rest (c2 :: r2)
  | OutItem.leaf _ :: rest, st => sib_run rest st

/-- All sibling sections appear in strictly increasing path order. -/
def siblings_increasing (items : List OutItem) : Bool :=
  (sib_run items [none]).isSome

/-! Concrete regions for C3 (h1 then h3) and the C4 depth counterexample
(h1, h2, h3, h4). -/

/-- Two regions tagged h1 and h3 (h2 skipped). -/
def c3regs : List RegionA :=
  [ { id := "p1_r1".toList, rect := (0, 0, 10, 10), text := "Alpha".toList, tag := "h1".toList }
  , { id := "p1_r2".toList, rect := (0, 20, 10, 30), text := "Beta".toList, tag := "h3".toList } ]

/-- Four regions tagged h1, h2, h3, h4. -/
def c4regs : List RegionA :=
  [ { id := "p1_r1".toList, rect := (0, 0, 10, 10), text := "A".toList, tag := "h1".toList }
  , { id := "p1_r2".toList, rect := (0, 20, 10, 30), text := "B".toList, tag := "h2".toList }
  , { id := "p1_r3".toList, rect := (0, 40, 10, 50), text := "C".toList, tag := "h3".toList }
  , { id := "p1_r4".toList, rect := (0, 60, 10, 70), text := "D".toList, tag := "h4".toList } ]

/-- Substitution performed by one `replace` pass on a single character. -/
def subst_one (k : Char) (v : List Char) (c : Char) : List Char :=
  if c = k then v else [c]

/-- The fold of `apply_html_entities` over an arbitrary table. -/
def apply_table (T : List (Char × List Char)) (s : List Char) : List Char :=
  T.foldl (fun acc kv => replaceAll [kv.1] kv.2 acc) s

/-- First-match lookup substitution over a table. -/
def table_subst (T : List (Char × List Char)) (c : Char) : List Char :=
  match T with
  | [] => [c]
  | kv :: rest => if kv.1 = c then kv.2 else table_subst rest c

/-- Effective text of a region inside the section builder: the stored text
(or the provider fallback when empty), optionally entity-transcoded, then
escaped. -/
def region_text_esc (autoEntities : Bool) (fallback : RegionA → List Char)
    (r : RegionA) : List Char :=
  escape_html_keep_bi_and_entities
    (if autoEntities then apply_html_entities (if r.text = [] then fallback r else r.text)
     else (if r.text = [] then fallback r else r.text))

/-! Invariant vocabulary for the section builder. -/

/-- The counter vector strictly below the open section at level `l`:
positions `l+1` to `4`. -/
def ctail (c : ℕ → ℕ) (l : ℕ) : List ℕ := (List.range' (l + 1) (4 - l)).map c

/-- Reflexive closure of the path order. -/
def lex_le (v w : List ℕ) : Prop := lex_lt v w = true ∨ v = w

/-- What the builder guarantees about the recorded last-child path of an
open section at level `l`, relative to the current counters `c`. -/
def TrackerOk (pageIndex : ℕ) (c : ℕ → ℕ) (l : ℕ) : Option (List ℕ) → Prop
  | none => True
  | some q => ∃ L, l < L ∧ L ≤ 4 ∧
      q.length = L + 1 ∧
      q.take (l + 1) = (pageIndex + 1) :: (List.range' 1 l).map c ∧
      lex_le (q.drop (l + 1) ++ List.replicate (4 - L) 0) (ctail c l) ∧
      (∃ k, q.getLast? = some k ∧ 1 ≤ k)

/-- Shape of the open-section stack (top first): strictly decreasing
levels, all at most 4, bottom sentinel 0. -/
def StkOk (stk : List ℕ) : Prop :=
  stk.Chain' (fun a b => b < a) ∧ (∀ l ∈ stk, l ≤ 4) ∧ stk.getLast? = some 0

/-- Builder loop invariant: either nothing has been emitted yet, or the
emitted items replay to the current stack shape with depth at most 5 and
a sibling-tracker stack matching the open sections. -/
def BuildInv (pageIndex : ℕ) (S : BuildState) : Prop :=
  (S.baseOpened = false ∧ S.openStack = [] ∧ S.out = []) ∨
  (S.baseOpened = true ∧ StkOk S.openStack ∧
    (∃ m, depth_run S.out 0 0 = (S.openStack.length, m) ∧ m ≤ 5) ∧
    (∃ ts, sib_run S.out [none] = some (ts ++ [some [pageIndex + 1]]) ∧
      List.Forall₂ (fun t l => TrackerOk pageIndex S.counters l t)
        ts S.openStack))

/-- Indexing into the zip of a list with its own map. -/
theorem zip_map_self_getElem? {α β : Type} (l : List α) (g : α → β) :
    ∀ (i : ℕ), (l.zip (l.map g))[i]? = (l[i]?).map (fun a => (a, g a)) := by
  induction l with
  | nil => intro i; simp
  | cons a as ih =>
    intro i
    cases i with
    | zero => simp
    | succ j => simpa using ih j

end PdfTagger

open PdfTagger

/-- C5: classifying three regions whose average font sizes are 12, 9 and 6
(page maximum 12) assigns tags h1, h3 and p; in particular the ratio
9/12 = 0.75 is not greater than the 0.75 threshold, so the middle region is
classified h3 (not h2), per the strict inequalities of the ladder. -/
theorem claim_C5_boundary_classification :
    (infer_headings_for_page c5regs c5spans).1 = InferStatus.ok ∧
    ((infer_headings_for_page c5regs c5spans).2.map (fun r => r.tag)) =
      ["h1".toList, "h3".toList, "p".toList] ∧
    heading_tag_of_ratio (9/12) = "h3".toList := by
  refine ⟨?_, ?_, ?_⟩ <;>
    norm_num +decide [infer_headings_for_page, c5regs, c5spans, span_avg, pymax,
      pymax2, heading_tag_of_ratio]

/-- C9: with an empty region list the classifier reports the no-regions
status and returns the region list unchanged; with a non-empty region list
whose maximum average size is not positive it reports the no-sizes status
and likewise leaves every region untouched. -/
theorem claim_C9_no_data_leaves_state :
    ∀ (regs : List RegionA) (spansOf : RegionA → List ℚ),
      (regs = [] →
        infer_headings_for_page regs spansOf = (InferStatus.noRegions, regs)) ∧
      (regs ≠ [] →
        pymax (regs.map (fun r => span_avg (spansOf r))) ≤ 0 →
        infer_headings_for_page regs spansOf = (InferStatus.noSizes, regs)) := by
  intro regs spansOf
  constructor
  · intro h; subst h; rfl
  · intro hne hmax
    have hviz : regs.isEmpty = false := by
      cases regs with
      | nil => exact absurd rfl hne
      | cons a as => rfl
    simp only [infer_headings_for_page, hviz, Bool.false_eq_true, if_false, if_pos hmax]

/-- Witness for C9 at concrete inputs: the empty list branch, and a
one-region page whose only span size is 0. -/
theorem claim_C9_no_data_leaves_state_witness :
    infer_headings_for_page [] (fun _ => [(5 : ℚ)]) =
      (InferStatus.noRegions, []) ∧
    infer_headings_for_page c5regs (fun _ => [(0 : ℚ)]) =
      (InferStatus.noSizes, c5regs) := by
  constructor
  · exact (claim_C9_no_data_leaves_state [] (fun _ => [(5 : ℚ)])).1 rfl
  · exact (claim_C9_no_data_leaves_state c5regs (fun _ => [(0 : ℚ)])).2
      (by simp [c5regs]) (by norm_num +decide [c5regs, span_avg, pymax, pymax2])

/-- C10: when classification actually runs (non-empty region list, positive
maximum average size), the classifier keeps the number and order of regions,
leaves each region's `rect` and `text` unchanged, and rewrites only `tag`
(to the threshold-ladder tag of its size ratio) and `id` (to the new tag,
an underscore, then the old id). -/
theorem claim_C10_frame_effect :
    ∀ (regs : List RegionA) (spansOf : RegionA → List ℚ),
      regs ≠ [] →
      0 < pymax (regs.map (fun r => span_avg (spansOf r))) →
      (infer_headings_for_page regs spansOf).1 = InferStatus.ok ∧
      (infer_headings_for_page regs spansOf).2.length = regs.length ∧
      ∀ (i : ℕ),
        ((infer_headings_for_page regs spansOf).2[i]?).map RegionA.rect =
          (regs[i]?).map RegionA.rect ∧
        ((infer_headings_for_page regs spansOf).2[i]?).map RegionA.text =
          (regs[i]?).map RegionA.text ∧
        ((infer_headings_for_page regs spansOf).2[i]?).map RegionA.tag =
          (regs[i]?).map (fun r =>
            heading_tag_of_ratio
              (span_avg (spansOf r) /
                pymax (regs.map (fun s => span_avg (spansOf s))))) ∧
        ((infer_headings_for_page regs spansOf).2[i]?).map RegionA.id =
          (regs[i]?).map (fun r =>
            heading_tag_of_ratio
              (span_avg (spansOf r) /
                pymax (regs.map (fun s => span_avg (spansOf s)))) ++ '_' :: r.id) := by
  intro regs spansOf hne hpos
  have hviz : regs.isEmpty = false := by
    cases regs with
    | nil => exact absurd rfl hne
    | cons a as => rfl
  have hlt : ¬ pymax (regs.map (fun r => span_avg (spansOf r))) ≤ 0 :=
    not_le.mpr hpos
  have hout : infer_headings_for_page regs spansOf =
      (InferStatus.ok,
        (regs.zip (regs.map (fun r => span_avg (spansOf r)))).map (fun p =>
          let ratio := if pymax (regs.map (fun r => span_avg (spansOf r))) > 0
            then p.2 / pymax (regs.map (fun r => span_avg (spansOf r))) else 0
          let new_tag := heading_tag_of_ratio ratio
          { p.1 with tag := new_tag, id := new_tag ++ '_' :: p.1.id })) := by
    simp only [infer_headings_for_page, hviz, Bool.false_eq_true, if_false,
      if_neg hlt]
  rw [hout]
  refine ⟨rfl, by simp [List.length_zip], ?_⟩
  intro i
  have hz := zip_map_self_getElem? regs (fun r => span_avg (spansOf r)) i
  simp only [List.getElem?_map, hz, Option.map_map, if_pos hpos]
  cases regs[i]? with
  | none => simp
  | some r => simp [Function.comp]

/-- Witness for C10 at the concrete three-region page of C5. -/
theorem claim_C10_frame_effect_witness :
    ((infer_headings_for_page c5regs c5spans).2[1]?).map RegionA.tag =
      (c5regs[1]?).map (fun r =>
        heading_tag_of_ratio
          (span_avg (c5spans r) /
            pymax (c5regs.map (fun s => span_avg (c5spans s))))) ∧
    ((infer_headings_for_page c5regs c5spans).2[1]?).map RegionA.text =
      (c5regs[1]?).map RegionA.text :=
  ⟨((claim_C10_frame_effect c5regs c5spans (by simp [c5regs])
      (by norm_num +decide [c5regs, c5spans, span_avg, pymax, pymax2])).2.2 1).2.2.1,
   ((claim_C10_frame_effect c5regs c5spans (by simp [c5regs])
      (by norm_num +decide [c5regs, c5spans, span_avg, pymax, pymax2])).2.2 1).2.1⟩

/-! ### Lemmas about the min/max folds of `zone.py` -/

namespace PdfTagger

theorem pymin2_comm (a b : ℚ) : pymin2 a b = pymin2 b a := by
  unfold pymin2; split_ifs <;> linarith

theorem pymin2_assoc (a b c : ℚ) :
    pymin2 (pymin2 a b) c = pymin2 a (pymin2 b c) := by
  unfold pymin2; split_ifs <;> linarith

theorem pymin2_absorb (a b : ℚ) : pymin2 (pymin2 a b) a = pymin2 a b := by
  unfold pymin2; split_ifs <;> linarith

theorem pymax2_comm (a b : ℚ) : pymax2 a b = pymax2 b a := by
  unfold pymax2; split_ifs <;> linarith

theorem pymax2_assoc (a b c : ℚ) :
    pymax2 (pymax2 a b) c = pymax2 a (pymax2 b c) := by
  unfold pymax2; split_ifs <;> linarith

theorem pymax2_absorb (a b : ℚ) : pymax2 (pymax2 a b) a = pymax2 a b := by
  unfold pymax2; split_ifs <;> linarith

theorem foldl_pymin2 (B : List ℚ) (hB : B ≠ []) :
    ∀ a : ℚ, B.foldl pymin2 a = pymin2 a (pyminL B) := by
  induction B with
  | nil => exact absurd rfl hB
  | cons b bs ih =>
    intro a
    rcases eq_or_ne bs [] with hbs | hne
    · subst hbs; simp [pyminL]
    · calc (b :: bs).foldl pymin2 a = bs.foldl pymin2 (pymin2 a b) := rfl
        _ = pymin2 (pymin2 a b) (pyminL bs) := ih hne (pymin2 a b)
        _ = pymin2 a (pymin2 b (pyminL bs)) := pymin2_assoc _ _ _
        _ = pymin2 a (pyminL (b :: bs)) := by
              rw [show pyminL (b :: bs) = pymin2 b (pyminL bs) from ih hne b]

theorem pyminL_cons (a : ℚ) (as : List ℚ) (has : as ≠ []) :
    pyminL (a :: as) = pymin2 a (pyminL as) :=
  foldl_pymin2 as has a

theorem foldl_pymax2 (B : List ℚ) (hB : B ≠ []) :
    ∀ a : ℚ, B.foldl pymax2 a = pymax2 a (pymaxL B) := by
  induction B with
  | nil => exact absurd rfl hB
  | cons b bs ih =>
    intro a
    rcases eq_or_ne bs [] with hbs | hne
    · subst hbs; simp [pymaxL]
    · calc (b :: bs).foldl pymax2 a = bs.foldl pymax2 (pymax2 a b) := rfl
        _ = pymax2 (pymax2 a b) (pymaxL bs) := ih hne (pymax2 a b)
        _ = pymax2 a (pymax2 b (pymaxL bs)) := pymax2_assoc _ _ _
        _ = pymax2 a (pymaxL (b :: bs)) := by
              rw [show pymaxL (b :: bs) = pymax2 b (pymaxL bs) from ih hne b]

theorem pymaxL_cons (a : ℚ) (as : List ℚ) (has : as ≠ []) :
    pymaxL (a :: as) = pymax2 a (pymaxL as) :=
  foldl_pymax2 as has a

theorem pyminL_append (A B : List ℚ) (hA : A ≠ []) (hB : B ≠ []) :
    pyminL (A ++ B) = pymin2 (pyminL A) (pyminL B) := by
  cases A with
  | nil => exact absurd rfl hA
  | cons a as =>
    show (as ++ B).foldl pymin2 a = _
    rw [List.foldl_append, foldl_pymin2 B hB]
    rcases eq_or_ne as [] with h | has
    · subst h; simp [pyminL]
    · rw [foldl_pymin2 as has, pyminL_cons a as has]

theorem pymaxL_append (A B : List ℚ) (hA : A ≠ []) (hB : B ≠ []) :
    pymaxL (A ++ B) = pymax2 (pymaxL A) (pymaxL B) := by
  cases A with
  | nil => exact absurd rfl hA
  | cons a as =>
    show (as ++ B).foldl pymax2 a = _
    rw [List.foldl_append, foldl_pymax2 B hB]
    rcases eq_or_ne as [] with h | has
    · subst h; simp [pymaxL]
    · rw [foldl_pymax2 as has, pymaxL_cons a as has]

theorem bbox_merge_comm (b1 b2 : ℚ × ℚ × ℚ × ℚ) :
    bbox_merge b1 b2 = bbox_merge b2 b1 := by
  unfold bbox_merge
  rw [pymin2_comm, pymax2_comm, pymin2_comm b1.2.1, pymax2_comm b1.2.2.2]

theorem bbox_merge_assoc (b1 b2 b3 : ℚ × ℚ × ℚ × ℚ) :
    bbox_merge (bbox_merge b1 b2) b3 = bbox_merge b1 (bbox_merge b2 b3) := by
  unfold bbox_merge
  rw [pymin2_assoc, pymax2_assoc, pymin2_assoc, pymax2_assoc]

theorem bbox_merge_absorb (b1 b2 : ℚ × ℚ × ℚ × ℚ) :
    bbox_merge (bbox_merge b1 b2) b1 = bbox_merge b1 b2 := by
  unfold bbox_merge
  rw [pymin2_absorb, pymax2_absorb, pymin2_absorb, pymax2_absorb]

/-- Tight boxes compose: the tight box of a concatenation is the merge of
the tight boxes of the parts. -/
theorem words_tight_bbox_append (A B : List WordZ) (hA : A ≠ []) (hB : B ≠ []) :
    words_tight_bbox (A ++ B) =
      bbox_merge (words_tight_bbox A) (words_tight_bbox B) := by
  have hA' : ∀ f : WordZ → ℚ, A.map f ≠ [] := fun f => by simpa using hA
  have hB' : ∀ f : WordZ → ℚ, B.map f ≠ [] := fun f => by simpa using hB
  unfold words_tight_bbox bbox_merge
  simp only [List.map_append]
  rw [pyminL_append _ _ (hA' _) (hB' _), pyminL_append _ _ (hA' _) (hB' _),
    pymaxL_append _ _ (hA' _) (hB' _), pymaxL_append _ _ (hA' _) (hB' _)]

theorem foldl_bbox_merge (B : List (ℚ × ℚ × ℚ × ℚ)) (hB : B ≠ []) :
    ∀ a, B.foldl bbox_merge a = bbox_merge a (union_bbox B) := by
  induction B with
  | nil => exact absurd rfl hB
  | cons b bs ih =>
    intro a
    rcases eq_or_ne bs [] with hbs | hne
    · subst hbs; simp [union_bbox]
    · calc (b :: bs).foldl bbox_merge a = bs.foldl bbox_merge (bbox_merge a b) := rfl
        _ = bbox_merge (bbox_merge a b) (union_bbox bs) := ih hne _
        _ = bbox_merge a (bbox_merge b (union_bbox bs)) := bbox_merge_assoc _ _ _
        _ = bbox_merge a (union_bbox (b :: bs)) := by
              rw [show union_bbox (b :: bs) = bbox_merge b (union_bbox bs) from ih hne b]

theorem union_bbox_cons (b : ℚ × ℚ × ℚ × ℚ) (bs : List (ℚ × ℚ × ℚ × ℚ))
    (hbs : bs ≠ []) : union_bbox (b :: bs) = bbox_merge b (union_bbox bs) :=
  foldl_bbox_merge bs hbs b

theorem union_bbox_concat (X : List (ℚ × ℚ × ℚ × ℚ)) (b : ℚ × ℚ × ℚ × ℚ)
    (hX : X ≠ []) : union_bbox (X ++ [b]) = bbox_merge (union_bbox X) b := by
  cases X with
  | nil => exact absurd rfl hX
  | cons d ds =>
    show (ds ++ [b]).foldl bbox_merge d = _
    rw [List.foldl_append]
    rcases eq_or_ne ds [] with h | hds
    · subst h; simp [union_bbox]
    · rw [foldl_bbox_merge ds hds, union_bbox_cons d ds hds]
      rfl

theorem union_bbox_reverse (l : List (ℚ × ℚ × ℚ × ℚ)) :
    union_bbox l.reverse = union_bbox l := by
  induction l with
  | nil => rfl
  | cons b bs ih =>
    rcases eq_or_ne bs [] with hbs | hne
    · subst hbs; rfl
    · have hrev : bs.reverse ≠ [] := by simpa using hne
      rw [List.reverse_cons, union_bbox_concat bs.reverse b hrev, ih,
        bbox_merge_comm, union_bbox_cons b bs hne]

end PdfTagger

/-! ### Lemmas about `merge_loop` and `on_merge` -/

namespace PdfTagger

theorem bbox_merge_self (b : ℚ × ℚ × ℚ × ℚ) : bbox_merge b b = b := by
  unfold bbox_merge pymin2 pymax2
  split_ifs <;> simp_all

theorem getbang_shift (U W : List Para) (k : ℕ) :
    (U ++ W)[U.length + k]! = W[k]! := by
  induction U with
  | nil => simp
  | cons u us ih =>
    have : us.length + 1 + k = (us.length + k) + 1 := by omega
    simp only [List.cons_append, List.length_cons, this]
    simpa using ih

theorem eraseIdx_shift (U W : List Para) (k : ℕ) :
    (U ++ W).eraseIdx (U.length + k) = U ++ W.eraseIdx k := by
  induction U with
  | nil => simp
  | cons u us ih =>
    have : us.length + 1 + k = (us.length + k) + 1 := by omega
    simp only [List.cons_append, List.length_cons, this, List.eraseIdx_cons_succ]
    rw [ih]

theorem insertIdx_append_self (U V : List Para) (x : Para) :
    (U ++ V).insertIdx U.length x = U ++ x :: V := by
  induction U with
  | nil => rfl
  | cons u us ih => simpa using ih

/-- The descending pop/accumulate loop of `on_merge`, run over the block of
indices `a, …, a + M.length - 1`, removes exactly the block `M` and
accumulates its texts, words and boxes in ascending order. -/
theorem merge_loop_spec (M : List Para) (a : ℕ) (U V : List Para) :
    ∀ (texts : List (List Char)) (ws : List WordZ) (bb : ℚ × ℚ × ℚ × ℚ),
    U.length = a →
    merge_loop (List.range' a M.length).reverse (U ++ M ++ V, texts, ws, bb) =
      (U ++ V, M.map Para.text ++ texts, (M.map Para.words).flatten ++ ws,
       ((M.map Para.bbox).reverse).foldl bbox_merge bb) := by
  induction M using List.reverseRecOn with
  | nil => intro texts ws bb hU; simp [merge_loop]
  | append_singleton M0 m ih =>
    intro texts ws bb hU
    have hlen : (M0 ++ [m]).length = M0.length + 1 := by simp
    have hrange : (List.range' a (M0 ++ [m]).length).reverse =
        (a + M0.length) :: (List.range' a M0.length).reverse := by
      rw [hlen, List.range'_concat]
      simp
    rw [hrange]
    have hps : U ++ (M0 ++ [m]) ++ V = U ++ (M0 ++ ([m] ++ V)) := by simp
    have hget : (U ++ (M0 ++ ([m] ++ V)))[a + M0.length]! = m := by
      rw [← hU, getbang_shift U _ M0.length]
      have h0 : M0.length = M0.length + 0 := rfl
      rw [h0, getbang_shift M0 ([m] ++ V) 0]
      simp
    have herase : (U ++ (M0 ++ ([m] ++ V))).eraseIdx (a + M0.length) =
        U ++ M0 ++ V := by
      rw [← hU, eraseIdx_shift U _ M0.length]
      have h0 : M0.length = M0.length + 0 := rfl
      rw [h0, eraseIdx_shift M0 ([m] ++ V) 0]
      simp
    rw [hps]
    have hstep : merge_loop ((a + M0.length) :: (List.range' a M0.length).reverse)
        (U ++ (M0 ++ ([m] ++ V)), texts, ws, bb) =
        merge_loop (List.range' a M0.length).reverse
          ((U ++ (M0 ++ ([m] ++ V))).eraseIdx (a + M0.length),
           ((U ++ (M0 ++ ([m] ++ V)))[a + M0.length]!).text :: texts,
           ((U ++ (M0 ++ ([m] ++ V)))[a + M0.length]!).words ++ ws,
           bbox_merge bb ((U ++ (M0 ++ ([m] ++ V)))[a + M0.length]!).bbox) := rfl
    rw [hstep, hget, herase,
      ih (m.text :: texts) (m.words ++ ws) (bbox_merge bb m.bbox) hU]
    refine Prod.ext rfl (Prod.ext ?_ (Prod.ext ?_ ?_)) <;>
      simp [List.map_append, List.reverse_append]

end PdfTagger

namespace PdfTagger

/-- The adjacency check of `on_merge` accepts every contiguous block. -/
theorem range'_adjacent : ∀ (n a : ℕ),
    ((List.range' a n).zip (List.range' a n).tail).all
      (fun ab => ab.2 = ab.1 + 1) = true := by
  intro n
  induction n with
  | zero => intro a; rfl
  | succ k ih =>
    intro a
    cases k with
    | zero => rfl
    | succ j =>
      have h1 : List.range' a (j + 1 + 1) = a :: List.range' (a + 1) (j + 1) :=
        List.range'_succ a (j + 1) 1
      have h2 : List.range' (a + 1) (j + 1) =
          (a + 1) :: List.range' (a + 2) j := by
        have := List.range'_succ (a + 1) j 1
        simpa [Nat.add_assoc] using this
      rw [h1]
      conv_lhs => rw [h2]
      simp only [List.tail_cons, List.zip_cons_cons, List.all_cons]
      refine (Bool.and_eq_true _ _).mpr ⟨by simp, ?_⟩
      have := ih (a + 1)
      rw [h2] at this
      simpa using this

/-- Decomposition of a list around a contiguous index block. -/
theorem take_block_drop (paras : List Para) (a n : ℕ) :
    paras = paras.take a ++ ((paras.drop a).take n ++ paras.drop (a + n)) := by
  have h1 : paras.drop a = (paras.drop a).take n ++ (paras.drop a).drop n :=
    (List.take_append_drop n (paras.drop a)).symm
  have h2 : (paras.drop a).drop n = paras.drop (a + n) := List.drop_drop n a paras
  calc paras = paras.take a ++ paras.drop a := (List.take_append_drop a paras).symm
    _ = paras.take a ++ ((paras.drop a).take n ++ paras.drop (a + n)) := by
        rw [← h2, ← h1]

end PdfTagger

/-- C8: merging a contiguous ascending block of selected indices replaces
the block by a single region whose text is the selected texts joined with
a line break, whose rectangle is the union bounding box of the selected
rectangles, and whose word list is the concatenation of the selected word
lists, in index order; a non-contiguous selection is rejected with the
non-adjacent report (and, the model being pure, the region list is
returned only on success, so a rejection leaves the caller's list as it
was). -/
theorem claim_C8_merge_contiguous_or_reject :
    ∀ (paras : List Para) (sel : List ℕ) (a n : ℕ),
      (sel = List.range' a n → 2 ≤ n → a + n ≤ paras.length →
        on_merge paras sel = MergeRes.ok
          (paras.take a ++
            { bbox := union_bbox (((paras.drop a).take n).map Para.bbox),
              text := List.intercalate ['\n'] (((paras.drop a).take n).map Para.text),
              words := (((paras.drop a).take n).map Para.words).flatten } ::
            paras.drop (a + n))) ∧
      (2 ≤ sel.length →
        ¬ ((sel.zip sel.tail).all (fun ab => ab.2 = ab.1 + 1) = true) →
        on_merge paras sel = MergeRes.nonAdjacent) := by
  intro paras sel a n
  constructor
  · intro hsel hn hle
    subst hsel
    set M := (paras.drop a).take n with hM
    set D := paras.take a with hD
    set E := paras.drop (a + n) with hE
    have hMlen : M.length = n := by
      rw [hM, List.length_take, List.length_drop]
      omega
    have hMne : M ≠ [] := by
      intro h
      rw [h] at hMlen
      simp at hMlen
      omega
    have hUlen : D.length = a := by
      rw [hD, List.length_take]
      omega
    have hdec : paras = D ++ (M ++ E) := take_block_drop paras a n
    have hlen2 : ¬ (List.range' a n).length < 2 := by
      rw [List.length_range']
      omega
    have hhead : (List.range' a n).headD 0 = a := by
      cases n with
      | zero => omega
      | succ k => rw [List.range'_succ]; rfl
    have hadj := range'_adjacent n a
    have hc : ¬¬((((List.range' a n).zip (List.range' a n).tail).all
        fun ab => decide (ab.2 = ab.1 + 1)) = true) := not_not_intro hadj
    conv_lhs => rw [hdec]
    simp only [on_merge, if_neg hlen2, if_neg hc, hhead]
    have hassoc2 : D ++ (M ++ E) = D ++ M ++ E := (List.append_assoc D M E).symm
    rw [hassoc2]
    have hloop := merge_loop_spec M a D E [] [] ((D ++ M ++ E)[a]!).bbox hUlen
    rw [hMlen] at hloop
    rw [hloop]
    have hget0 : (D ++ M ++ E)[a]! = M[0]! := by
      rw [← hassoc2]
      have h1 := getbang_shift D (M ++ E) 0
      rw [hUlen] at h1
      simp only [Nat.add_zero] at h1
      rw [h1]
      cases hM0 : M with
      | nil => exact absurd hM0 hMne
      | cons m0 ms => simp
    have hbb : (List.map Para.bbox M).reverse.foldl bbox_merge
        ((D ++ M ++ E)[a]!).bbox = union_bbox (M.map Para.bbox) := by
      have hmapne : M.map Para.bbox ≠ [] := by simpa using hMne
      have hrevne : (M.map Para.bbox).reverse ≠ [] := by simpa using hmapne
      rw [foldl_bbox_merge _ hrevne, union_bbox_reverse, hget0]
      cases hM0 : M with
      | nil => exact absurd hM0 hMne
      | cons m0 ms =>
        have hms : ms ≠ [] := by
          intro h
          rw [hM0, h] at hMlen
          simp at hMlen
          omega
        have hmsne : ms.map Para.bbox ≠ [] := by simpa using hms
        simp only [List.map_cons]
        rw [union_bbox_cons _ _ hmsne, ← bbox_merge_assoc]
        simp only [List.getElem!_cons_zero]
        rw [bbox_merge_self]
    rw [hbb]
    have hins := insertIdx_append_self D E
      { bbox := union_bbox (M.map Para.bbox),
        text := List.intercalate ['\n'] (M.map Para.text),
        words := (M.map Para.words).flatten }
    rw [hUlen] at hins
    simp only [List.append_nil]
    rw [hins]
  · intro hlen hadj
    unfold on_merge
    rw [if_neg (by omega), if_pos (by simpa using hadj)]

/-- Witness for C8: merging the contiguous selection `[1, 2]` of a concrete
three-paragraph page, and rejecting the non-contiguous selection `[0, 2]`. -/
theorem claim_C8_merge_contiguous_or_reject_witness :
    on_merge c8paras [1, 2] = MergeRes.ok
      (c8paras.take 1 ++
        { bbox := union_bbox (((c8paras.drop 1).take 2).map Para.bbox),
          text := List.intercalate ['\n'] (((c8paras.drop 1).take 2).map Para.text),
          words := (((c8paras.drop 1).take 2).map Para.words).flatten } ::
        c8paras.drop 3) ∧
    on_merge c8paras [0, 2] = MergeRes.nonAdjacent := by
  constructor
  · exact (claim_C8_merge_contiguous_or_reject c8paras [1, 2] 1 2).1 rfl
      (by decide) (by decide)
  · exact (claim_C8_merge_contiguous_or_reject c8paras [0, 2] 0 0).2
      (by decide) (by decide)

/-- C7 (amended): splitting a paragraph at any click point for which the
split succeeds and then immediately merging the two pieces yields a single
region whose word list is exactly the original word list (in particular an
equal multiset) and whose bounding box is the tight bounding box of those
words — the union of the two split boxes — which coincides with the
original box only when the original box was already tight. -/
theorem claim_C7_split_merge_amended :
    ∀ (para : Para) (x y : ℚ) (l r : Para),
      on_split_horizontal para x y = some (l, r) →
      on_merge [l, r] [0, 1] =
        MergeRes.ok [{ bbox := words_tight_bbox para.words,
                       text := l.text ++ '\n' :: r.text,
                       words := para.words }] := by
  intro para x y l r h
  unfold on_split_horizontal at h
  cases hw : para.words with
  | nil => rw [hw] at h; exact absurd h (by simp)
  | cons w ws =>
    rw [hw] at h
    cases hn : nearest_word_index (w :: ws) x y with
    | none => rw [hn] at h; exact absurd h (by simp)
    | some idx =>
      rw [hn] at h
      dsimp only at h
      by_cases hr : (w :: ws).drop (idx + 1) = []
      · rw [if_pos hr] at h; exact absurd h (by simp)
      · rw [if_neg hr] at h
        have hl : l = { bbox := words_tight_bbox ((w :: ws).take (idx + 1)),
                        text := join_word_texts ((w :: ws).take (idx + 1)),
                        words := (w :: ws).take (idx + 1) } := by
          have := congrArg (fun o => Option.map Prod.fst o) h
          simpa using this.symm
        have hrr : r = { bbox := words_tight_bbox ((w :: ws).drop (idx + 1)),
                         text := join_word_texts ((w :: ws).drop (idx + 1)),
                         words := (w :: ws).drop (idx + 1) } := by
          have := congrArg (fun o => Option.map Prod.snd o) h
          simpa using this.symm
        have hmerge : on_merge [l, r] [0, 1] =
            MergeRes.ok [{ bbox := bbox_merge (bbox_merge l.bbox r.bbox) l.bbox,
                           text := l.text ++ '\n' :: r.text,
                           words := l.words ++ r.words }] := by
          simp [on_merge, merge_loop, List.intercalate]
        rw [hmerge]
        have htake : (w :: ws).take (idx + 1) ≠ [] := by simp
        have hwords : l.words ++ r.words = para.words := by
          rw [hl, hrr, hw]
          exact List.take_append_drop (idx + 1) (w :: ws)
        have hbox : bbox_merge (bbox_merge l.bbox r.bbox) l.bbox =
            words_tight_bbox para.words := by
          rw [bbox_merge_absorb, hl, hrr, hw]
          show bbox_merge (words_tight_bbox _) (words_tight_bbox _) = _
          rw [← words_tight_bbox_append _ _ htake hr,
            List.take_append_drop (idx + 1) (w :: ws)]
        rw [hbox, hwords, hw]

/-- Witness for C7 (amended) at the concrete paragraph `c7para` split at
the click point (11, 11). -/
theorem claim_C7_split_merge_amended_witness :
    on_merge [c7left, c7right] [0, 1] =
      MergeRes.ok [{ bbox := words_tight_bbox c7para.words,
                     text := c7left.text ++ '\n' :: c7right.text,
                     words := c7para.words }] :=
  claim_C7_split_merge_amended c7para 11 11 c7left c7right
    (by norm_num [on_split_horizontal, nearest_word_index, nwi_go, word_dist2,
      c7para, c7left, c7right, words_tight_bbox, join_word_texts,
      List.intercalate, pyminL, pymaxL, pymin2, pymax2])

/-- C7 (counterexample to the claim as stated): for the concrete paragraph
`c7para`, whose stored rectangle `(0,0,100,100)` is larger than the tight
box of its words, the split at click point (11, 11) succeeds, the merge of
the two pieces succeeds, and the merged bounding box `(10,10,40,20)` is
not the original region's bounding box. -/
theorem claim_C7_counterexample :
    on_split_horizontal c7para 11 11 = some (c7left, c7right) ∧
    on_merge [c7left, c7right] [0, 1] =
      MergeRes.ok [{ bbox := (10, 10, 40, 20),
                     text := "a\nb".toList,
                     words := c7para.words }] ∧
    ((10 : ℚ), (10 : ℚ), (40 : ℚ), (20 : ℚ)) ≠ c7para.bbox := by
  refine ⟨?_, ?_, ?_⟩
  · norm_num [on_split_horizontal, nearest_word_index, nwi_go, word_dist2,
      c7para, c7left, c7right, words_tight_bbox, join_word_texts,
      List.intercalate, pyminL, pymaxL, pymin2, pymax2]
  · norm_num [on_merge, merge_loop, c7para, c7left, c7right, bbox_merge,
      List.intercalate, pymin2, pymax2]
  · norm_num [c7para]

/-! ### Lemmas about `apply_html_entities` (C6) -/

namespace PdfTagger

theorem replaceAllF_single (k : Char) (v : List Char) :
    ∀ (fuel : ℕ) (s : List Char), s.length ≤ fuel →
      replaceAllF fuel [k] v s = (s.map (subst_one k v)).flatten := by
  intro fuel
  induction fuel with
  | zero =>
    intro s hs
    have : s = [] := List.eq_nil_of_length_eq_zero (Nat.le_zero.mp hs)
    subst this; rfl
  | succ f ih =>
    intro s hs
    cases s with
    | nil => rfl
    | cons c cs =>
      show (if [k].isPrefixOf (c :: cs) then
          v ++ replaceAllF f [k] v (List.drop 0 cs)
        else c :: replaceAllF f [k] v cs) = _
      have hcs : cs.length ≤ f := by
        simpa [Nat.succ_le_succ_iff] using hs
      by_cases hk : k = c
      · have hpre : [k].isPrefixOf (c :: cs) = true := by
          subst hk; simp [List.isPrefixOf]
        rw [if_pos hpre, List.drop_zero, ih cs hcs]
        subst hk
        rw [List.map_cons, List.flatten_cons,
          show subst_one k v k = v from if_pos rfl]
      · have hpre : ¬ ([k].isPrefixOf (c :: cs) = true) := by
          simp only [List.isPrefixOf, Bool.and_eq_true, beq_iff_eq]
          intro h
          exact hk h.1
        rw [if_neg hpre, ih cs hcs]
        have hck : ¬ c = k := fun h => hk h.symm
        rw [List.map_cons, List.flatten_cons,
          show subst_one k v c = [c] from if_neg hck]
        simp

theorem replaceAll_single (k : Char) (v s : List Char) :
    replaceAll [k] v s = (s.map (subst_one k v)).flatten :=
  replaceAllF_single k v s.length s (Nat.le_refl _)

theorem table_subst_of_no_key (T : List (Char × List Char)) (c : Char)
    (h : ∀ kv ∈ T, kv.1 ≠ c) : table_subst T c = [c] := by
  induction T with
  | nil => rfl
  | cons kv rest ih =>
    show (if kv.1 = c then kv.2 else table_subst rest c) = [c]
    rw [if_neg (h kv (by simp))]
    exact ih (fun kv2 h2 => h kv2 (by simp [h2]))

theorem flatten_map_id_of_no_key (T : List (Char × List Char)) (u : List Char)
    (h : ∀ ch ∈ u, ∀ kv ∈ T, kv.1 ≠ ch) :
    (u.map (table_subst T)).flatten = u := by
  induction u with
  | nil => rfl
  | cons ch rest ih =>
    simp only [List.map_cons, List.flatten_cons]
    rw [table_subst_of_no_key T ch (h ch (by simp)),
      ih (fun ch2 h2 => h ch2 (by simp [h2]))]
    rfl

theorem flatten_map_flatten (g : Char → List Char) (f : Char → List Char) :
    ∀ (s : List Char),
      (((s.map f).flatten).map g).flatten =
        (s.map (fun c => ((f c).map g).flatten)).flatten := by
  intro s
  induction s with
  | nil => rfl
  | cons c cs ih =>
    simp only [List.map_cons, List.flatten_cons, List.map_append,
      List.flatten_append, ih]

theorem apply_table_eq (T : List (Char × List Char))
    (hok : ∀ kv ∈ T, ∀ kv2 ∈ T, kv.1 ∉ kv2.2) :
    ∀ s, apply_table T s = (s.map (table_subst T)).flatten := by
  induction T with
  | nil =>
    intro s
    show s = _
    induction s with
    | nil => rfl
    | cons c cs ihs => simpa [table_subst] using ihs
  | cons kv rest ih =>
    intro s
    have hok' : ∀ kv1 ∈ rest, ∀ kv2 ∈ rest, kv1.1 ∉ kv2.2 := by
      intro a ha b hb
      exact hok a (by simp [ha]) b (by simp [hb])
    show apply_table rest (replaceAll [kv.1] kv.2 s) = _
    rw [ih hok', replaceAll_single, flatten_map_flatten]
    congr 1
    apply List.map_congr_left
    intro c _
    by_cases hc : c = kv.1
    · subst hc
      rw [show subst_one kv.1 kv.2 kv.1 = kv.2 from if_pos rfl,
        show table_subst (kv :: rest) kv.1 = kv.2 from by
          simp [table_subst]]
      apply flatten_map_id_of_no_key
      intro ch hch kv2 hkv2
      intro habs
      exact hok kv2 (by simp [hkv2]) kv (by simp) (habs ▸ hch)
    · rw [show subst_one kv.1 kv.2 c = [c] from if_neg hc]
      have hk : kv.1 ≠ c := fun h => hc h.symm
      rw [show table_subst (kv :: rest) c = table_subst rest c from by
        simp [table_subst, hk]]
      simp

theorem table_subst_cases (T : List (Char × List Char)) (c : Char) :
    (∃ kv ∈ T, kv.1 = c ∧ table_subst T c = kv.2) ∨
    ((∀ kv ∈ T, kv.1 ≠ c) ∧ table_subst T c = [c]) := by
  induction T with
  | nil => exact Or.inr ⟨by simp, rfl⟩
  | cons kv rest ih =>
    by_cases h : kv.1 = c
    · exact Or.inl ⟨kv, by simp, h, by simp [table_subst, h]⟩
    · rcases ih with ⟨kv2, h2, he, hv⟩ | ⟨hnone, hv⟩
      · exact Or.inl ⟨kv2, by simp [h2], he, by simp [table_subst, h, hv]⟩
      · refine Or.inr ⟨?_, by simp [table_subst, h, hv]⟩
        intro kv2 h2
        rcases List.mem_cons.mp h2 with rfl | h2
        · exact h
        · exact hnone kv2 h2

set_option maxRecDepth 8000 in
/-- The symbol table's keys are all non-ASCII. -/
theorem entity_keys_high : ∀ kv ∈ HTML_ENTITY_MAP, 128 ≤ kv.1.toNat := by decide

set_option maxRecDepth 8000 in
/-- The symbol table's replacement strings are pure ASCII. -/
theorem entity_values_ascii :
    ∀ kv ∈ HTML_ENTITY_MAP, ∀ c ∈ kv.2, c.toNat < 128 := by decide

theorem entity_no_key_in_value :
    ∀ kv ∈ HTML_ENTITY_MAP, ∀ kv2 ∈ HTML_ENTITY_MAP, kv.1 ∉ kv2.2 := by
  intro kv h kv2 h2 habs
  have h1 := entity_keys_high kv h
  have h3 := entity_values_ascii kv2 h2 kv.1 habs
  omega

end PdfTagger

/-- C6: for every input string (the empty one included) the entity
transcoder is the total per-character substitution by the symbol table —
each table character is replaced by its named or numeric entity and every
other character passes through unchanged — and consequently no raw
instance of any table character remains in the output. -/
theorem claim_C6_entity_transcoding :
    ∀ s : List Char,
      apply_html_entities s = (s.map (table_subst HTML_ENTITY_MAP)).flatten ∧
      ∀ kv ∈ HTML_ENTITY_MAP, kv.1 ∉ apply_html_entities s := by
  intro s
  have heq : apply_html_entities s = (s.map (table_subst HTML_ENTITY_MAP)).flatten := by
    cases hs : s with
    | nil => rfl
    | cons c cs =>
      show apply_table HTML_ENTITY_MAP (c :: cs) = _
      exact apply_table_eq HTML_ENTITY_MAP entity_no_key_in_value (c :: cs)
  refine ⟨heq, ?_⟩
  intro kv hkv habs
  rw [heq] at habs
  rcases List.mem_flatten.mp habs with ⟨u, hu, hcu⟩
  rcases List.mem_map.mp hu with ⟨ch, _, rfl⟩
  rcases table_subst_cases HTML_ENTITY_MAP ch with ⟨kv2, h2, he, hv⟩ | ⟨hnone, hv⟩
  · rw [hv] at hcu
    exact entity_no_key_in_value kv hkv kv2 h2 hcu
  · rw [hv] at hcu
    have : kv.1 = ch := by simpa using hcu
    exact hnone kv hkv this

/-- Witness for C6 at a concrete string containing the copyright sign. -/
theorem claim_C6_entity_transcoding_witness :
    ('©', "&copy;".toList).1 ∉ PdfTagger.apply_html_entities "©a".toList :=
  (claim_C6_entity_transcoding "©a".toList).2 ('©', "&copy;".toList) (by decide)

/-- C3: a two-region page whose heading sequence is h1 followed by h3
(h2 skipped) builds, without error, exactly the two heading sections —
the h3 section directly inside the h1 section, with no extra implicit
section inserted for the skipped h2 — inside the single page-root
section; the skipped level shows up only as a `0` component in the inner
section's id path. -/
theorem claim_C3_skipped_heading_level :
    ∀ (r1 r2 : PdfTagger.RegionA) (pageIndex : ℕ) (autoEntities : Bool)
      (fallback : PdfTagger.RegionA → List Char),
      r1.tag = "h1".toList → r2.tag = "h3".toList →
      PdfTagger.build_items [r1, r2] pageIndex autoEntities fallback =
        [PdfTagger.OutItem.secOpen [pageIndex + 1],
         PdfTagger.OutItem.secOpen [pageIndex + 1, 1],
         PdfTagger.OutItem.leaf (PdfTagger.leaf_line "h1".toList r1.id
           (PdfTagger.region_text_esc autoEntities fallback r1)),
         PdfTagger.OutItem.secOpen [pageIndex + 1, 1, 0, 1],
         PdfTagger.OutItem.leaf (PdfTagger.leaf_line "h3".toList r2.id
           (PdfTagger.region_text_esc autoEntities fallback r2)),
         PdfTagger.OutItem.secClose,
         PdfTagger.OutItem.secClose,
         PdfTagger.OutItem.secClose] := by
  intro r1 r2 pageIndex autoEntities fallback h1 h2
  obtain ⟨id1, rect1, t1, tag1⟩ := r1
  obtain ⟨id2, rect2, t2, tag2⟩ := r2
  simp only at h1 h2
  subst h1
  subst h2
  rfl

/-- Witness for C3 at the concrete regions `c3regs`. -/
theorem claim_C3_skipped_heading_level_witness :
    PdfTagger.build_items PdfTagger.c3regs 0 false (fun _ => []) =
      [PdfTagger.OutItem.secOpen [1],
       PdfTagger.OutItem.secOpen [1, 1],
       PdfTagger.OutItem.leaf (PdfTagger.leaf_line "h1".toList
         (PdfTagger.c3regs[0]).id
         (PdfTagger.region_text_esc false (fun _ => []) (PdfTagger.c3regs[0]))),
       PdfTagger.OutItem.secOpen [1, 1, 0, 1],
       PdfTagger.OutItem.leaf (PdfTagger.leaf_line "h3".toList
         (PdfTagger.c3regs[1]).id
         (PdfTagger.region_text_esc false (fun _ => []) (PdfTagger.c3regs[1]))),
       PdfTagger.OutItem.secClose,
       PdfTagger.OutItem.secClose,
       PdfTagger.OutItem.secClose] := by
  have h := claim_C3_skipped_heading_level (PdfTagger.c3regs[0])
    (PdfTagger.c3regs[1]) 0 false (fun _ => []) (by decide) (by decide)
  exact h

/-- C4 (counterexample to the depth bound as stated): on the four-region
page h1, h2, h3, h4 the builder has five sections open at once (the four
heading sections plus the page root), so the number of simultaneously
open sections exceeds 4. -/
theorem claim_C4_depth_counterexample :
    4 < PdfTagger.max_open_depth
      (PdfTagger.build_items PdfTagger.c4regs 0 false (fun _ => [])) := by
  decide

/-! ### Path-order lemmas for the section builder (C4) -/

namespace PdfTagger

theorem lex_lt_append_left : ∀ (x A B : List ℕ),
    lex_lt (x ++ A) (x ++ B) = lex_lt A B := by
  intro x
  induction x with
  | nil => intro A B; rfl
  | cons a as ih =>
    intro A B
    show (if a < a then true else if a = a then lex_lt (as ++ A) (as ++ B) else false) = _
    rw [if_neg (lt_irrefl a), if_pos rfl, ih]

theorem lex_lt_trans : ∀ (x y z : List ℕ),
    lex_lt x y = true → lex_lt y z = true → lex_lt x z = true := by
  intro x
  induction x with
  | nil =>
    intro y z h1 h2
    cases y with
    | nil => exact absurd h1 (by simp [lex_lt])
    | cons b bs =>
      cases z with
      | nil => exact absurd h2 (by simp [lex_lt])
      | cons c cs => rfl
  | cons a as ih =>
    intro y z h1 h2
    cases y with
    | nil => exact absurd h1 (by simp [lex_lt])
    | cons b bs =>
      cases z with
      | nil => exact absurd h2 (by simp [lex_lt])
      | cons c cs =>
        show (if a < c then true else if a = c then lex_lt as cs else false) = true
        rw [show lex_lt (a :: as) (b :: bs) =
          (if a < b then true else if a = b then lex_lt as bs else false) from rfl] at h1
        rw [show lex_lt (b :: bs) (c :: cs) =
          (if b < c then true else if b = c then lex_lt bs cs else false) from rfl] at h2
        by_cases hab : a < b
        · by_cases hbc : b < c
          · rw [if_pos (lt_trans hab hbc)]
          · rw [if_neg hbc] at h2
            by_cases hbc2 : b = c
            · subst hbc2; rw [if_pos hab]
            · rw [if_neg hbc2] at h2; exact absurd h2 (by simp)
        · rw [if_neg hab] at h1
          by_cases hab2 : a = b
          · subst hab2
            rw [if_pos rfl] at h1
            by_cases hbc : a < c
            · rw [if_pos hbc]
            · rw [if_neg hbc] at h2 ⊢
              by_cases hbc2 : a = c
              · rw [if_pos hbc2]
                rw [if_pos hbc2] at h2
                exact ih bs cs h1 h2
              · rw [if_neg hbc2] at h2; exact absurd h2 (by simp)
          · rw [if_neg hab2] at h1; exact absurd h1 (by simp)

theorem lex_lt_zeros_right : ∀ (z x : List ℕ),
    (∀ n ∈ z, n = 0) → z.length ≤ x.length → lex_lt x z = false := by
  intro z
  induction z with
  | nil =>
    intro x _ _
    cases x with
    | nil => rfl
    | cons a as => rfl
  | cons b bs ih =>
    intro x hz hlen
    cases x with
    | nil => simp at hlen
    | cons a as =>
      have hb : b = 0 := hz b (by simp)
      subst hb
      show (if a < 0 then true else if a = 0 then lex_lt as bs else false) = false
      rw [if_neg (Nat.not_lt_zero a)]
      by_cases ha : a = 0
      · rw [if_pos ha]
        exact ih as (fun n hn => hz n (by simp [hn])) (by simpa using hlen)
      · rw [if_neg ha]

theorem padded_lex_lt : ∀ (A w zsA zsW : List ℕ),
    (∀ n ∈ zsA, n = 0) → (∀ n ∈ zsW, n = 0) →
    (A ++ zsA).length = (w ++ zsW).length →
    (∀ k, A.getLast? = some k → 1 ≤ k) →
    lex_lt (A ++ zsA) (w ++ zsW) = true → lex_lt A w = true := by
  intro A
  induction A with
  | nil =>
    intro w zsA zsW hzA hzW hlen _ hlt
    cases w with
    | nil =>
      rw [List.nil_append] at hlt hlen
      rw [List.nil_append] at hlt hlen
      rw [lex_lt_zeros_right zsW zsA hzW (le_of_eq hlen.symm)] at hlt
      exact absurd hlt (by simp)
    | cons b bs => rfl
  | cons a A' ih =>
    intro w zsA zsW hzA hzW hlen hlast hlt
    cases w with
    | nil =>
      rw [List.nil_append] at hlt hlen
      rw [lex_lt_zeros_right zsW (a :: A' ++ zsA) hzW (le_of_eq hlen.symm)] at hlt
      exact absurd hlt (by simp)
    | cons b w' =>
      show (if a < b then true else if a = b then lex_lt A' w' else false) = true
      rw [show (a :: A') ++ zsA = a :: (A' ++ zsA) from rfl,
        show (b :: w') ++ zsW = b :: (w' ++ zsW) from rfl] at hlt
      rw [show lex_lt (a :: (A' ++ zsA)) (b :: (w' ++ zsW)) =
        (if a < b then true else if a = b then lex_lt (A' ++ zsA) (w' ++ zsW)
          else false) from rfl] at hlt
      by_cases hab : a < b
      · rw [if_pos hab]
      · rw [if_neg hab] at hlt ⊢
        by_cases hab2 : a = b
        · rw [if_pos hab2] at hlt ⊢
          refine ih w' zsA zsW hzA hzW (by simpa using hlen) ?_ hlt
          intro k hk
          apply hlast k
          cases A' with
          | nil => simp at hk
          | cons c cs => rw [List.getLast?_cons_cons]; exact hk
        · rw [if_neg hab2] at hlt; exact absurd hlt (by simp)

theorem lex_le_lt_trans {x y z : List ℕ} (h1 : lex_le x y)
    (h2 : lex_lt y z = true) : lex_lt x z = true := by
  rcases h1 with h | rfl
  · exact lex_lt_trans x y z h h2
  · exact h2

end PdfTagger

namespace PdfTagger

theorem depth_run_append : ∀ (a b : List OutItem) (d m : ℕ),
    depth_run (a ++ b) d m = depth_run b (depth_run a d m).1 (depth_run a d m).2 := by
  intro a
  induction a with
  | nil => intro b d m; rfl
  | cons x rest ih =>
    intro b d m
    cases x with
    | secOpen p => exact ih b (d + 1) (max m (d + 1))
    | secClose => exact ih b (d - 1) m
    | leaf l => exact ih b d m

theorem sib_run_append : ∀ (a b : List OutItem) (st : List (Option (List ℕ))),
    sib_run (a ++ b) st = (sib_run a st).bind (fun st2 => sib_run b st2) := by
  intro a
  induction a with
  | nil => intro b st; rfl
  | cons x rest ih =>
    intro b st
    cases x with
    | secOpen p =>
      cases st with
      | nil => rfl
      | cons c pr =>
        cases c with
        | none => exact ih b (none :: some p :: pr)
        | some q =>
          by_cases hq : lex_lt q p = true
          · show (if lex_lt q p then sib_run (rest ++ b) (none :: some p :: pr) else none) = _
            rw [if_pos hq]
            show _ = (if lex_lt q p then sib_run rest (none :: some p :: pr) else none).bind _
            rw [if_pos hq]
            exact ih b (none :: some p :: pr)
          · show (if lex_lt q p then sib_run (rest ++ b) (none :: some p :: pr) else none) = _
            rw [if_neg hq]
            show _ = (if lex_lt q p then sib_run rest (none :: some p :: pr) else none).bind _
            rw [if_neg hq]
            rfl
    | secClose =>
      cases st with
      | nil => rfl
      | cons c pr =>
        cases pr with
        | nil => rfl
        | cons c2 r2 => exact ih b (c2 :: r2)
    | leaf l => exact ih b st

theorem depth_run_closes : ∀ (k d m : ℕ),
    depth_run (List.replicate k OutItem.secClose) d m = (d - k, m) := by
  intro k
  induction k with
  | zero => intro d m; simp [depth_run]
  | succ k ih =>
    intro d m
    rw [List.replicate_succ]
    show depth_run (List.replicate k OutItem.secClose) (d - 1) m = (d - (k + 1), m)
    rw [ih (d - 1) m]
    congr 1
    omega

theorem sib_run_closes : ∀ (k : ℕ) (st : List (Option (List ℕ))),
    k < st.length →
    sib_run (List.replicate k OutItem.secClose) st = some (st.drop k) := by
  intro k
  induction k with
  | zero => intro st _; simp [sib_run]
  | succ k ih =>
    intro st hk
    cases st with
    | nil => simp at hk
    | cons c pr =>
      cases pr with
      | nil => simp at hk
      | cons c2 r2 =>
        rw [List.replicate_succ]
        show sib_run (List.replicate k OutItem.secClose) (c2 :: r2) = _
        rw [ih (c2 :: r2) (by simp at hk ⊢; omega)]
        rfl

theorem close_to_level_spec : ∀ (s : List ℕ) (t : ℕ), ∃ k,
    k ≤ s.length ∧
    close_to_level t s = (s.drop k, List.replicate k OutItem.secClose) ∧
    (∀ x, (s.drop k).head? = some x → x < t) ∧
    (1 ≤ t → s.getLast? = some 0 → k < s.length) := by
  intro s
  induction s with
  | nil =>
    intro t
    refine ⟨0, le_refl 0, rfl, ?_, ?_⟩
    · intro x hx; simp at hx
    · intro _ h0; simp at h0
  | cons l rest ih =>
    intro t
    by_cases hl : t ≤ l
    · obtain ⟨k, hk, heq, hhead, hlast⟩ := ih t
      refine ⟨k + 1, by simp; omega, ?_, ?_, ?_⟩
      · show close_to_level t (l :: rest) = _
        rw [show close_to_level t (l :: rest) =
          (if t ≤ l then ((close_to_level t rest).1,
            OutItem.secClose :: (close_to_level t rest).2)
          else (l :: rest, [])) from rfl, if_pos hl, heq, List.replicate_succ]
        rfl
      · intro x hx
        exact hhead x (by simpa using hx)
      · intro ht h0
        have hrne : rest ≠ [] := by
          intro hre
          subst hre
          simp at h0
          omega
        have h0' : rest.getLast? = some 0 := by
          cases rest with
          | nil => exact absurd rfl hrne
          | cons a b => rw [List.getLast?_cons_cons] at h0; exact h0
        have := hlast ht h0'
        simp
        omega
    · refine ⟨0, Nat.zero_le _, ?_, ?_, ?_⟩
      · show close_to_level t (l :: rest) = _
        rw [show close_to_level t (l :: rest) =
          (if t ≤ l then ((close_to_level t rest).1,
            OutItem.secClose :: (close_to_level t rest).2)
          else (l :: rest, [])) from rfl, if_neg hl]
        rfl
      · intro x hx
        simp at hx
        omega
      · intro _ _; simp

theorem chain_lt_head : ∀ (rest : List ℕ) (a : ℕ),
    List.Chain' (fun u v => v < u) (a :: rest) → ∀ x ∈ rest, x < a := by
  intro rest
  induction rest with
  | nil => intro a _ x hx; simp at hx
  | cons b rest' ih =>
    intro a hch x hx
    rw [List.chain'_cons] at hch
    rcases hch with ⟨hba, hch'⟩
    rcases List.mem_cons.mp hx with h | h
    · subst h; exact hba
    · exact lt_trans (ih b hch' x h) hba

theorem chain_len : ∀ (s : List ℕ),
    List.Chain' (fun u v => v < u) s → ∀ h, s.head? = some h → s.length ≤ h + 1 := by
  intro s
  induction s with
  | nil => intro _ h hh; simp at hh
  | cons a rest ih =>
    intro hch h hh
    simp at hh
    subst hh
    cases rest with
    | nil => simp
    | cons b rest' =>
      rw [List.chain'_cons] at hch
      have hlen : (b :: rest').length ≤ b + 1 := ih hch.2 b rfl
      have : b < a := hch.1
      simp at hlen ⊢
      omega


end PdfTagger

namespace PdfTagger

theorem range'_split (s n k : ℕ) (h : k ≤ n) :
    List.range' s n = List.range' s k ++ List.range' (s + k) (n - k) := by
  have h2 := List.range'_append s k (n - k) 1
  rw [one_mul] at h2
  rw [show n - k + k = n from by omega] at h2
  exact h2.symm

theorem level_map_bounds (tag : List Char) (lvl : ℕ)
    (h : level_map tag = some lvl) : 1 ≤ lvl ∧ lvl ≤ 4 := by
  unfold level_map at h
  by_cases h1 : tag = "h1".toList
  · rw [if_pos h1] at h; cases h; omega
  · rw [if_neg h1] at h
    by_cases h2 : tag = "h2".toList
    · rw [if_pos h2] at h; cases h; omega
    · rw [if_neg h2] at h
      by_cases h3 : tag = "h3".toList
      · rw [if_pos h3] at h; cases h; omega
      · rw [if_neg h3] at h
        by_cases h4 : tag = "h4".toList
        · rw [if_pos h4] at h; cases h; omega
        · rw [if_neg h4] at h; cases h

theorem bump_lt (c : ℕ → ℕ) (L i : ℕ) (h : i < L) :
    bump_counters c L i = c i := by
  unfold bump_counters
  rw [if_neg (by omega), if_neg (by omega)]

theorem bump_gt (c : ℕ → ℕ) (L i : ℕ) (h : L < i) :
    bump_counters c L i = 0 := by
  unfold bump_counters
  rw [if_neg (by omega), if_pos h]

theorem bump_self (c : ℕ → ℕ) (L : ℕ) : bump_counters c L L = c L + 1 := by
  unfold bump_counters
  rw [if_pos rfl]

theorem map_bump_below (c : ℕ → ℕ) (L : ℕ) (u : List ℕ)
    (h : ∀ i ∈ u, i < L) : u.map (bump_counters c L) = u.map c :=
  List.map_congr_left (fun i hi => bump_lt c L i (h i hi))

theorem map_bump_above (c : ℕ → ℕ) (L s n : ℕ) (h : L < s) :
    (List.range' s n).map (bump_counters c L) = List.replicate n 0 := by
  rw [List.map_congr_left (g := fun _ => (0 : ℕ))
    (fun i hi => bump_gt c L i (by
      have := (List.mem_range'_1.mp hi).1
      omega))]
  rw [List.map_const']
  congr 1
  simp

theorem ctail_bump_lt (c : ℕ → ℕ) (l L : ℕ) (hlL : l < L) (hL4 : L ≤ 4) :
    lex_lt (ctail c l) (ctail (bump_counters c L) l) = true := by
  unfold ctail
  rw [range'_split (l + 1) (4 - l) (L - l - 1) (by omega)]
  rw [show l + 1 + (L - l - 1) = L from by omega,
    show 4 - l - (L - l - 1) = (4 - L) + 1 from by omega]
  rw [List.range'_succ]
  rw [List.map_append, List.map_append]
  rw [map_bump_below c L _ (fun i hi => by
    have := (List.mem_range'_1.mp hi).2
    simp at this
    omega)]
  rw [lex_lt_append_left]
  rw [List.map_cons, List.map_cons]
  show (if c L < bump_counters c L L then true
    else if c L = bump_counters c L L then _ else false) = true
  rw [bump_self, if_pos (by omega)]

theorem ctail_bump_pad (c : ℕ → ℕ) (l L : ℕ) (hlL : l < L) (hL4 : L ≤ 4) :
    ctail (bump_counters c L) l =
      (List.range' (l + 1) (L - l)).map (bump_counters c L) ++
        List.replicate (4 - L) 0 := by
  unfold ctail
  rw [range'_split (l + 1) (4 - l) (L - l) (by omega)]
  rw [show l + 1 + (L - l) = L + 1 from by omega,
    show 4 - l - (L - l) = 4 - L from by omega]
  rw [List.map_append, map_bump_above c L (L + 1) (4 - L) (by omega)]

theorem take_sec_path (p : ℕ) (c : ℕ → ℕ) (l L : ℕ) (h : l ≤ L) :
    (sec_path p c L).take (l + 1) = (p + 1) :: (List.range' 1 l).map c := by
  unfold sec_path
  rw [List.take_succ_cons]
  congr 1
  rw [range'_split 1 L l h, List.map_append]
  exact List.take_left' (by simp)

theorem drop_sec_path (p : ℕ) (c : ℕ → ℕ) (l L : ℕ) (h : l ≤ L) :
    (sec_path p c L).drop (l + 1) = (List.range' (l + 1) (L - l)).map c := by
  unfold sec_path
  rw [List.drop_succ_cons]
  rw [range'_split 1 L l h, List.map_append]
  rw [List.drop_left' (by simp), Nat.add_comm 1 l]

theorem getLast?_drop_of_lt : ∀ (l : List ℕ) (k : ℕ), k < l.length →
    (l.drop k).getLast? = l.getLast? := by
  intro l
  induction l with
  | nil => intro k hk; simp at hk
  | cons a rest ih =>
    intro k hk
    cases k with
    | zero => rfl
    | succ k =>
      rw [List.drop_succ_cons]
      have hr : k < rest.length := by simp at hk; omega
      rw [ih k hr]
      cases rest with
      | nil => simp at hr
      | cons b r2 => rw [List.getLast?_cons_cons]

end PdfTagger

namespace PdfTagger

theorem tracker_bump (p : ℕ) (c : ℕ → ℕ) (l L : ℕ) (hlL : l < L) (hL4 : L ≤ 4)
    (t : Option (List ℕ)) (h : TrackerOk p c l t) :
    TrackerOk p (bump_counters c L) l t := by
  cases t with
  | none => trivial
  | some q =>
    obtain ⟨LQ, hlLQ, hLQ4, hlen, htake, hle, k', hk', hk1⟩ := h
    refine ⟨LQ, hlLQ, hLQ4, hlen, ?_, ?_, k', hk', hk1⟩
    · rw [htake]
      congr 1
      exact (map_bump_below c L _ (fun i hi => by
        have := (List.mem_range'_1.mp hi).2
        omega)).symm
    · exact Or.inl (lex_le_lt_trans hle (ctail_bump_lt c l L hlL hL4))

theorem tracker_new_parent (p : ℕ) (c : ℕ → ℕ) (l L : ℕ)
    (hlL : l < L) (hL4 : L ≤ 4) :
    TrackerOk p (bump_counters c L) l
      (some (sec_path p (bump_counters c L) L)) := by
  refine ⟨L, hlL, hL4, ?_, take_sec_path p _ l L (le_of_lt hlL), ?_, ?_⟩
  · simp [sec_path]
  · exact Or.inr (by
      rw [drop_sec_path p _ l L (le_of_lt hlL),
        ctail_bump_pad c l L hlL hL4])
  · refine ⟨bump_counters c L L, ?_, by rw [bump_self]; omega⟩
    obtain ⟨n, rfl⟩ : ∃ n, L = n + 1 := ⟨L - 1, by omega⟩
    unfold sec_path
    rw [List.range'_concat, List.map_append,
      show (1 : ℕ) + 1 * n = n + 1 from by omega, List.map_singleton,
      ← List.cons_append, List.getLast?_concat]

theorem tracker_child_lt (p : ℕ) (c : ℕ → ℕ) (l L : ℕ) (q : List ℕ)
    (hlL : l < L) (hL4 : L ≤ 4) (h : TrackerOk p c l (some q)) :
    lex_lt q (sec_path p (bump_counters c L) L) = true := by
  obtain ⟨LQ, hlLQ, hLQ4, hlen, htake, hle, k', hk', hk1⟩ := h
  have hq1 : l + 1 < q.length := by omega
  have hmap : (List.range' 1 l).map (bump_counters c L) =
      (List.range' 1 l).map c :=
    map_bump_below c L _ (fun i hi => by
      have := (List.mem_range'_1.mp hi).2
      omega)
  have hsp : sec_path p (bump_counters c L) L =
      ((p + 1) :: (List.range' 1 l).map c) ++
        (List.range' (l + 1) (L - l)).map (bump_counters c L) := by
    conv_lhs => rw [← List.take_append_drop (l + 1)
      (sec_path p (bump_counters c L) L)]
    rw [take_sec_path p _ l L (le_of_lt hlL),
      drop_sec_path p _ l L (le_of_lt hlL), hmap]
  have hlt2 : lex_lt (q.drop (l + 1) ++ List.replicate (4 - LQ) 0)
      ((List.range' (l + 1) (L - l)).map (bump_counters c L) ++
        List.replicate (4 - L) 0) = true := by
    rw [← ctail_bump_pad c l L hlL hL4]
    exact lex_le_lt_trans hle (ctail_bump_lt c l L hlL hL4)
  have hpadded : lex_lt (q.drop (l + 1))
      ((List.range' (l + 1) (L - l)).map (bump_counters c L)) = true := by
    apply padded_lex_lt _ _ _ _
      (fun n hn => List.eq_of_mem_replicate hn)
      (fun n hn => List.eq_of_mem_replicate hn)
      (by simp [hlen]; omega) ?_ hlt2
    intro k hk
    rw [getLast?_drop_of_lt q (l + 1) hq1, hk'] at hk
    cases hk
    exact hk1
  have hfin : lex_lt (q.take (l + 1) ++ q.drop (l + 1))
      (sec_path p (bump_counters c L) L) = true := by
    rw [hsp, htake, lex_lt_append_left]
    exact hpadded
  rw [List.take_append_drop] at hfin
  exact hfin

end PdfTagger

namespace PdfTagger

theorem forall2_imp_mem {α β : Type} {R S : α → β → Prop} :
    ∀ {l₁ : List α} {l₂ : List β}, List.Forall₂ R l₁ l₂ →
      (∀ a b, b ∈ l₂ → R a b → S a b) → List.Forall₂ S l₁ l₂ := by
  intro l₁ l₂ h
  induction h with
  | nil => intro _; exact List.Forall₂.nil
  | cons hab hrest ih =>
    intro himp
    exact List.Forall₂.cons (himp _ _ (by simp) hab)
      (ih (fun a b hb hr => himp a b (by simp [hb]) hr))

theorem build_step_eq_heading (p : ℕ) (auto : Bool) (fb : RegionA → List Char)
    (S : BuildState) (r : RegionA) (lvl : ℕ)
    (hlm : level_map (str_lower (if r.tag = [] then "p".toList else r.tag)) =
      some lvl) :
    build_step p auto fb S r =
      { counters := bump_counters S.counters lvl,
        openStack := lvl :: (close_to_level lvl
          (if S.baseOpened then S.openStack else 0 :: S.openStack)).1,
        baseOpened := true,
        out := S.out ++
          (if S.baseOpened then [] else [OutItem.secOpen [p + 1]]) ++
          (close_to_level lvl
            (if S.baseOpened then S.openStack else 0 :: S.openStack)).2 ++
          [OutItem.secOpen (sec_path p (bump_counters S.counters lvl) lvl),
           OutItem.leaf (leaf_line
             (str_lower (if r.tag = [] then "p".toList else r.tag)) r.id
             (escape_html_keep_bi_and_entities
               (if auto then
                 apply_html_entities (if r.text = [] then fb r else r.text)
               else if r.text = [] then fb r else r.text)))] } := by
  simp only [build_step]
  rw [hlm]

theorem build_step_eq_leaf (p : ℕ) (auto : Bool) (fb : RegionA → List Char)
    (S : BuildState) (r : RegionA)
    (hlm : level_map (str_lower (if r.tag = [] then "p".toList else r.tag)) =
      none) :
    build_step p auto fb S r =
      { counters := S.counters,
        openStack := if S.baseOpened then S.openStack else 0 :: S.openStack,
        baseOpened := true,
        out := S.out ++
          (if S.baseOpened then [] else [OutItem.secOpen [p + 1]]) ++
          [OutItem.leaf (leaf_line
             (str_lower (if r.tag = [] then "p".toList else r.tag)) r.id
             (escape_html_keep_bi_and_entities
               (if auto then
                 apply_html_entities (if r.text = [] then fb r else r.text)
               else if r.text = [] then fb r else r.text)))] } := by
  simp only [build_step]
  rw [hlm]

end PdfTagger

namespace PdfTagger

theorem depth_append_leaf (A : List OutItem) (line : List Char) (d m : ℕ)
    (h : depth_run A 0 0 = (d, m)) :
    depth_run (A ++ [OutItem.leaf line]) 0 0 = (d, m) := by
  rw [depth_run_append, h]
  rfl

theorem sib_append_leaf (A : List OutItem) (line : List Char)
    (st : List (Option (List ℕ))) (h : sib_run A [none] = some st) :
    sib_run (A ++ [OutItem.leaf line]) [none] = some st := by
  rw [sib_run_append, h]
  rfl

theorem depth_append_closes (A : List OutItem) (k d m : ℕ)
    (h : depth_run A 0 0 = (d, m)) :
    depth_run (A ++ List.replicate k OutItem.secClose) 0 0 = (d - k, m) := by
  rw [depth_run_append, h, depth_run_closes]

theorem sib_append_closes (A : List OutItem) (k : ℕ)
    (st : List (Option (List ℕ))) (h : sib_run A [none] = some st)
    (hk : k < st.length) :
    sib_run (A ++ List.replicate k OutItem.secClose) [none] =
      some (st.drop k) := by
  rw [sib_run_append, h]
  show sib_run (List.replicate k OutItem.secClose) st = _
  exact sib_run_closes k st hk

theorem depth_append_open_leaf (A : List OutItem) (k : ℕ) (path : List ℕ)
    (line : List Char) (d m : ℕ) (h : depth_run A 0 0 = (d, m)) :
    depth_run (A ++ List.replicate k OutItem.secClose ++
      [OutItem.secOpen path, OutItem.leaf line]) 0 0 =
      (d - k + 1, max m (d - k + 1)) := by
  rw [depth_run_append, depth_append_closes A k d m h]
  rfl

theorem sib_append_open_leaf (A : List OutItem) (k : ℕ) (path : List ℕ)
    (line : List Char) (st : List (Option (List ℕ)))
    (t₀ : Option (List ℕ)) (rest : List (Option (List ℕ)))
    (h : sib_run A [none] = some st) (hk : k < st.length)
    (hst : st.drop k = t₀ :: rest)
    (hok : t₀ = none ∨ ∃ q, t₀ = some q ∧ lex_lt q path = true) :
    sib_run (A ++ List.replicate k OutItem.secClose ++
      [OutItem.secOpen path, OutItem.leaf line]) [none] =
      some (none :: some path :: rest) := by
  rw [sib_run_append, sib_append_closes A k st h hk]
  show sib_run [OutItem.secOpen path, OutItem.leaf line] (st.drop k) = _
  rw [hst]
  rcases hok with h0 | ⟨q, hq, hlt⟩
  · rw [h0]
    rfl
  · rw [hq]
    show (if lex_lt q path then
      sib_run [OutItem.leaf line] (none :: some path :: rest) else none) = _
    rw [if_pos hlt]
    rfl

end PdfTagger

namespace PdfTagger

theorem build_step_inv (p : ℕ) (auto : Bool) (fb : RegionA → List Char)
    (S : BuildState) (r : RegionA) (h : BuildInv p S) :
    BuildInv p (build_step p auto fb S r) := by
  rcases hlm : level_map (str_lower (if r.tag = [] then "p".toList else r.tag))
    with _ | lvl
  · rw [build_step_eq_leaf p auto fb S r hlm]
    rcases h with ⟨hb, hstk, hout⟩ | ⟨hb, hstk, hdep, hsib⟩
    · right
      have hb1 : (if S.baseOpened then ([] : List OutItem)
          else [OutItem.secOpen [p + 1]]) = [OutItem.secOpen [p + 1]] := by
        rw [hb]; rfl
      have hb2 : (if S.baseOpened then S.openStack else 0 :: S.openStack) =
          [0] := by rw [hb, hstk]; rfl
      rw [hb1, hb2, hout]
      refine ⟨rfl, ⟨List.chain'_singleton 0, ?_, rfl⟩, ⟨1, by simp [depth_run], by omega⟩, ⟨[none], by simp [sib_run], List.Forall₂.cons trivial List.Forall₂.nil⟩⟩
      intro l hl
      simp at hl
      omega
    · right
      obtain ⟨hch, hle4, hlast0⟩ := hstk
      obtain ⟨m, hd, hm5⟩ := hdep
      obtain ⟨ts, hs, hf2⟩ := hsib
      have hb1 : (if S.baseOpened then ([] : List OutItem)
          else [OutItem.secOpen [p + 1]]) = [] := by rw [hb]; rfl
      have hb2 : (if S.baseOpened then S.openStack else 0 :: S.openStack) =
          S.openStack := by rw [hb]; rfl
      rw [hb1, hb2, List.append_nil]
      exact ⟨rfl, ⟨hch, hle4, hlast0⟩,
        ⟨m, depth_append_leaf S.out _ _ m hd, hm5⟩,
        ⟨ts, sib_append_leaf S.out _ _ hs, hf2⟩⟩
  · have hlvl := level_map_bounds _ lvl hlm
    rw [build_step_eq_heading p auto fb S r lvl hlm]
    rcases h with ⟨hb, hstk, hout⟩ | ⟨hb, hstk, hdep, hsib⟩
    · right
      have hb1 : (if S.baseOpened then ([] : List OutItem)
          else [OutItem.secOpen [p + 1]]) = [OutItem.secOpen [p + 1]] := by
        rw [hb]; rfl
      have hb2 : (if S.baseOpened then S.openStack else 0 :: S.openStack) =
          [0] := by rw [hb, hstk]; rfl
      have hcl : close_to_level lvl [0] = ([0], []) := by
        rw [show close_to_level lvl [0] =
          (if lvl ≤ 0 then ((close_to_level lvl []).1,
            OutItem.secClose :: (close_to_level lvl []).2)
          else ([0], [])) from rfl, if_neg (by omega)]
      rw [hb1, hb2, hcl, hout]
      refine ⟨rfl, ?_, ?_, ?_⟩
      · refine ⟨List.chain'_cons.mpr ⟨by omega, List.chain'_singleton 0⟩, ?_, by rw [List.getLast?_cons_cons]; rfl⟩
        intro l hl
        simp at hl
        rcases hl with h1 | h1 <;> omega
      · exact ⟨2, by simp [depth_run], by omega⟩
      · refine ⟨[none, some (sec_path p (bump_counters S.counters lvl) lvl)],
          by simp [sib_run], ?_⟩
        exact List.Forall₂.cons trivial (List.Forall₂.cons
          (tracker_new_parent p S.counters 0 lvl (by omega) (by omega))
          List.Forall₂.nil)
    · right
      obtain ⟨hch, hle4, hlast0⟩ := hstk
      obtain ⟨m, hd, hm5⟩ := hdep
      obtain ⟨ts, hs, hf2⟩ := hsib
      have hb1 : (if S.baseOpened then ([] : List OutItem)
          else [OutItem.secOpen [p + 1]]) = [] := by rw [hb]; rfl
      have hb2 : (if S.baseOpened then S.openStack else 0 :: S.openStack) =
          S.openStack := by rw [hb]; rfl
      rw [hb1, hb2, List.append_nil]
      obtain ⟨k, hkle, hceq, hhead, hklt⟩ := close_to_level_spec S.openStack lvl
      have hklt' : k < S.openStack.length := hklt (by omega) hlast0
      rw [hceq]
      dsimp only
      have htslen : ts.length = S.openStack.length := List.Forall₂.length_eq hf2
      have hdropne : S.openStack.drop k ≠ [] := by
        intro hne
        have := congrArg List.length hne
        simp at this
        omega
      obtain ⟨l₀, s₂, hs'⟩ := List.exists_cons_of_ne_nil hdropne
      have hf2d : List.Forall₂ (fun t l => TrackerOk p S.counters l t)
          (ts.drop k) (S.openStack.drop k) := List.forall₂_drop k hf2
      have htdne : ts.drop k ≠ [] := by
        intro hne
        rw [hne, hs'] at hf2d
        cases hf2d
      obtain ⟨t₀, ts₂, ht'⟩ := List.exists_cons_of_ne_nil htdne
      rw [hs', ht'] at hf2d
      have ht₀ : TrackerOk p S.counters l₀ t₀ := by
        cases hf2d with
        | cons hab _ => exact hab
      have hrest : List.Forall₂ (fun t l => TrackerOk p S.counters l t)
          ts₂ s₂ := by
        cases hf2d with
        | cons _ hr => exact hr
      have hl₀ : l₀ < lvl := hhead l₀ (by rw [hs']; rfl)
      have hch' : List.Chain' (fun a b => b < a) (l₀ :: s₂) := by
        have hc2 := List.Chain'.drop hch k
        rw [hs'] at hc2
        exact hc2
      have hchnew : List.Chain' (fun a b => b < a) (lvl :: l₀ :: s₂) :=
        List.chain'_cons.mpr ⟨hl₀, hch'⟩
      have hlen5 : (lvl :: l₀ :: s₂).length ≤ lvl + 1 :=
        chain_len _ hchnew lvl rfl
      have hs₂sub : ∀ x ∈ l₀ :: s₂, x ∈ S.openStack := by
        intro x hx
        rw [← hs'] at hx
        exact List.mem_of_mem_drop hx
      have hdrop_len : (l₀ :: s₂).length = S.openStack.length - k := by
        rw [← hs']
        simp
      refine ⟨rfl, ?_, ?_, ?_⟩
      · rw [hs']
        refine ⟨hchnew, ?_, ?_⟩
        · intro l hl
          rcases List.mem_cons.mp hl with h1 | h1
          · omega
          · exact hle4 l (hs₂sub l h1)
        · rw [List.getLast?_cons_cons, ← hs',
            getLast?_drop_of_lt S.openStack k hklt']
          exact hlast0
      · refine ⟨max m (S.openStack.length - k + 1), ?_, ?_⟩
        · rw [depth_append_open_leaf S.out k _ _ S.openStack.length m hd,
            show (lvl :: List.drop k S.openStack).length =
              S.openStack.length - k + 1 from by simp]
        · have hb5 : S.openStack.length - k + 1 ≤ lvl + 1 := by
            simp at hdrop_len hlen5
            omega
          have h5 : lvl + 1 ≤ 5 := by omega
          exact max_le hm5 (by omega)
      · refine ⟨none :: some (sec_path p (bump_counters S.counters lvl) lvl) ::
          ts₂, ?_, ?_⟩
        · have hk2 : k < (ts ++ [some [p + 1]]).length := by
            simp
            omega
          have hst2 : (ts ++ [some [p + 1]]).drop k =
              t₀ :: (ts₂ ++ [some [p + 1]]) := by
            rw [List.drop_append_of_le_length (by omega), ht']
            rfl
          have hok : t₀ = none ∨ ∃ q, t₀ = some q ∧
              lex_lt q (sec_path p (bump_counters S.counters lvl) lvl) = true := by
            cases t₀ with
            | none => exact Or.inl rfl
            | some q =>
              exact Or.inr ⟨q, rfl,
                tracker_child_lt p S.counters l₀ lvl q hl₀ (by omega) ht₀⟩
          exact sib_append_open_leaf S.out k _ _ (ts ++ [some [p + 1]])
            t₀ (ts₂ ++ [some [p + 1]]) hs hk2 hst2 hok
        · rw [hs']
          refine List.Forall₂.cons trivial (List.Forall₂.cons
            (tracker_new_parent p S.counters l₀ lvl hl₀ (by omega)) ?_)
          refine forall2_imp_mem hrest ?_
          intro t l hl hTok
          have hllvl : l < lvl := by
            have := chain_lt_head s₂ l₀ hch' l hl
            omega
          exact tracker_bump p S.counters l lvl hllvl (by omega) t hTok

end PdfTagger

namespace PdfTagger

theorem build_inv_fold (p : ℕ) (auto : Bool) (fb : RegionA → List Char) :
    ∀ (regs : List RegionA) (S : BuildState), BuildInv p S →
      BuildInv p (regs.foldl (build_step p auto fb) S) := by
  intro regs
  induction regs with
  | nil => intro S h; exact h
  | cons r rest ih =>
    intro S h
    exact ih (build_step p auto fb S r) (build_step_inv p auto fb S r h)

theorem build_items_eq (regs : List RegionA) (p : ℕ) (auto : Bool)
    (fb : RegionA → List Char) :
    build_items regs p auto fb =
      (regs.foldl (build_step p auto fb)
        { counters := fun _ => 0, openStack := [], baseOpened := false,
          out := [] }).out ++
      (regs.foldl (build_step p auto fb)
        { counters := fun _ => 0, openStack := [], baseOpened := false,
          out := [] }).openStack.map (fun _ => OutItem.secClose) := rfl

end PdfTagger

/-- C4: corrected form of the nesting-depth claim.  On every region list
the builder's output never has more than 5 simultaneously open sections
(the page-root section plus at most the 4 heading levels h1-h4, whose
levels are strictly decreasing down the open stack), and the id paths of
sibling sections under any common parent appear in strictly increasing
lexicographic order.  The original claim's bound of 4 is refuted
separately by `claim_C4_depth_counterexample`. -/
theorem claim_C4_amended (regs : List PdfTagger.RegionA) (pageIndex : ℕ)
    (autoEntities : Bool) (fallback : PdfTagger.RegionA → List Char)
    (_hne : regs ≠ []) :
    PdfTagger.max_open_depth
      (PdfTagger.build_items regs pageIndex autoEntities fallback) ≤ 5 ∧
    PdfTagger.siblings_increasing
      (PdfTagger.build_items regs pageIndex autoEntities fallback) = true := by
  have hinv := PdfTagger.build_inv_fold pageIndex autoEntities fallback regs
    { counters := fun _ => 0, openStack := [], baseOpened := false, out := [] }
    (Or.inl ⟨rfl, rfl, rfl⟩)
  rw [PdfTagger.build_items_eq]
  set S := regs.foldl (PdfTagger.build_step pageIndex autoEntities fallback)
    { counters := fun _ => 0, openStack := [], baseOpened := false, out := [] }
  rcases hinv with ⟨hb, hstk, hout⟩ | ⟨hb, hstk, hdep, hsib⟩
  · rw [hout, hstk]
    exact ⟨by simp [PdfTagger.max_open_depth, PdfTagger.depth_run],
      by simp [PdfTagger.siblings_increasing, PdfTagger.sib_run]⟩
  · obtain ⟨m, hd, hm5⟩ := hdep
    obtain ⟨ts, hs, hf2⟩ := hsib
    have htslen : ts.length = S.openStack.length := List.Forall₂.length_eq hf2
    constructor
    · unfold PdfTagger.max_open_depth
      rw [List.map_const',
        PdfTagger.depth_append_closes S.out S.openStack.length
          S.openStack.length m hd]
      exact hm5
    · unfold PdfTagger.siblings_increasing
      rw [List.map_const',
        PdfTagger.sib_append_closes S.out S.openStack.length
          (ts ++ [some [pageIndex + 1]]) hs (by simp; omega)]
      rfl

/-- C4 amended-theorem witness: the four-heading page `c4regs` is
non-empty, stays within depth 5 and keeps sibling paths increasing. -/
theorem claim_C4_amended_witness :
    PdfTagger.c4regs ≠ [] ∧
    (PdfTagger.max_open_depth
      (PdfTagger.build_items PdfTagger.c4regs 0 false (fun _ => [])) ≤ 5 ∧
     PdfTagger.siblings_increasing
      (PdfTagger.build_items PdfTagger.c4regs 0 false (fun _ => [])) = true) :=
  ⟨List.cons_ne_nil _ _,
    claim_C4_amended PdfTagger.c4regs 0 false (fun _ => [])
      (List.cons_ne_nil _ _)⟩

namespace PdfTagger

theorem char_toNat_inj {c d : Char} (h : c.toNat = d.toNat) : c = d := by
  rw [← Char.ofNat_toNat c, ← Char.ofNat_toNat d, h]

theorem lowChar_eq_lt {c : Char} (h : lowChar c = 60) : c = '<' := by
  unfold lowChar at h
  by_cases hb : 65 ≤ c.toNat ∧ c.toNat ≤ 90
  · rw [if_pos hb] at h
    omega
  · rw [if_neg hb] at h
    exact char_toNat_inj h

theorem isPrefixOf_refl_append : ∀ (p w : List Char), p.isPrefixOf (p ++ w) = true := by
  intro p
  induction p with
  | nil => intro w; simp [List.isPrefixOf]
  | cons c p' ih =>
    intro w
    show (c == c && p'.isPrefixOf (p' ++ w)) = true
    rw [beq_self_eq_true, ih w]
    rfl

theorem noOcc_nil (p : List Char) (hp : p ≠ []) : noOcc p [] := by
  intro i hpre
  cases p with
  | nil => exact hp rfl
  | cons c p' => simp [List.isPrefixOf] at hpre

theorem replaceAllF_id_of_noOcc (p r : List Char) :
    ∀ (s : List Char), noOcc p s → ∀ fuel, replaceAllF fuel p r s = s := by
  intro s
  induction s with
  | nil => intro _ fuel; cases fuel <;> rfl
  | cons c cs ih =>
    intro h fuel
    cases fuel with
    | zero => rfl
    | succ fuel =>
      show (if p.isPrefixOf (c :: cs) then _ else c :: replaceAllF fuel p r cs) = _
      rw [if_neg (by have := h 0; simpa using this)]
      congr 1
      exact ih (fun i => by have := h (i + 1); simpa using this) fuel

theorem replaceAllF_segment (p r : List Char) :
    ∀ (u : List Char) (fuel : ℕ) (v : List Char), noStartIn p u v →
      replaceAllF fuel p r (u ++ v) = u ++ replaceAllF (fuel - u.length) p r v := by
  intro u
  induction u with
  | nil => intro fuel v _; simp
  | cons c u' ih =>
    intro fuel v h
    cases fuel with
    | zero =>
      rw [Nat.zero_sub]
      rfl
    | succ fuel =>
      show (if p.isPrefixOf (c :: (u' ++ v)) then _
        else c :: replaceAllF fuel p r (u' ++ v)) = _
      rw [if_neg (by have := h 0 (by simp); simpa using this)]
      rw [ih fuel v (fun i hi => by
        have := h (i + 1) (by simp at hi ⊢; omega)
        simpa using this)]
      rw [show (fuel + 1) - (c :: u').length = fuel - u'.length from by simp]
      rfl

theorem replaceAllF_boundary (p r w : List Char) (hp : p ≠ []) (fuel : ℕ) :
    replaceAllF (fuel + 1) p r (p ++ w) = r ++ replaceAllF fuel p r w := by
  cases p with
  | nil => exact absurd rfl hp
  | cons c p' =>
    show (if (c :: p').isPrefixOf (c :: (p' ++ w)) then
      r ++ replaceAllF fuel (c :: p') r (List.drop ((c :: p').length - 1) (p' ++ w))
      else _) = _
    have hpre : (c :: p').isPrefixOf (c :: (p' ++ w)) = true :=
      isPrefixOf_refl_append (c :: p') w
    rw [if_pos hpre]
    rw [show (c :: p').length - 1 = p'.length from by simp]
    rw [List.drop_left]

theorem replaceAll_seg_bound (p r u w : List Char) (hp : p ≠ [])
    (h1 : noStartIn p u (p ++ w)) (h2 : noOcc p w) :
    replaceAll p r (u ++ (p ++ w)) = u ++ (r ++ w) := by
  unfold replaceAll
  rw [replaceAllF_segment p r u _ _ h1]
  congr 1
  obtain ⟨k, hk⟩ : ∃ k, p.length = k + 1 := by
    cases p with
    | nil => exact absurd rfl hp
    | cons c p' => exact ⟨p'.length, by simp⟩
  rw [show (u ++ (p ++ w)).length - u.length = (k + w.length) + 1 from by
    simp [hk]; omega]
  rw [replaceAllF_boundary p r w hp]
  congr 1
  exact replaceAllF_id_of_noOcc p r w h2 _

theorem noOcc_append (p u v : List Char) (h1 : noStartIn p u v)
    (h2 : noOcc p v) : noOcc p (u ++ v) := by
  intro i
  by_cases hi : i < u.length
  · rw [List.drop_append_of_le_length (le_of_lt hi)]
    exact h1 i hi
  · rw [List.drop_append_eq_append_drop, List.drop_eq_nil_of_le (by omega),
      List.nil_append]
    exact h2 (i - u.length)

theorem noStartIn_append (p u₁ u₂ v : List Char)
    (h1 : noStartIn p u₁ (u₂ ++ v)) (h2 : noStartIn p u₂ v) :
    noStartIn p (u₁ ++ u₂) v := by
  intro i hi
  by_cases h : i < u₁.length
  · rw [List.drop_append_of_le_length (le_of_lt h), List.append_assoc]
    exact h1 i h
  · rw [List.drop_append_eq_append_drop, List.drop_eq_nil_of_le (by omega),
      List.nil_append]
    apply h2
    simp at hi
    omega

theorem noStartIn_of_no_at (p' u v : List Char) (hu : ∀ c ∈ u, c ≠ '@') :
    noStartIn ('@' :: p') u v := by
  intro i hi hpre
  have hdrop : u.drop i ≠ [] := by
    intro h
    have := congrArg List.length h
    simp at this
    omega
  obtain ⟨c, t, hct⟩ := List.exists_cons_of_ne_nil hdrop
  rw [hct, List.cons_append] at hpre
  simp [List.isPrefixOf] at hpre
  have hc : c ∈ u := List.mem_of_mem_drop (by rw [hct]; simp)
  exact hu c hc hpre.1.symm

theorem noOcc_of_no_at (p' v : List Char) (hv : ∀ c ∈ v, c ≠ '@') :
    noOcc ('@' :: p') v := by
  have := noOcc_append ('@' :: p') v [] (by
    have h2 := noStartIn_of_no_at p' v [] hv
    simpa using h2) (noOcc_nil _ (by simp))
  simpa using this

theorem noOcc_of_bounded (p s : List Char) (hp : p ≠ [])
    (h : ∀ i < s.length, ¬ p.isPrefixOf (s.drop i)) : noOcc p s := by
  intro i
  by_cases hi : i < s.length
  · exact h i hi
  · rw [List.drop_eq_nil_of_le (by omega)]
    cases p with
    | nil => exact absurd rfl hp
    | cons c p' => simp [List.isPrefixOf]

end PdfTagger

namespace PdfTagger

theorem matchLit_prefix_det : ∀ (p u : List Char), p.length ≤ u.length →
    ∀ v, matchLit p (u ++ v) = (matchLit p u).map (fun r => r ++ v) := by
  intro p
  induction p with
  | nil => intro u _ v; rfl
  | cons q ps ih =>
    intro u hlen v
    cases u with
    | nil => simp at hlen
    | cons a u' =>
      show (if lowChar q = lowChar a then matchLit ps (u' ++ v) else none) = _
      by_cases h : lowChar q = lowChar a
      · rw [if_pos h, ih u' (by simpa using hlen) v]
        rw [show matchLit (q :: ps) (a :: u') =
          (if lowChar q = lowChar a then matchLit ps u' else none) from rfl,
          if_pos h]
      · rw [if_neg h,
          show matchLit (q :: ps) (a :: u') =
            (if lowChar q = lowChar a then matchLit ps u' else none) from rfl,
          if_neg h]
        rfl

theorem matchLit_straddle_aux (p : List Char) (hp : ∀ c ∈ p, lowChar c ≠ 60) :
    ∀ (u : List Char) (w : List Char), (matchLit p u).isSome = false →
      matchLit p (u ++ '<' :: w) = none := by
  induction p with
  | nil => intro u w hu; simp [matchLit] at hu
  | cons q ps ih =>
    intro u w hu
    cases u with
    | nil =>
      show (if lowChar q = lowChar '<' then _ else none) = none
      rw [if_neg]
      intro h
      exact hp q (by simp) (by rw [h]; rfl)
    | cons a u' =>
      show (if lowChar q = lowChar a then matchLit ps (u' ++ '<' :: w) else none) = none
      by_cases h : lowChar q = lowChar a
      · rw [if_pos h]
        apply ih (fun c hc => hp c (by simp [hc])) u' w
        rw [show matchLit (q :: ps) (a :: u') =
          (if lowChar q = lowChar a then matchLit ps u' else none) from rfl,
          if_pos h] at hu
        exact hu
      · rw [if_neg h]

theorem matchLit_tag_straddle (ps : List Char) (hps : ∀ c ∈ ps, lowChar c ≠ 60)
    (a : Char) (u' w : List Char)
    (hu : (matchLit ('<' :: ps) (a :: u')).isSome = false) :
    matchLit ('<' :: ps) ((a :: u') ++ '<' :: w) = none := by
  show (if lowChar '<' = lowChar a then matchLit ps (u' ++ '<' :: w) else none) = none
  by_cases h : lowChar '<' = lowChar a
  · rw [if_pos h]
    apply matchLit_straddle_aux ps hps u' w
    rw [show matchLit ('<' :: ps) (a :: u') =
      (if lowChar '<' = lowChar a then matchLit ps u' else none) from rfl,
      if_pos h] at hu
    exact hu
  · rw [if_neg h]

theorem protectScanF_nil (M : List Char → Option (List Char × List Char))
    (repl : List Char → List Char) (hM : M [] = none) :
    ∀ fuel, protectScanF M repl fuel [] = [] := by
  intro fuel
  cases fuel with
  | zero => rfl
  | succ fuel => simp [protectScanF, hM]

theorem protectScanF_id (M : List Char → Option (List Char × List Char))
    (repl : List Char → List Char) (hM0 : M [] = none) :
    ∀ (s : List Char), scan_has_match M s = false →
      ∀ fuel, protectScanF M repl fuel s = s := by
  intro s
  induction s with
  | nil => intro _ fuel; exact protectScanF_nil M repl hM0 fuel
  | cons c cs ih =>
    intro h fuel
    rw [show scan_has_match M (c :: cs) =
      ((M (c :: cs)).isSome || scan_has_match M cs) from rfl] at h
    rcases Bool.or_eq_false_iff.mp h with ⟨h1, h2⟩
    have hM : M (c :: cs) = none := by
      cases hM : M (c :: cs) with
      | none => rfl
      | some v => rw [hM] at h1; simp at h1
    cases fuel with
    | zero => rfl
    | succ fuel => simp [protectScanF, hM, ih h2 fuel]

theorem scan_has_match_append_concrete (M : List Char → Option (List Char × List Char))
    (u v : List Char) (h1 : ∀ i < u.length, (M (u.drop i ++ v)).isSome = false)
    (h2 : scan_has_match M v = false) : scan_has_match M (u ++ v) = false := by
  induction u with
  | nil => simpa using h2
  | cons c u' ih =>
    show ((M ((c :: u') ++ v)).isSome || scan_has_match M (u' ++ v)) = false
    have h0 := h1 0 (by simp)
    simp only [List.drop_zero] at h0
    rw [h0, ih (fun i hi => by
      have := h1 (i + 1) (by simp at hi ⊢; omega)
      simpa using this)]
    rfl

end PdfTagger

namespace PdfTagger

theorem mem_replaceAllF (p r : List Char) (c : Char) :
    ∀ (fuel : ℕ) (s : List Char), c ∈ replaceAllF fuel p r s → c ∈ r ∨ c ∈ s := by
  intro fuel
  induction fuel with
  | zero => intro s h; exact Or.inr h
  | succ fuel ih =>
    intro s h
    cases s with
    | nil => exact Or.inr h
    | cons d cs =>
      by_cases hpre : p.isPrefixOf (d :: cs) = true
      · rw [show replaceAllF (fuel + 1) p r (d :: cs) =
          (if p.isPrefixOf (d :: cs) then
            r ++ replaceAllF fuel p r (List.drop (p.length - 1) cs)
          else d :: replaceAllF fuel p r cs) from rfl, if_pos hpre] at h
        rcases List.mem_append.mp h with h1 | h1
        · exact Or.inl h1
        · rcases ih _ h1 with h2 | h2
          · exact Or.inl h2
          · exact Or.inr (by
              have := List.mem_of_mem_drop h2
              simp [this])
      · rw [show replaceAllF (fuel + 1) p r (d :: cs) =
          (if p.isPrefixOf (d :: cs) then
            r ++ replaceAllF fuel p r (List.drop (p.length - 1) cs)
          else d :: replaceAllF fuel p r cs) from rfl, if_neg hpre] at h
        rcases List.mem_cons.mp h with h1 | h1
        · exact Or.inr (by simp [h1])
        · rcases ih _ h1 with h2 | h2
          · exact Or.inl h2
          · exact Or.inr (by simp [h2])

theorem isPrefixOf_single (a d : Char) (cs : List Char) :
    ([a].isPrefixOf (d :: cs)) = (a == d) := by
  show (a == d && [].isPrefixOf cs) = (a == d)
  rw [show List.isPrefixOf ([] : List Char) cs = true from by
    simp [List.isPrefixOf]]
  exact Bool.and_true _

theorem single_replace_removes (a : Char) (r : List Char) (ha : a ∉ r) :
    ∀ (fuel : ℕ) (s : List Char), s.length ≤ fuel →
      a ∉ replaceAllF fuel [a] r s := by
  intro fuel
  induction fuel with
  | zero =>
    intro s hlen
    have : s = [] := by
      cases s with
      | nil => rfl
      | cons c cs => simp at hlen
    rw [this]
    simp [replaceAllF]
  | succ fuel ih =>
    intro s hlen
    cases s with
    | nil => simp [replaceAllF]
    | cons d cs =>
      rw [show replaceAllF (fuel + 1) [a] r (d :: cs) =
        (if [a].isPrefixOf (d :: cs) then
          r ++ replaceAllF fuel [a] r (List.drop 0 cs)
        else d :: replaceAllF fuel [a] r cs) from rfl]
      by_cases had : a = d
      · rw [if_pos (by rw [isPrefixOf_single, had, beq_self_eq_true])]
        intro hmem
        rcases List.mem_append.mp hmem with h1 | h1
        · exact ha h1
        · exact ih cs (by simp at hlen; omega) (by simpa using h1)
      · rw [if_neg (by rw [isPrefixOf_single]; simpa using had)]
        intro hmem
        rcases List.mem_cons.mp hmem with h1 | h1
        · exact had h1
        · exact ih cs (by simp at hlen; omega) h1

theorem single_replace_emits (a : Char) (r' : List Char) :
    ∀ (fuel : ℕ) (s : List Char), a ∈ s → s.length ≤ fuel →
      '&' ∈ replaceAllF fuel [a] ('&' :: r') s := by
  intro fuel
  induction fuel with
  | zero =>
    intro s hmem hlen
    have : s = [] := by
      cases s with
      | nil => rfl
      | cons c cs => simp at hlen
    rw [this] at hmem
    simp at hmem
  | succ fuel ih =>
    intro s hmem hlen
    cases s with
    | nil => simp at hmem
    | cons d cs =>
      rw [show replaceAllF (fuel + 1) [a] ('&' :: r') (d :: cs) =
        (if [a].isPrefixOf (d :: cs) then
          '&' :: r' ++ replaceAllF fuel [a] ('&' :: r') (List.drop 0 cs)
        else d :: replaceAllF fuel [a] ('&' :: r') cs) from rfl]
      by_cases had : a = d
      · rw [if_pos (by rw [isPrefixOf_single, had, beq_self_eq_true])]
        simp
      · rw [if_neg (by rw [isPrefixOf_single]; simpa using had)]
        have hcs : a ∈ cs := by
          rcases List.mem_cons.mp hmem with h1 | h1
          · exact absurd h1 had
          · exact h1
        exact List.mem_cons_of_mem d (ih cs hcs (by simp at hlen; omega))

theorem noOcc_single_of_not_mem (a : Char) (s : List Char) (h : a ∉ s) :
    noOcc [a] s := by
  intro i hpre
  cases hd : s.drop i with
  | nil => rw [hd] at hpre; simp [List.isPrefixOf] at hpre
  | cons c t =>
    rw [hd, isPrefixOf_single] at hpre
    have : a = c := by simpa using hpre
    subst this
    exact h (List.mem_of_mem_drop (by rw [hd]; simp))

end PdfTagger

namespace PdfTagger

theorem lt_not_mem_esc (s : List Char) : '<' ∉ esc_angle s := by
  intro h
  rcases mem_replaceAllF ['>'] "&gt;".toList '<' _ _ h with h1 | h1
  · simp at h1
  · exact single_replace_removes '<' "&lt;".toList (by decide) s.length s
      (le_refl _) h1

theorem gt_not_mem_esc (s : List Char) : '>' ∉ esc_angle s :=
  single_replace_removes '>' "&gt;".toList (by decide) _ _ (le_refl _)

theorem at_not_mem_esc (s : List Char) (h : '@' ∉ s) : '@' ∉ esc_angle s := by
  intro hm
  rcases mem_replaceAllF ['>'] "&gt;".toList '@' _ _ hm with h1 | h1
  · simp at h1
  · rcases mem_replaceAllF ['<'] "&lt;".toList '@' _ _ h1 with h2 | h2
    · simp at h2
    · exact h h2

theorem esc_angle_id (s : List Char) (h1 : '<' ∉ s) (h2 : '>' ∉ s) :
    esc_angle s = s := by
  unfold esc_angle replaceAll
  rw [replaceAllF_id_of_noOcc _ _ s (noOcc_single_of_not_mem '<' s h1) _]
  rw [replaceAllF_id_of_noOcc _ _ s (noOcc_single_of_not_mem '>' s h2) _]

theorem mem_amp (c : Char) : ∀ (s : List Char), c ∈ amp_escape s →
    c ∈ s ∨ c ∈ "&amp;".toList := by
  intro s
  induction s with
  | nil => intro h; simp [amp_escape] at h
  | cons d cs ih =>
    intro h
    rw [show amp_escape (d :: cs) =
      (if d = '&' then
        (if entity_at (cs.take 30) then ['&'] else "&amp;".toList)
      else [d]) ++ amp_escape cs from rfl] at h
    rcases List.mem_append.mp h with h1 | h1
    · by_cases hd : d = '&'
      · rw [if_pos hd] at h1
        by_cases he : entity_at (cs.take 30) = true
        · rw [if_pos he] at h1
          simp at h1
          subst h1
          exact Or.inr (by decide)
        · rw [if_neg he] at h1
          exact Or.inr h1
      · rw [if_neg hd] at h1
        simp at h1
        exact Or.inl (by simp [h1])
    · rcases ih h1 with h2 | h2
      · exact Or.inl (by simp [h2])
      · exact Or.inr h2

theorem amp_copy (u : List Char) (hu : ∀ c ∈ u, c ≠ '&') (v : List Char) :
    amp_escape (u ++ v) = u ++ amp_escape v := by
  induction u with
  | nil => rfl
  | cons c u' ih =>
    rw [List.cons_append,
      show amp_escape (c :: (u' ++ v)) =
      (if c = '&' then
        (if entity_at ((u' ++ v).take 30) then ['&'] else "&amp;".toList)
      else [c]) ++ amp_escape (u' ++ v) from rfl,
      if_neg (hu c (by simp))]
    rw [ih (fun d hd => hu d (by simp [hd]))]
    rfl

theorem amp_id_no_amp (s : List Char) (h : ∀ c ∈ s, c ≠ '&') :
    amp_escape s = s := by
  have := amp_copy s h []
  simpa [amp_escape] using this

theorem matchLit_none_no_lt (ps : List Char) (s : List Char)
    (h : ∀ c ∈ s, c ≠ '<') : matchLit ('<' :: ps) s = none := by
  cases s with
  | nil => rfl
  | cons c cs =>
    show (if lowChar '<' = lowChar c then matchLit ps cs else none) = none
    rw [if_neg]
    intro heq
    exact h c (by simp) (lowChar_eq_lt heq.symm)

theorem matchNestedAt_none_no_lt (o1' o2 cl1 cl2 : List Char) (s : List Char)
    (h : ∀ c ∈ s, c ≠ '<') :
    matchNestedAt ('<' :: o1') o2 cl1 cl2 s = none := by
  unfold matchNestedAt
  rw [matchLit_none_no_lt o1' s h]
  rfl

theorem matchSingleAt_none_no_lt (o' cl : List Char) (s : List Char)
    (h : ∀ c ∈ s, c ≠ '<') : matchSingleAt ('<' :: o') cl s = none := by
  unfold matchSingleAt
  rw [matchLit_none_no_lt o' s h]
  rfl

theorem protectScan_no_lt (M : List Char → Option (List Char × List Char))
    (repl : List Char → List Char)
    (hM : ∀ s, (∀ c ∈ s, c ≠ '<') → M s = none) :
    ∀ (fuel : ℕ) (s : List Char), (∀ c ∈ s, c ≠ '<') →
      protectScanF M repl fuel s = s := by
  intro fuel
  induction fuel with
  | zero => intro s _; rfl
  | succ fuel ih =>
    intro s h
    cases s with
    | nil => simp [protectScanF, hM [] (by simp)]
    | cons c cs =>
      simp only [protectScanF, hM (c :: cs) h]
      rw [ih cs (fun d hd => h d (by simp [hd]))]

theorem no_lt_passes_id (s : List Char) (h : ∀ c ∈ s, c ≠ '<') :
    sub_nested_bi s = s ∧ sub_nested_ib s = s ∧ sub_single_b s = s ∧
      sub_single_i s = s := by
  refine ⟨?_, ?_, ?_, ?_⟩
  · exact protectScan_no_lt _ _ (fun s' h' => by
      rw [show openB = '<' :: ['b', '>'] from rfl]
      exact matchNestedAt_none_no_lt _ _ _ _ s' h') s.length s h
  · exact protectScan_no_lt _ _ (fun s' h' => by
      rw [show openI = '<' :: ['i', '>'] from rfl]
      exact matchNestedAt_none_no_lt _ _ _ _ s' h') s.length s h
  · exact protectScan_no_lt _ _ (fun s' h' => by
      rw [show openB = '<' :: ['b', '>'] from rfl]
      exact matchSingleAt_none_no_lt _ _ s' h') s.length s h
  · exact protectScan_no_lt _ _ (fun s' h' => by
      rw [show openI = '<' :: ['i', '>'] from rfl]
      exact matchSingleAt_none_no_lt _ _ s' h') s.length s h

end PdfTagger

namespace PdfTagger

theorem hasAA_cons_ne (a : Char) (h : a ≠ '@') (t : List Char) :
    hasAA (a :: t) = hasAA t := by
  cases t with
  | nil => rfl
  | cons b t' =>
    show ((a = '@' && b = '@') || hasAA (b :: t')) = hasAA (b :: t')
    simp [h]

theorem hasAA_cons_of (a : Char) (t : List Char) (h : hasAA t = true) :
    hasAA (a :: t) = true := by
  cases t with
  | nil => simp [hasAA] at h
  | cons b t' =>
    show ((a = '@' && b = '@') || hasAA (b :: t')) = true
    simp [h]

theorem hasAA_drop : ∀ (s : List Char) (i : ℕ),
    hasAA (s.drop i) = true → hasAA s = true := by
  intro s
  induction s with
  | nil => intro i h; simp at h; simp [hasAA] at h
  | cons c cs ih =>
    intro i h
    cases i with
    | zero => exact h
    | succ i => exact hasAA_cons_of c cs (ih i (by simpa using h))

theorem hasAA_append_no_at (u : List Char) (hu : ∀ c ∈ u, c ≠ '@')
    (B : List Char) : hasAA (u ++ B) = hasAA B := by
  induction u with
  | nil => rfl
  | cons c u' ih =>
    rw [List.cons_append, hasAA_cons_ne c (hu c (by simp)),
      ih (fun d hd => hu d (by simp [hd]))]

theorem amp_cons_head (c : Char) (cs : List Char) :
    ∃ t, amp_escape (c :: cs) = c :: t := by
  by_cases hc : c = '&'
  · subst hc
    by_cases he : entity_at (cs.take 30) = true
    · exact ⟨amp_escape cs, by
        rw [show amp_escape ('&' :: cs) =
          (if '&' = '&' then
            (if entity_at (cs.take 30) then ['&'] else "&amp;".toList)
          else ['&']) ++ amp_escape cs from rfl, if_pos rfl, if_pos he]
        rfl⟩
    · exact ⟨"amp;".toList ++ amp_escape cs, by
        rw [show amp_escape ('&' :: cs) =
          (if '&' = '&' then
            (if entity_at (cs.take 30) then ['&'] else "&amp;".toList)
          else ['&']) ++ amp_escape cs from rfl, if_pos rfl, if_neg he]
        rfl⟩
  · exact ⟨amp_escape cs, by
      rw [show amp_escape (c :: cs) =
        (if c = '&' then
          (if entity_at (cs.take 30) then ['&'] else "&amp;".toList)
        else [c]) ++ amp_escape cs from rfl, if_neg hc]
      rfl⟩

theorem hasAA_amp : ∀ (s : List Char), hasAA (amp_escape s) = true →
    hasAA s = true := by
  intro s
  induction s with
  | nil => intro h; simp [amp_escape, hasAA] at h
  | cons c cs ih =>
    intro h
    rw [show amp_escape (c :: cs) =
      (if c = '&' then
        (if entity_at (cs.take 30) then ['&'] else "&amp;".toList)
      else [c]) ++ amp_escape cs from rfl] at h
    by_cases hc : c = '&'
    · rw [if_pos hc] at h
      by_cases he : entity_at (cs.take 30) = true
      · rw [if_pos he] at h
        rw [show (['&'] : List Char) ++ amp_escape cs = '&' :: amp_escape cs
          from rfl, hasAA_cons_ne '&' (by decide)] at h
        exact hasAA_cons_of c cs (ih h)
      · rw [if_neg he] at h
        rw [hasAA_append_no_at "&amp;".toList (by decide)] at h
        exact hasAA_cons_of c cs (ih h)
    · rw [if_neg hc] at h
      rw [show ([c] : List Char) ++ amp_escape cs = c :: amp_escape cs
        from rfl] at h
      by_cases ha : c = '@'
      · subst ha
        cases cs with
        | nil => simp [amp_escape, hasAA] at h
        | cons e cs' =>
          obtain ⟨t, ht⟩ := amp_cons_head e cs'
          rw [ht] at h
          by_cases he2 : e = '@'
          · subst he2
            show (('@' = '@' && '@' = '@') || hasAA ('@' :: cs')) = true
            simp
          · rw [show hasAA ('@' :: e :: t) =
              (('@' = '@' && e = '@') || hasAA (e :: t)) from rfl] at h
            simp [he2] at h
            rw [← ht] at h
            exact hasAA_cons_of _ _ (ih h)
      · rw [hasAA_cons_ne c ha] at h
        exact hasAA_cons_of c cs (ih h)

theorem hasAA_replace_single (a : Char) (r : List Char)
    (hr : ∀ d ∈ r, d ≠ '@') (hrne : r ≠ []) :
    ∀ (fuel : ℕ) (s : List Char),
      hasAA (replaceAllF fuel [a] r s) = true → hasAA s = true := by
  intro fuel
  induction fuel with
  | zero => intro s h; exact h
  | succ fuel ih =>
    intro s h
    cases s with
    | nil => exact h
    | cons d cs =>
      rw [show replaceAllF (fuel + 1) [a] r (d :: cs) =
        (if [a].isPrefixOf (d :: cs) then
          r ++ replaceAllF fuel [a] r (List.drop 0 cs)
        else d :: replaceAllF fuel [a] r cs) from rfl] at h
      by_cases had : a = d
      · rw [if_pos (by rw [isPrefixOf_single, had, beq_self_eq_true])] at h
        rw [hasAA_append_no_at r hr, List.drop_zero] at h
        exact hasAA_cons_of d cs (ih cs h)
      · rw [if_neg (by rw [isPrefixOf_single]; simpa using had)] at h
        by_cases hd : d = '@'
        · subst hd
          cases cs with
          | nil =>
            have : replaceAllF fuel [a] r [] = [] := by cases fuel <;> rfl
            rw [this] at h
            simp [hasAA] at h
          | cons e cs' =>
            have hhead : ∀ x t, replaceAllF fuel [a] r (e :: cs') = x :: t →
                x = '@' → e = '@' := by
              intro x t hx h0
              cases fuel with
              | zero => cases hx; exact h0
              | succ fuel2 =>
                rw [show replaceAllF (fuel2 + 1) [a] r (e :: cs') =
                  (if [a].isPrefixOf (e :: cs') then
                    r ++ replaceAllF fuel2 [a] r (List.drop 0 cs')
                  else e :: replaceAllF fuel2 [a] r cs') from rfl] at hx
                by_cases hae : a = e
                · rw [if_pos (by rw [isPrefixOf_single, hae, beq_self_eq_true])] at hx
                  cases r with
                  | nil => exact absurd rfl hrne
                  | cons r0 rr =>
                    rw [List.cons_append] at hx
                    cases hx
                    exact absurd h0 (hr x (by simp))
                · rw [if_neg (by rw [isPrefixOf_single]; simpa using hae)] at hx
                  cases hx
                  exact h0
            cases hrec : replaceAllF fuel [a] r (e :: cs') with
            | nil =>
              rw [hrec] at h
              simp [hasAA] at h
            | cons x t =>
              rw [hrec] at h
              rw [show hasAA ('@' :: x :: t) =
                (('@' = '@' && x = '@') || hasAA (x :: t)) from rfl] at h
              by_cases hx : x = '@'
              · have he : e = '@' := hhead x t hrec hx
                subst he
                show (('@' = '@' && '@' = '@') || hasAA ('@' :: cs')) = true
                simp
              · simp [hx] at h
                rw [← hrec] at h
                exact hasAA_cons_of _ _ (ih _ h)
        · rw [hasAA_cons_ne d hd] at h
          exact hasAA_cons_of d cs (ih cs h)

end PdfTagger

namespace PdfTagger

theorem digit_semi_tail_at (w : List Char) : ∀ (u : List Char),
    digit_semi_tail (u ++ '@' :: w) = digit_semi_tail u := by
  intro u
  induction u with
  | nil =>
    show (if '@' = ';' then true
      else if Char.isDigit '@' then digit_semi_tail w else false) = false
    rw [if_neg (by decide), if_neg (by decide)]
  | cons c u' ih =>
    show (if c = ';' then true else if c.isDigit then
      digit_semi_tail (u' ++ '@' :: w) else false) = _
    rw [ih]
    rfl

theorem hex_semi_tail_at (w : List Char) : ∀ (u : List Char),
    hex_semi_tail (u ++ '@' :: w) = hex_semi_tail u := by
  intro u
  induction u with
  | nil =>
    show (if '@' = ';' then true
      else if isHexChar '@' then hex_semi_tail w else false) = false
    rw [if_neg (by decide), if_neg (by decide)]
  | cons c u' ih =>
    show (if c = ';' then true else if isHexChar c then
      hex_semi_tail (u' ++ '@' :: w) else false) = _
    rw [ih]
    rfl

theorem name_semi_tail_at (w : List Char) : ∀ (u : List Char),
    name_semi_tail (u ++ '@' :: w) = name_semi_tail u := by
  intro u
  induction u with
  | nil =>
    show (if '@' = ';' then true
      else if isAsciiAlnum '@' then name_semi_tail w else false) = false
    rw [if_neg (by decide), if_neg (by decide)]
  | cons c u' ih =>
    show (if c = ';' then true else if isAsciiAlnum c then
      name_semi_tail (u' ++ '@' :: w) else false) = _
    rw [ih]
    rfl

theorem digit_semi_at (w : List Char) (u : List Char) :
    digit_semi (u ++ '@' :: w) = digit_semi u := by
  cases u with
  | nil =>
    show (if Char.isDigit '@' then digit_semi_tail w else false) = false
    rw [if_neg (by decide)]
  | cons c u' =>
    show (if c.isDigit then digit_semi_tail (u' ++ '@' :: w) else false) = _
    rw [digit_semi_tail_at]
    rfl

theorem hex_semi_at (w : List Char) (u : List Char) :
    hex_semi (u ++ '@' :: w) = hex_semi u := by
  cases u with
  | nil =>
    show (if isHexChar '@' then hex_semi_tail w else false) = false
    rw [if_neg (by decide)]
  | cons c u' =>
    show (if isHexChar c then hex_semi_tail (u' ++ '@' :: w) else false) = _
    rw [hex_semi_tail_at]
    rfl

theorem name_semi_at (w : List Char) (u : List Char) :
    name_semi (u ++ '@' :: w) = name_semi u := by
  cases u with
  | nil =>
    show (if isAsciiAlnum '@' then name_semi_tail w else false) = false
    rw [if_neg (by decide)]
  | cons c u' =>
    show (if isAsciiAlnum c then name_semi_tail (u' ++ '@' :: w) else false) = _
    rw [name_semi_tail_at]
    rfl

theorem entity_at_append_at (w : List Char) (u : List Char) :
    entity_at (u ++ '@' :: w) = entity_at u := by
  cases u with
  | nil => rfl
  | cons c cs =>
    by_cases h1 : c = '#'
    · subst h1
      cases cs with
      | nil =>
        show digit_semi ('@' :: w) = digit_semi []
        rw [show digit_semi ('@' :: w) =
          (if Char.isDigit '@' then digit_semi_tail w else false) from rfl,
          if_neg (by decide)]
        rfl
      | cons e cs' =>
        by_cases he : e = 'x'
        · subst he
          show hex_semi (cs' ++ '@' :: w) = hex_semi cs'
          exact hex_semi_at w cs'
        · have hL : entity_at ('#' :: ((e :: cs') ++ '@' :: w)) =
              digit_semi ((e :: cs') ++ '@' :: w) := by
            show (match (e :: cs') ++ '@' :: w with
              | 'x' :: cs2 => hex_semi cs2
              | _ => digit_semi ((e :: cs') ++ '@' :: w)) = _
            split
            · rename_i heq
              rw [List.cons_append] at heq
              injection heq with hh1 hh2
              exact absurd hh1 he
            · rfl
          have hR : entity_at ('#' :: (e :: cs')) = digit_semi (e :: cs') := by
            show (match e :: cs' with
              | 'x' :: cs2 => hex_semi cs2
              | _ => digit_semi (e :: cs')) = _
            split
            · rename_i heq
              injection heq with hh1 hh2
              exact absurd hh1 he
            · rfl
          show entity_at ('#' :: ((e :: cs') ++ '@' :: w)) =
            entity_at ('#' :: (e :: cs'))
          rw [hL, hR]
          exact digit_semi_at w (e :: cs')
    · show entity_at (c :: (cs ++ '@' :: w)) = entity_at (c :: cs)
      rw [show entity_at (c :: (cs ++ '@' :: w)) =
        (if c = '#' then
          (match cs ++ '@' :: w with
          | 'x' :: cs2 => hex_semi cs2
          | _ => digit_semi (cs ++ '@' :: w))
        else if isAsciiLetter c then name_semi (cs ++ '@' :: w)
        else false) from rfl, if_neg h1]
      rw [show entity_at (c :: cs) =
        (if c = '#' then
          (match cs with
          | 'x' :: cs2 => hex_semi cs2
          | _ => digit_semi cs)
        else if isAsciiLetter c then name_semi cs
        else false) from rfl, if_neg h1]
      by_cases h2 : isAsciiLetter c = true
      · rw [if_pos h2, if_pos h2]
        exact name_semi_at w cs
      · rw [if_neg h2, if_neg h2]

end PdfTagger

namespace PdfTagger

theorem digit_semi_tail_prefix : ∀ (s : List Char), digit_semi_tail s = true →
    ∃ w rest, s = w ++ rest ∧ (∀ d ∈ w, d ≠ '&') ∧
      ∀ r2, digit_semi_tail (w ++ r2) = true := by
  intro s
  induction s with
  | nil => intro h; simp [digit_semi_tail] at h
  | cons c cs ih =>
    intro h
    by_cases hc : c = ';'
    · exact ⟨[';'], cs, by rw [hc]; rfl, by decide, fun r2 => rfl⟩
    · rw [show digit_semi_tail (c :: cs) =
        (if c = ';' then true else if c.isDigit then digit_semi_tail cs
          else false) from rfl, if_neg hc] at h
      by_cases hd : c.isDigit = true
      · rw [if_pos hd] at h
        obtain ⟨w, rest, hsp, hfree, hcl⟩ := ih h
        refine ⟨c :: w, rest, by rw [hsp]; rfl, ?_, ?_⟩
        · intro d hdm
          rcases List.mem_cons.mp hdm with h1 | h1
          · subst h1
            intro hh
            rw [hh] at hd
            exact absurd hd (by decide)
          · exact hfree d h1
        · intro r2
          show (if c = ';' then true else if c.isDigit then
            digit_semi_tail (w ++ r2) else false) = true
          rw [if_neg hc, if_pos hd]
          exact hcl r2
      · rw [if_neg hd] at h
        exact absurd h (by simp)

theorem hex_semi_tail_prefix : ∀ (s : List Char), hex_semi_tail s = true →
    ∃ w rest, s = w ++ rest ∧ (∀ d ∈ w, d ≠ '&') ∧
      ∀ r2, hex_semi_tail (w ++ r2) = true := by
  intro s
  induction s with
  | nil => intro h; simp [hex_semi_tail] at h
  | cons c cs ih =>
    intro h
    by_cases hc : c = ';'
    · exact ⟨[';'], cs, by rw [hc]; rfl, by decide, fun r2 => rfl⟩
    · rw [show hex_semi_tail (c :: cs) =
        (if c = ';' then true else if isHexChar c then hex_semi_tail cs
          else false) from rfl, if_neg hc] at h
      by_cases hd : isHexChar c = true
      · rw [if_pos hd] at h
        obtain ⟨w, rest, hsp, hfree, hcl⟩ := ih h
        refine ⟨c :: w, rest, by rw [hsp]; rfl, ?_, ?_⟩
        · intro d hdm
          rcases List.mem_cons.mp hdm with h1 | h1
          · subst h1
            intro hh
            rw [hh] at hd
            exact absurd hd (by decide)
          · exact hfree d h1
        · intro r2
          show (if c = ';' then true else if isHexChar c then
            hex_semi_tail (w ++ r2) else false) = true
          rw [if_neg hc, if_pos hd]
          exact hcl r2
      · rw [if_neg hd] at h
        exact absurd h (by simp)

theorem name_semi_tail_prefix : ∀ (s : List Char), name_semi_tail s = true →
    ∃ w rest, s = w ++ rest ∧ (∀ d ∈ w, d ≠ '&') ∧
      ∀ r2, name_semi_tail (w ++ r2) = true := by
  intro s
  induction s with
  | nil => intro h; simp [name_semi_tail] at h
  | cons c cs ih =>
    intro h
    by_cases hc : c = ';'
    · exact ⟨[';'], cs, by rw [hc]; rfl, by decide, fun r2 => rfl⟩
    · rw [show name_semi_tail (c :: cs) =
        (if c = ';' then true else if isAsciiAlnum c then name_semi_tail cs
          else false) from rfl, if_neg hc] at h
      by_cases hd : isAsciiAlnum c = true
      · rw [if_pos hd] at h
        obtain ⟨w, rest, hsp, hfree, hcl⟩ := ih h
        refine ⟨c :: w, rest, by rw [hsp]; rfl, ?_, ?_⟩
        · intro d hdm
          rcases List.mem_cons.mp hdm with h1 | h1
          · subst h1
            intro hh
            rw [hh] at hd
            exact absurd hd (by decide)
          · exact hfree d h1
        · intro r2
          show (if c = ';' then true else if isAsciiAlnum c then
            name_semi_tail (w ++ r2) else false) = true
          rw [if_neg hc, if_pos hd]
          exact hcl r2
      · rw [if_neg hd] at h
        exact absurd h (by simp)

end PdfTagger

namespace PdfTagger

theorem entity_at_unfold (c : Char) (cs : List Char) :
    entity_at (c :: cs) =
      (if c = '#' then
        (match cs with
        | 'x' :: u => hex_semi u
        | _ => digit_semi cs)
      else if isAsciiLetter c then name_semi cs else false) := rfl

theorem entity_at_prefix (s : List Char) (h : entity_at s = true) :
    ∃ w rest, s = w ++ rest ∧ (∀ d ∈ w, d ≠ '&') ∧
      ∀ r2, entity_at (w ++ r2) = true := by
  cases s with
  | nil => simp [entity_at] at h
  | cons c cs =>
    by_cases h1 : c = '#'
    · subst h1
      cases cs with
      | nil =>
        rw [show entity_at ['#'] = digit_semi [] from rfl] at h
        simp [digit_semi] at h
      | cons e cs2 =>
        by_cases he : e = 'x'
        · subst he
          rw [show entity_at ('#' :: 'x' :: cs2) = hex_semi cs2 from rfl] at h
          cases cs2 with
          | nil => simp [hex_semi] at h
          | cons d cs3 =>
            rw [show hex_semi (d :: cs3) =
              (if isHexChar d then hex_semi_tail cs3 else false) from rfl] at h
            by_cases hd : isHexChar d = true
            · rw [if_pos hd] at h
              obtain ⟨w3, rest3, hsp, hfree, hcl⟩ := hex_semi_tail_prefix cs3 h
              refine ⟨'#' :: 'x' :: d :: w3, rest3, by rw [hsp]; rfl, ?_, ?_⟩
              · intro x hx
                rcases List.mem_cons.mp hx with hx1 | hx
                · subst hx1; decide
                rcases List.mem_cons.mp hx with hx1 | hx
                · subst hx1; decide
                rcases List.mem_cons.mp hx with hx1 | hx
                · subst hx1
                  intro hh
                  rw [hh] at hd
                  exact absurd hd (by decide)
                · exact hfree x hx
              · intro r2
                show hex_semi ((d :: w3) ++ r2) = true
                show (if isHexChar d then hex_semi_tail (w3 ++ r2)
                  else false) = true
                rw [if_pos hd]
                exact hcl r2
            · rw [if_neg hd] at h
              exact absurd h (by simp)
        · have hmL : entity_at ('#' :: (e :: cs2)) = digit_semi (e :: cs2) := by
            show (match e :: cs2 with
              | 'x' :: u => hex_semi u
              | _ => digit_semi (e :: cs2)) = _
            split
            · rename_i heq
              injection heq with hh1 hh2
              exact absurd hh1 he
            · rfl
          rw [hmL] at h
          rw [show digit_semi (e :: cs2) =
            (if Char.isDigit e then digit_semi_tail cs2 else false) from rfl] at h
          by_cases hd : Char.isDigit e = true
          · rw [if_pos hd] at h
            obtain ⟨w3, rest3, hsp, hfree, hcl⟩ := digit_semi_tail_prefix cs2 h
            refine ⟨'#' :: e :: w3, rest3, by rw [hsp]; rfl, ?_, ?_⟩
            · intro x hx
              rcases List.mem_cons.mp hx with hx1 | hx
              · subst hx1; decide
              rcases List.mem_cons.mp hx with hx1 | hx
              · subst hx1
                intro hh
                rw [hh] at hd
                exact absurd hd (by decide)
              · exact hfree x hx
            · intro r2
              have hmL2 : entity_at ('#' :: (e :: (w3 ++ r2))) =
                  digit_semi (e :: (w3 ++ r2)) := by
                show (match e :: (w3 ++ r2) with
                  | 'x' :: u => hex_semi u
                  | _ => digit_semi (e :: (w3 ++ r2))) = _
                split
                · rename_i heq
                  injection heq with hh1 hh2
                  exact absurd hh1 he
                · rfl
              show entity_at ('#' :: (e :: (w3 ++ r2))) = true
              rw [hmL2]
              show (if Char.isDigit e then digit_semi_tail (w3 ++ r2)
                else false) = true
              rw [if_pos hd]
              exact hcl r2
          · rw [if_neg hd] at h
            exact absurd h (by simp)
    · rw [entity_at_unfold, if_neg h1] at h
      by_cases h2 : isAsciiLetter c = true
      · rw [if_pos h2] at h
        cases cs with
        | nil => simp [name_semi] at h
        | cons d cs3 =>
          rw [show name_semi (d :: cs3) =
            (if isAsciiAlnum d then name_semi_tail cs3 else false) from rfl] at h
          by_cases hd : isAsciiAlnum d = true
          · rw [if_pos hd] at h
            obtain ⟨w3, rest3, hsp, hfree, hcl⟩ := name_semi_tail_prefix cs3 h
            refine ⟨c :: d :: w3, rest3, by rw [hsp]; rfl, ?_, ?_⟩
            · intro x hx
              rcases List.mem_cons.mp hx with hx1 | hx
              · subst hx1
                intro hh
                rw [hh] at h2
                exact absurd h2 (by decide)
              rcases List.mem_cons.mp hx with hx1 | hx
              · subst hx1
                intro hh
                rw [hh] at hd
                exact absurd hd (by decide)
              · exact hfree x hx
            · intro r2
              have hc3 : c ≠ '#' := h1
              show entity_at (c :: (d :: (w3 ++ r2))) = true
              rw [entity_at_unfold, if_neg hc3, if_pos h2]
              show (if isAsciiAlnum d then name_semi_tail (w3 ++ r2)
                else false) = true
              rw [if_pos hd]
              exact hcl r2
          · rw [if_neg hd] at h
            exact absurd h (by simp)
      · rw [if_neg h2] at h
        exact absurd h (by simp)

theorem amp_window (cs : List Char) (he : entity_at (cs.take 30) = true) :
    entity_at ((amp_escape cs).take 30) = true := by
  obtain ⟨w, rest, hsp, hfree, hcl⟩ := entity_at_prefix _ he
  have hw30 : w.length ≤ 30 := by
    have h1 := congrArg List.length hsp
    have h2 := List.length_take_le 30 cs
    simp at h1
    omega
  have hcs : cs = w ++ (rest ++ cs.drop 30) := by
    conv_lhs => rw [← List.take_append_drop 30 cs]
    rw [hsp, List.append_assoc]
  rw [hcs, amp_copy w hfree, List.take_append_eq_append_take,
    List.take_of_length_le hw30]
  exact hcl _

end PdfTagger

namespace PdfTagger

theorem amp_unfold (c : Char) (cs : List Char) :
    amp_escape (c :: cs) =
      (if c = '&' then
        (if entity_at (cs.take 30) then ['&'] else "&amp;".toList)
      else [c]) ++ amp_escape cs := rfl

theorem amp_escape_idem : ∀ (s : List Char),
    amp_escape (amp_escape s) = amp_escape s := by
  intro s
  induction s with
  | nil => rfl
  | cons c cs ih =>
    by_cases hc : c = '&'
    · subst hc
      by_cases he : entity_at (cs.take 30) = true
      · have h1 : amp_escape ('&' :: cs) = '&' :: amp_escape cs := by
          rw [amp_unfold, if_pos rfl, if_pos he]
          rfl
        rw [h1, amp_unfold, if_pos rfl, if_pos (amp_window cs he), ih]
        rfl
      · have h1 : amp_escape ('&' :: cs) =
            '&' :: ('a' :: 'm' :: 'p' :: ';' :: amp_escape cs) := by
          rw [amp_unfold, if_pos rfl, if_neg he]
          rfl
        rw [h1, amp_unfold, if_pos rfl]
        have hw : entity_at (('a' :: 'm' :: 'p' :: ';' ::
            amp_escape cs).take 30) = true := by
          rw [show ('a' :: 'm' :: 'p' :: ';' :: amp_escape cs).take 30 =
            'a' :: 'm' :: 'p' :: ';' :: ((amp_escape cs).take 26) from rfl]
          rfl
        rw [if_pos hw]
        have h2 : amp_escape ('a' :: 'm' :: 'p' :: ';' :: amp_escape cs) =
            'a' :: 'm' :: 'p' :: ';' :: amp_escape (amp_escape cs) := by
          have := amp_copy ['a', 'm', 'p', ';'] (by decide) (amp_escape cs)
          exact this
        rw [h2, ih]
        rfl
    · have h1 : amp_escape (c :: cs) = c :: amp_escape cs := by
        rw [amp_unfold, if_neg hc]
        rfl
      rw [h1, amp_unfold, if_neg hc, ih]
      rfl

end PdfTagger

namespace PdfTagger

theorem noOcc_AA (p'' s : List Char) (h : hasAA s = false) :
    noOcc ('@' :: '@' :: p'') s := by
  intro i hpre
  cases hd : s.drop i with
  | nil => rw [hd] at hpre; simp [List.isPrefixOf] at hpre
  | cons a t =>
    rw [hd] at hpre
    cases t with
    | nil => simp [List.isPrefixOf] at hpre
    | cons b t2 =>
      have hab : '@' = a ∧ '@' = b := by
        have := hpre
        simp [List.isPrefixOf] at this
        exact ⟨this.1, this.2.1⟩
      have hAA : hasAA (s.drop i) = true := by
        rw [hd]
        show ((a = '@' && b = '@') || hasAA (b :: t2)) = true
        simp [← hab.1, ← hab.2]
      rw [hasAA_drop s i hAA] at h
      exact absurd h (by simp)

theorem restore_id (s : List Char) (h : hasAA s = false) :
    restore_placeholders s = s := by
  have key : ∀ (p'' r : List Char), replaceAll ('@' :: '@' :: p'') r s = s :=
    fun p'' r => replaceAllF_id_of_noOcc _ _ s (noOcc_AA p'' s h) _
  unfold restore_placeholders
  rw [show ph_b_open = '@' :: '@' :: "B_OPEN@@".toList from rfl,
    key "B_OPEN@@".toList "<b>".toList,
    show ph_b_close = '@' :: '@' :: "B_CLOSE@@".toList from rfl,
    key "B_CLOSE@@".toList "</b>".toList,
    show ph_i_open = '@' :: '@' :: "I_OPEN@@".toList from rfl,
    key "I_OPEN@@".toList "<i>".toList,
    show ph_i_close = '@' :: '@' :: "I_CLOSE@@".toList from rfl,
    key "I_CLOSE@@".toList "</i>".toList]

end PdfTagger

/-- C2: counterexample to idempotence as claimed.  The string `@@B_OPEN@@`
contains no recognized inline tag pair (none of the four tag regexes
matches anywhere in it), yet escaping it once yields `<b>` (the
placeholder-restoring replaces turn the literal placeholder text into a
tag) and escaping twice yields `&lt;b&gt;`. -/
theorem claim_C2_counterexample :
    PdfTagger.has_tag_pair "@@B_OPEN@@".toList = false ∧
    PdfTagger.escape_html_keep_bi_and_entities "@@B_OPEN@@".toList =
      "<b>".toList ∧
    PdfTagger.escape_html_keep_bi_and_entities
      (PdfTagger.escape_html_keep_bi_and_entities "@@B_OPEN@@".toList) ≠
      PdfTagger.escape_html_keep_bi_and_entities "@@B_OPEN@@".toList := by
  refine ⟨by decide, by decide, by decide⟩

/-- C2: corrected idempotence.  For a string with no recognized inline
tag pair AND no two adjacent `@` characters, escaping is idempotent.
(The extra `@@`-freedom hypothesis is required: placeholder-shaped text
is rewritten into tags by the restoring replaces, see
`claim_C2_counterexample`.) -/
theorem claim_C2_amended (x : List Char)
    (h1 : PdfTagger.has_tag_pair x = false)
    (h2 : PdfTagger.hasAA x = false) :
    PdfTagger.escape_html_keep_bi_and_entities
      (PdfTagger.escape_html_keep_bi_and_entities x) =
      PdfTagger.escape_html_keep_bi_and_entities x := by
  by_cases hx : x = []
  · subst hx
    rfl
  · unfold PdfTagger.has_tag_pair at h1
    rcases Bool.or_eq_false_iff.mp h1 with ⟨h1a, hd⟩
    rcases Bool.or_eq_false_iff.mp h1a with ⟨h1b, hc⟩
    rcases Bool.or_eq_false_iff.mp h1b with ⟨ha, hb⟩
    have e1 : PdfTagger.sub_nested_bi x = x :=
      PdfTagger.protectScanF_id _ _ rfl x ha x.length
    have e2 : PdfTagger.sub_nested_ib x = x :=
      PdfTagger.protectScanF_id _ _ rfl x hb x.length
    have e3 : PdfTagger.sub_single_b x = x :=
      PdfTagger.protectScanF_id _ _ rfl x hc x.length
    have e4 : PdfTagger.sub_single_i x = x :=
      PdfTagger.protectScanF_id _ _ rfl x hd x.length
    have hAAz : PdfTagger.hasAA (PdfTagger.esc_angle x) = false := by
      cases hq : PdfTagger.hasAA (PdfTagger.esc_angle x) with
      | false => rfl
      | true =>
        exfalso
        unfold PdfTagger.esc_angle PdfTagger.replaceAll at hq
        have hmid := PdfTagger.hasAA_replace_single '>' "&gt;".toList
          (by decide) (by decide) _ _ hq
        have hx2 := PdfTagger.hasAA_replace_single '<' "&lt;".toList
          (by decide) (by decide) _ _ hmid
        rw [hx2] at h2
        exact absurd h2 (by simp)
    have hAAy : PdfTagger.hasAA
        (PdfTagger.amp_escape (PdfTagger.esc_angle x)) = false := by
      cases hq : PdfTagger.hasAA
          (PdfTagger.amp_escape (PdfTagger.esc_angle x)) with
      | false => rfl
      | true =>
        exfalso
        rw [PdfTagger.hasAA_amp _ hq] at hAAz
        exact absurd hAAz (by simp)
    have hEx : PdfTagger.escape_html_keep_bi_and_entities x =
        PdfTagger.amp_escape (PdfTagger.esc_angle x) := by
      unfold PdfTagger.escape_html_keep_bi_and_entities
      rw [if_neg hx, e1, e2, e3, e4, PdfTagger.restore_id _ hAAy]
    rw [hEx]
    have hlty : '<' ∉ PdfTagger.amp_escape (PdfTagger.esc_angle x) := by
      intro hm
      rcases PdfTagger.mem_amp '<' _ hm with hm1 | hm1
      · exact PdfTagger.lt_not_mem_esc x hm1
      · exact absurd hm1 (by decide)
    have hgty : '>' ∉ PdfTagger.amp_escape (PdfTagger.esc_angle x) := by
      intro hm
      rcases PdfTagger.mem_amp '>' _ hm with hm1 | hm1
      · exact PdfTagger.gt_not_mem_esc x hm1
      · exact absurd hm1 (by decide)
    by_cases hy : PdfTagger.amp_escape (PdfTagger.esc_angle x) = []
    · rw [hy]
      rfl
    · have hyn : ∀ c ∈ PdfTagger.amp_escape (PdfTagger.esc_angle x),
          c ≠ '<' := fun c hcm hceq => hlty (hceq ▸ hcm)
      obtain ⟨f1, f2, f3, f4⟩ := PdfTagger.no_lt_passes_id _ hyn
      unfold PdfTagger.escape_html_keep_bi_and_entities
      rw [if_neg hy, f1, f2, f3, f4, PdfTagger.esc_angle_id _ hlty hgty,
        PdfTagger.amp_escape_idem, PdfTagger.restore_id _ hAAy]

/-- C2 amended-theorem witness at the concrete input `5 < 6 & x`. -/
theorem claim_C2_amended_witness :
    PdfTagger.has_tag_pair "5 < 6 & x".toList = false ∧
    PdfTagger.hasAA "5 < 6 & x".toList = false ∧
    PdfTagger.escape_html_keep_bi_and_entities
      (PdfTagger.escape_html_keep_bi_and_entities "5 < 6 & x".toList) =
      PdfTagger.escape_html_keep_bi_and_entities "5 < 6 & x".toList :=
  ⟨by decide, by decide,
    claim_C2_amended "5 < 6 & x".toList (by decide) (by decide)⟩

namespace PdfTagger

theorem dropWhile_append_keep (q : Char → Bool) (C : List Char) (c0 : Char)
    (w : List Char) (hC : C = c0 :: w) (hc0 : q c0 = false) :
    ∀ (u : List Char), (u ++ C).dropWhile q = u.dropWhile q ++ C := by
  intro u
  induction u with
  | nil =>
    show C.dropWhile q = C
    rw [hC, List.dropWhile_cons_of_neg (by simp [hc0])]
  | cons c u' ih =>
    by_cases h : q c = true
    · rw [List.cons_append, List.dropWhile_cons_of_pos h,
        List.dropWhile_cons_of_pos h, ih]
    · rw [List.cons_append, List.dropWhile_cons_of_neg (by simp [h]),
        List.dropWhile_cons_of_neg (by simp [h])]
      rfl

theorem ciHasSub_tail (p c cs) (h : ciHasSub p (c :: cs) = false) :
    ciHasSub p cs = false := by
  rw [show ciHasSub p (c :: cs) =
    ((matchLit p (c :: cs)).isSome || ciHasSub p cs) from rfl] at h
  exact (Bool.or_eq_false_iff.mp h).2

theorem ciHasSub_head (p c cs) (h : ciHasSub p (c :: cs) = false) :
    (matchLit p (c :: cs)).isSome = false := by
  rw [show ciHasSub p (c :: cs) =
    ((matchLit p (c :: cs)).isSome || ciHasSub p cs) from rfl] at h
  exact (Bool.or_eq_false_iff.mp h).1

theorem ciHasSub_dropWhile (p : List Char) (q : Char → Bool) :
    ∀ (t : List Char), ciHasSub p t = false →
      ciHasSub p (t.dropWhile q) = false := by
  intro t
  induction t with
  | nil => intro h; exact h
  | cons c cs ih =>
    intro h
    by_cases hq : q c = true
    · rw [List.dropWhile_cons_of_pos hq]
      exact ih (ciHasSub_tail p c cs h)
    · rw [List.dropWhile_cons_of_neg (by simp [hq])]
      exact h

theorem mem_replace_keep (a c : Char) (r : List Char) (hca : c ≠ a) :
    ∀ (fuel : ℕ) (s : List Char), c ∈ s → c ∈ replaceAllF fuel [a] r s := by
  intro fuel
  induction fuel with
  | zero => intro s h; exact h
  | succ fuel ih =>
    intro s h
    cases s with
    | nil => simp at h
    | cons d cs =>
      rw [show replaceAllF (fuel + 1) [a] r (d :: cs) =
        (if [a].isPrefixOf (d :: cs) then
          r ++ replaceAllF fuel [a] r (List.drop 0 cs)
        else d :: replaceAllF fuel [a] r cs) from rfl]
      by_cases had : a = d
      · rw [if_pos (by rw [isPrefixOf_single, had, beq_self_eq_true])]
        have hcs : c ∈ cs := by
          rcases List.mem_cons.mp h with h1 | h1
          · exact absurd (h1.trans had.symm) hca
          · exact h1
        exact List.mem_append_right r (by simpa using ih cs hcs)
      · rw [if_neg (by rw [isPrefixOf_single]; simpa using had)]
        rcases List.mem_cons.mp h with h1 | h1
        · simp [h1]
        · exact List.mem_cons_of_mem d (ih cs h1)

theorem mem_amp_keep (c : Char) : ∀ (s : List Char), c ∈ s →
    c ∈ amp_escape s := by
  intro s
  induction s with
  | nil => intro h; simp at h
  | cons d cs ih =>
    intro h
    rw [amp_unfold]
    rcases List.mem_cons.mp h with h1 | h1
    · apply List.mem_append_left
      by_cases hd : d = '&'
      · rw [if_pos hd]
        by_cases he : entity_at (cs.take 30) = true
        · rw [if_pos he]
          simp [h1, hd]
        · rw [if_neg he]
          rw [h1, hd]
          decide
      · rw [if_neg hd]
        simp [h1]
    · exact List.mem_append_right _ (ih h1)

end PdfTagger

namespace PdfTagger

theorem entity_at_take_at (u : List Char) (w : List Char) :
    entity_at ((u ++ '@' :: w).take 30) = entity_at (u.take 30) := by
  by_cases hu : 30 ≤ u.length
  · rw [List.take_append_eq_append_take,
      show 30 - u.length = 0 from by omega]
    simp
  · rw [List.take_append_eq_append_take,
      List.take_of_length_le (show u.length ≤ 30 from by omega)]
    obtain ⟨k, hk⟩ : ∃ k, 30 - u.length = k + 1 := ⟨29 - u.length, by omega⟩
    rw [hk, List.take_succ_cons]
    exact entity_at_append_at _ u

theorem amp_append_at (w : List Char) : ∀ (u : List Char),
    amp_escape (u ++ '@' :: w) = amp_escape u ++ amp_escape ('@' :: w) := by
  intro u
  induction u with
  | nil => rfl
  | cons c u' ih =>
    rw [List.cons_append, amp_unfold, amp_unfold c u', ih, entity_at_take_at]
    rw [List.append_assoc]

theorem amp_esc_plain (t : List Char)
    (h : '&' ∉ amp_escape (esc_angle t)) : amp_escape (esc_angle t) = t := by
  have hltt : '<' ∉ t := by
    intro hm
    apply h
    apply mem_amp_keep
    unfold esc_angle
    apply mem_replace_keep '>' '&' "&gt;".toList (by decide)
    exact single_replace_emits '<' "lt;".toList t.length t hm (le_refl _)
  have hgtt : '>' ∉ t := by
    intro hm
    apply h
    apply mem_amp_keep
    unfold esc_angle replaceAll
    apply single_replace_emits '>' "gt;".toList _ _ ?_ (le_refl _)
    exact mem_replace_keep '<' '>' "&lt;".toList (by decide) _ t hm
  have hampt : '&' ∉ t := by
    intro hm
    apply h
    apply mem_amp_keep
    unfold esc_angle
    apply mem_replace_keep '>' '&' "&gt;".toList (by decide)
    exact mem_replace_keep '<' '&' "&lt;".toList (by decide) _ t hm
  rw [esc_angle_id t hltt hgtt]
  exact amp_id_no_amp t (fun c hc hceq => hampt (hceq ▸ hc))

theorem at_not_mem_amp_esc (t : List Char) (h : '@' ∉ t) :
    '@' ∉ amp_escape (esc_angle t) := by
  intro hm
  rcases mem_amp '@' _ hm with h1 | h1
  · exact at_not_mem_esc t h h1
  · exact absurd h1 (by decide)

end PdfTagger

namespace PdfTagger

theorem protectScanF_succ_match (M : List Char → Option (List Char × List Char))
    (repl : List Char → List Char) (fuel : ℕ) (s inner rest : List Char)
    (hM : M s = some (inner, rest)) :
    protectScanF M repl (fuel + 1) s =
      repl inner ++ protectScanF M repl fuel rest := by
  have key : ∀ (s' : List Char), protectScanF M repl (fuel + 1) s' =
      (match M s' with
      | some (i, r) => repl i ++ protectScanF M repl fuel r
      | none => match s' with
        | [] => []
        | c :: cs => c :: protectScanF M repl fuel cs) := fun s' => rfl
  rw [key s, hM]

theorem findClosePair_boundary_bi (t : List Char)
    (h : ciHasSub closeI t = false) :
    findClosePair closeI closeB (t ++ "</i></b>".toList) = some (t, []) := by
  induction t with
  | nil => decide
  | cons c t' ih =>
    have hm := ciHasSub_head closeI c t' h
    have ht := ciHasSub_tail closeI c t' h
    have hnone : matchLit closeI (c :: (t' ++ "</i></b>".toList)) = none := by
      have := matchLit_tag_straddle ['/', 'i', '>'] (by decide) c t'
        "/i></b>".toList (by exact hm)
      exact this
    have hstep : findClosePair closeI closeB
        (c :: (t' ++ "</i></b>".toList)) =
        (findClosePair closeI closeB (t' ++ "</i></b>".toList)).map
          (fun pr => (c :: pr.1, pr.2)) := by
      rw [show findClosePair closeI closeB (c :: (t' ++ "</i></b>".toList)) =
        (match (matchLit closeI (c :: (t' ++ "</i></b>".toList))).bind
            (fun r => matchLit closeB (r.dropWhile isPySpace)) with
        | some rest => some ([], rest)
        | none => (findClosePair closeI closeB
            (t' ++ "</i></b>".toList)).map
            (fun pr => (c :: pr.1, pr.2))) from rfl, hnone]
      rfl
    show findClosePair closeI closeB (c :: (t' ++ "</i></b>".toList)) = _
    rw [hstep, ih ht]
    rfl

theorem findClosePair_boundary_ib (t : List Char)
    (h : ciHasSub closeB t = false) :
    findClosePair closeB closeI (t ++ "</b></i>".toList) = some (t, []) := by
  induction t with
  | nil => decide
  | cons c t' ih =>
    have hm := ciHasSub_head closeB c t' h
    have ht := ciHasSub_tail closeB c t' h
    have hnone : matchLit closeB (c :: (t' ++ "</b></i>".toList)) = none := by
      have := matchLit_tag_straddle ['/', 'b', '>'] (by decide) c t'
        "/b></i>".toList (by exact hm)
      exact this
    have hstep : findClosePair closeB closeI
        (c :: (t' ++ "</b></i>".toList)) =
        (findClosePair closeB closeI (t' ++ "</b></i>".toList)).map
          (fun pr => (c :: pr.1, pr.2)) := by
      rw [show findClosePair closeB closeI (c :: (t' ++ "</b></i>".toList)) =
        (match (matchLit closeB (c :: (t' ++ "</b></i>".toList))).bind
            (fun r => matchLit closeI (r.dropWhile isPySpace)) with
        | some rest => some ([], rest)
        | none => (findClosePair closeB closeI
            (t' ++ "</b></i>".toList)).map
            (fun pr => (c :: pr.1, pr.2))) from rfl, hnone]
      rfl
    show findClosePair closeB closeI (c :: (t' ++ "</b></i>".toList)) = _
    rw [hstep, ih ht]
    rfl

theorem sub_nested_bi_wrap (t : List Char) (h : ciHasSub closeI t = false) :
    sub_nested_bi ("<b><i>".toList ++ t ++ "</i></b>".toList) =
      ph_b_open ++ ph_i_open ++ esc_angle t ++ ph_i_close ++ ph_b_close := by
  have hM : matchNestedAt openB openI closeI closeB
      ("<b><i>".toList ++ t ++ "</i></b>".toList) = some (t, []) := by
    show findClosePair closeI closeB (t ++ "</i></b>".toList) = some (t, [])
    exact findClosePair_boundary_bi t h
  unfold sub_nested_bi
  obtain ⟨n, hn⟩ : ∃ n,
      ("<b><i>".toList ++ t ++ "</i></b>".toList).length = n + 1 :=
    ⟨t.length + 13, by simp⟩
  rw [hn, protectScanF_succ_match _ _ n _ t [] hM, protectScanF_nil _ _ rfl n,
    List.append_nil]

theorem sub_nested_ib_wrap (t : List Char) (h : ciHasSub closeB t = false) :
    sub_nested_ib ("<i><b>".toList ++ t ++ "</b></i>".toList) =
      ph_i_open ++ ph_b_open ++ esc_angle t ++ ph_b_close ++ ph_i_close := by
  have hM : matchNestedAt openI openB closeB closeI
      ("<i><b>".toList ++ t ++ "</b></i>".toList) = some (t, []) := by
    show findClosePair closeB closeI (t ++ "</b></i>".toList) = some (t, [])
    exact findClosePair_boundary_ib t h
  unfold sub_nested_ib
  obtain ⟨n, hn⟩ : ∃ n,
      ("<i><b>".toList ++ t ++ "</b></i>".toList).length = n + 1 :=
    ⟨t.length + 13, by simp⟩
  rw [hn, protectScanF_succ_match _ _ n _ t [] hM, protectScanF_nil _ _ rfl n,
    List.append_nil]

end PdfTagger

namespace PdfTagger

theorem Mbi_none_at_b (t : List Char) (hI : ciHasSub openI t = false) :
    matchNestedAt openB openI closeI closeB
      ("<b>".toList ++ (t ++ "</b></i>".toList)) = none := by
  show (matchLit openI ((t ++ "</b></i>".toList).dropWhile isPySpace)).bind
      (fun r2 => findClosePair closeI closeB r2) = none
  rw [dropWhile_append_keep isPySpace "</b></i>".toList '<'
    "/b></i>".toList rfl rfl t]
  cases hd : t.dropWhile isPySpace with
  | nil => rfl
  | cons a u' =>
    have hm : (matchLit openI (a :: u')).isSome = false := by
      have h2 : ciHasSub openI (a :: u') = false := by
        rw [← hd]
        exact ciHasSub_dropWhile openI isPySpace t hI
      exact ciHasSub_head openI a u' h2
    rw [show matchLit openI ((a :: u') ++ "</b></i>".toList) = none from
      matchLit_tag_straddle ['i', '>'] (by decide) a u' "/b></i>".toList hm]
    rfl

theorem shm_Mbi_tC (t : List Char) (hB : ciHasSub openB t = false) :
    scan_has_match (matchNestedAt openB openI closeI closeB)
      (t ++ "</b></i>".toList) = false := by
  induction t with
  | nil => decide
  | cons c t' ih =>
    show ((matchNestedAt openB openI closeI closeB
      ((c :: t') ++ "</b></i>".toList)).isSome ||
      scan_has_match _ (t' ++ "</b></i>".toList)) = false
    have hno : matchNestedAt openB openI closeI closeB
        ((c :: t') ++ "</b></i>".toList) = none := by
      unfold matchNestedAt
      rw [show matchLit openB ((c :: t') ++ "</b></i>".toList) = none from
        matchLit_tag_straddle ['b', '>'] (by decide) c t' "/b></i>".toList
          (ciHasSub_head openB c t' hB)]
      rfl
    rw [hno]
    simp only [Option.isSome_none, Bool.false_or]
    exact ih (ciHasSub_tail openB c t' hB)

theorem sub_nested_bi_wrap_ib_id (t : List Char)
    (hB : ciHasSub openB t = false) (hI : ciHasSub openI t = false) :
    sub_nested_bi ("<i><b>".toList ++ t ++ "</b></i>".toList) =
      "<i><b>".toList ++ t ++ "</b></i>".toList := by
  unfold sub_nested_bi
  rw [List.append_assoc]
  apply protectScanF_id _ _ rfl
  apply scan_has_match_append_concrete _ "<i><b>".toList
    (t ++ "</b></i>".toList) ?_ (shm_Mbi_tC t hB)
  intro i hi
  simp at hi
  interval_cases i
  · rfl
  · rfl
  · rfl
  · rw [show List.drop 3 "<i><b>".toList ++ (t ++ "</b></i>".toList) =
      "<b>".toList ++ (t ++ "</b></i>".toList) from rfl,
      Mbi_none_at_b t hI]
    rfl
  · rfl
  · rfl

end PdfTagger

namespace PdfTagger

theorem npre (p s : List Char) (h : p.isPrefixOf s = false) :
    ¬ p.isPrefixOf s := by simp [h]

theorem noStartIn_nil (p v : List Char) : noStartIn p [] v :=
  fun i hi => absurd hi (by simp)

theorem key_word : ∀ (word : List Char), (∀ c ∈ word, c ≠ '@') →
    ∀ (A v' : List Char), (∀ c ∈ A, c ≠ '@') → A ≠ word →
    (word ++ ['@', '@']).isPrefixOf (A ++ '@' :: '@' :: v') = false := by
  intro word
  induction word with
  | nil =>
    intro _ A v' hA hne
    cases A with
    | nil => exact absurd rfl hne
    | cons a A2 =>
      show (('@' == a) && _) = false
      rw [show ('@' == a) = false from
        beq_eq_false_iff_ne.mpr (fun h => hA a (by simp) h.symm)]
      rfl
  | cons x word' ih =>
    intro hw A v' hA hne
    cases A with
    | nil =>
      show ((x == '@') && _) = false
      rw [show (x == '@') = false from
        beq_eq_false_iff_ne.mpr (hw x (by simp))]
      rfl
    | cons a A2 =>
      show ((x == a) && ((word' ++ ['@', '@']).isPrefixOf
        (A2 ++ '@' :: '@' :: v'))) = false
      by_cases hxa : x = a
      · rw [ih (fun c hc => hw c (by simp [hc])) A2 v'
          (fun c hc => hA c (by simp [hc]))
          (fun h => hne (by rw [h, hxa]))]
        rw [Bool.and_false]
      · rw [show (x == a) = false from beq_eq_false_iff_ne.mpr hxa]
        rfl

theorem key_at9 (wd rest : List Char) (hw : ∀ c ∈ wd, c ≠ '@')
    (hwne : wd ≠ []) (A v' : List Char) (hA : ∀ c ∈ A, c ≠ '@') :
    ('@' :: (wd ++ rest)).isPrefixOf (A ++ '@' :: '@' :: v') = false := by
  cases A with
  | nil =>
    cases wd with
    | nil => exact absurd rfl hwne
    | cons c wd' =>
      show (('@' == '@') && ((c :: (wd' ++ rest)).isPrefixOf ('@' :: v'))) = false
      rw [beq_self_eq_true, Bool.true_and]
      show ((c == '@') && _) = false
      rw [show (c == '@') = false from
        beq_eq_false_iff_ne.mpr (hw c (by simp))]
      rfl
  | cons a A2 =>
    show (('@' == a) && _) = false
    rw [show ('@' == a) = false from
      beq_eq_false_iff_ne.mpr (fun h => hA a (by simp) h.symm)]
    rfl

end PdfTagger

namespace PdfTagger

theorem restore_bi (A : List Char) (hA : ∀ c ∈ A, c ≠ '@')
    (h1 : A ≠ "B_OPEN".toList) (h2 : A ≠ "B_CLOSE".toList) :
    restore_placeholders
      (ph_b_open ++ (ph_i_open ++ (A ++ (ph_i_close ++ ph_b_close)))) =
      "<b>".toList ++ ("<i>".toList ++ (A ++ ("</i>".toList ++ "</b>".toList))) := by
  have p1 : replaceAll ph_b_open "<b>".toList
      (ph_b_open ++ (ph_i_open ++ (A ++ (ph_i_close ++ ph_b_close)))) =
      "<b>".toList ++ (ph_i_open ++ (A ++ (ph_i_close ++ ph_b_close))) := by
    have hseg : noStartIn ph_b_open ph_i_open
        (A ++ (ph_i_close ++ ph_b_close)) := by
      intro i hi
      rw [show ph_i_open.length = 10 from rfl] at hi
      interval_cases i
      · exact npre _ _ rfl
      · exact npre _ _ rfl
      · exact npre _ _ rfl
      · exact npre _ _ rfl
      · exact npre _ _ rfl
      · exact npre _ _ rfl
      · exact npre _ _ rfl
      · exact npre _ _ rfl
      · exact npre _ _ (key_word "B_OPEN".toList (by decide) A
          ("I_CLOSE@@".toList ++ ph_b_close) hA h1)
      · exact npre _ _ (key_at9 "B_OPEN".toList ['@', '@'] (by decide)
          (by decide) A ("I_CLOSE@@".toList ++ ph_b_close) hA)
    have h := replaceAll_seg_bound ph_b_open "<b>".toList []
      (ph_i_open ++ (A ++ (ph_i_close ++ ph_b_close))) (by decide)
      (noStartIn_nil _ _)
      (noOcc_append _ _ _ hseg
        (noOcc_append _ _ _
          (noStartIn_of_no_at ('@' :: "B_OPEN@@".toList) A _ hA)
          (noOcc_of_bounded _ _ (by decide) (by decide))))
    simpa using h
  have p2 : replaceAll ph_b_close "</b>".toList
      ("<b>".toList ++ (ph_i_open ++ (A ++ (ph_i_close ++ ph_b_close)))) =
      "<b>".toList ++ (ph_i_open ++ (A ++ (ph_i_close ++ "</b>".toList))) := by
    have e : "<b>".toList ++ (ph_i_open ++ (A ++ (ph_i_close ++ ph_b_close))) =
        ("<b>".toList ++ (ph_i_open ++ (A ++ ph_i_close))) ++
          (ph_b_close ++ []) := by
      simp [List.append_assoc]
    rw [e]
    have hseg2 : noStartIn ph_b_close ph_i_open
        ((A ++ ph_i_close) ++ (ph_b_close ++ [])) := by
      rw [List.append_assoc]
      intro i hi
      rw [show ph_i_open.length = 10 from rfl] at hi
      interval_cases i
      · exact npre _ _ rfl
      · exact npre _ _ rfl
      · exact npre _ _ rfl
      · exact npre _ _ rfl
      · exact npre _ _ rfl
      · exact npre _ _ rfl
      · exact npre _ _ rfl
      · exact npre _ _ rfl
      · have hk := key_word "B_CLOSE".toList (by decide) A
          ("I_CLOSE@@".toList ++ (ph_b_close ++ [])) hA h2
        exact npre _ _ hk
      · have hk := key_at9 "B_CLOSE".toList ['@', '@'] (by decide)
          (by decide) A ("I_CLOSE@@".toList ++ (ph_b_close ++ [])) hA
        exact npre _ _ hk
    have hseg3 : noStartIn ph_b_close ph_i_close (ph_b_close ++ []) := by
      intro i hi
      rw [show ph_i_close.length = 11 from rfl] at hi
      interval_cases i <;> exact npre _ _ rfl
    have h := replaceAll_seg_bound ph_b_close "</b>".toList
      ("<b>".toList ++ (ph_i_open ++ (A ++ ph_i_close))) [] (by decide)
      (noStartIn_append _ _ _ _
        (noStartIn_of_no_at ('@' :: "B_CLOSE@@".toList) _ _ (by decide))
        (noStartIn_append _ _ _ _ hseg2
          (noStartIn_append _ _ _ _
            (noStartIn_of_no_at ('@' :: "B_CLOSE@@".toList) A _ hA)
            hseg3)))
      (noOcc_nil _ (by decide))
    rw [h]
    simp [List.append_assoc]
  have p3 : replaceAll ph_i_open "<i>".toList
      ("<b>".toList ++ (ph_i_open ++ (A ++ (ph_i_close ++ "</b>".toList)))) =
      "<b>".toList ++ ("<i>".toList ++ (A ++ (ph_i_close ++ "</b>".toList))) := by
    exact replaceAll_seg_bound ph_i_open "<i>".toList "<b>".toList
      (A ++ (ph_i_close ++ "</b>".toList)) (by decide)
      (noStartIn_of_no_at ('@' :: "I_OPEN@@".toList) _ _ (by decide))
      (noOcc_append _ _ _
        (noStartIn_of_no_at ('@' :: "I_OPEN@@".toList) A _ hA)
        (noOcc_of_bounded _ _ (by decide) (by decide)))
  have p4 : replaceAll ph_i_close "</i>".toList
      ("<b>".toList ++ ("<i>".toList ++ (A ++ (ph_i_close ++ "</b>".toList)))) =
      "<b>".toList ++ ("<i>".toList ++ (A ++ ("</i>".toList ++ "</b>".toList))) := by
    have e : "<b>".toList ++ ("<i>".toList ++ (A ++ (ph_i_close ++ "</b>".toList))) =
        ("<b>".toList ++ ("<i>".toList ++ A)) ++ (ph_i_close ++ "</b>".toList) := by
      simp [List.append_assoc]
    rw [e]
    have hu : ∀ c ∈ "<b>".toList ++ ("<i>".toList ++ A), c ≠ '@' := by
      intro c hc
      rcases List.mem_append.mp hc with hc1 | hc1
      · have : ∀ x ∈ "<b>".toList, x ≠ '@' := by decide
        exact this c hc1
      · rcases List.mem_append.mp hc1 with hc2 | hc2
        · have : ∀ x ∈ "<i>".toList, x ≠ '@' := by decide
          exact this c hc2
        · exact hA c hc2
    have h := replaceAll_seg_bound ph_i_close "</i>".toList
      ("<b>".toList ++ ("<i>".toList ++ A)) "</b>".toList (by decide)
      (noStartIn_of_no_at ('@' :: "I_CLOSE@@".toList) _ _ hu)
      (noOcc_of_no_at ('@' :: "I_CLOSE@@".toList) "</b>".toList (by decide))
    rw [h]
    simp [List.append_assoc]
  unfold restore_placeholders
  rw [p1, p2, p3, p4]

end PdfTagger

namespace PdfTagger

theorem restore_ib (A : List Char) (hA : ∀ c ∈ A, c ≠ '@') :
    restore_placeholders
      (ph_i_open ++ (ph_b_open ++ (A ++ (ph_b_close ++ ph_i_close)))) =
      "<i>".toList ++ ("<b>".toList ++ (A ++ ("</b>".toList ++ "</i>".toList))) := by
  have p1 : replaceAll ph_b_open "<b>".toList
      (ph_i_open ++ (ph_b_open ++ (A ++ (ph_b_close ++ ph_i_close)))) =
      ph_i_open ++ ("<b>".toList ++ (A ++ (ph_b_close ++ ph_i_close))) := by
    have hseg : noStartIn ph_b_open ph_i_open
        (ph_b_open ++ (A ++ (ph_b_close ++ ph_i_close))) := by
      intro i hi
      rw [show ph_i_open.length = 10 from rfl] at hi
      interval_cases i <;> exact npre _ _ rfl
    exact replaceAll_seg_bound ph_b_open "<b>".toList ph_i_open
      (A ++ (ph_b_close ++ ph_i_close)) (by decide) hseg
      (noOcc_append _ _ _
        (noStartIn_of_no_at ('@' :: "B_OPEN@@".toList) A _ hA)
        (noOcc_of_bounded _ _ (by decide) (by decide)))
  have p2 : replaceAll ph_b_close "</b>".toList
      (ph_i_open ++ ("<b>".toList ++ (A ++ (ph_b_close ++ ph_i_close)))) =
      ph_i_open ++ ("<b>".toList ++ (A ++ ("</b>".toList ++ ph_i_close))) := by
    have e : ph_i_open ++ ("<b>".toList ++ (A ++ (ph_b_close ++ ph_i_close))) =
        (ph_i_open ++ ("<b>".toList ++ A)) ++ (ph_b_close ++ ph_i_close) := by
      simp [List.append_assoc]
    rw [e]
    have hseg : noStartIn ph_b_close ph_i_open
        (("<b>".toList ++ A) ++ (ph_b_close ++ ph_i_close)) := by
      intro i hi
      rw [show ph_i_open.length = 10 from rfl] at hi
      interval_cases i <;> exact npre _ _ rfl
    have hu2 : ∀ c ∈ "<b>".toList ++ A, c ≠ '@' := by
      intro c hc
      rcases List.mem_append.mp hc with hc1 | hc1
      · have hx : ∀ x ∈ "<b>".toList, x ≠ '@' := by decide
        exact hx c hc1
      · exact hA c hc1
    have h := replaceAll_seg_bound ph_b_close "</b>".toList
      (ph_i_open ++ ("<b>".toList ++ A)) ph_i_close (by decide)
      (noStartIn_append _ _ _ _ hseg
        (noStartIn_of_no_at ('@' :: "B_CLOSE@@".toList) _ _ hu2))
      (noOcc_of_bounded _ _ (by decide) (by decide))
    rw [h]
    simp [List.append_assoc]
  have p3 : replaceAll ph_i_open "<i>".toList
      (ph_i_open ++ ("<b>".toList ++ (A ++ ("</b>".toList ++ ph_i_close)))) =
      "<i>".toList ++ ("<b>".toList ++ (A ++ ("</b>".toList ++ ph_i_close))) := by
    have h := replaceAll_seg_bound ph_i_open "<i>".toList []
      ("<b>".toList ++ (A ++ ("</b>".toList ++ ph_i_close))) (by decide)
      (noStartIn_nil _ _)
      (noOcc_append _ _ _
        (noStartIn_of_no_at ('@' :: "I_OPEN@@".toList) _ _ (by decide))
        (noOcc_append _ _ _
          (noStartIn_of_no_at ('@' :: "I_OPEN@@".toList) A _ hA)
          (noOcc_of_bounded _ _ (by decide) (by decide))))
    simpa using h
  have p4 : replaceAll ph_i_close "</i>".toList
      ("<i>".toList ++ ("<b>".toList ++ (A ++ ("</b>".toList ++ ph_i_close)))) =
      "<i>".toList ++ ("<b>".toList ++ (A ++ ("</b>".toList ++ "</i>".toList))) := by
    have e : "<i>".toList ++ ("<b>".toList ++ (A ++ ("</b>".toList ++ ph_i_close))) =
        ("<i>".toList ++ ("<b>".toList ++ (A ++ "</b>".toList))) ++
          (ph_i_close ++ []) := by
      simp [List.append_assoc]
    rw [e]
    have hu : ∀ c ∈ "<i>".toList ++ ("<b>".toList ++ (A ++ "</b>".toList)), c ≠ '@' := by
      intro c hc
      rcases List.mem_append.mp hc with hc1 | hc1
      · have hx : ∀ x ∈ "<i>".toList, x ≠ '@' := by decide
        exact hx c hc1
      · rcases List.mem_append.mp hc1 with hc2 | hc2
        · have hx : ∀ x ∈ "<b>".toList, x ≠ '@' := by decide
          exact hx c hc2
        · rcases List.mem_append.mp hc2 with hc3 | hc3
          · exact hA c hc3
          · have hx : ∀ x ∈ "</b>".toList, x ≠ '@' := by decide
            exact hx c hc3
    have h := replaceAll_seg_bound ph_i_close "</i>".toList
      ("<i>".toList ++ ("<b>".toList ++ (A ++ "</b>".toList))) [] (by decide)
      (noStartIn_of_no_at ('@' :: "I_CLOSE@@".toList) _ _ hu)
      (noOcc_nil _ (by decide))
    rw [h]
    simp [List.append_assoc]
  unfold restore_placeholders
  rw [p1, p2, p3, p4]

end PdfTagger

namespace PdfTagger

theorem escape_wrap_bi (t : List Char) (hat : ∀ c ∈ t, c ≠ '@')
    (hci : ciHasSub closeI t = false)
    (hBO : t ≠ "B_OPEN".toList) (hBC : t ≠ "B_CLOSE".toList) :
    escape_html_keep_bi_and_entities
      ("<b><i>".toList ++ t ++ "</i></b>".toList) =
      "<b><i>".toList ++ amp_escape (esc_angle t) ++ "</i></b>".toList := by
  have hlt : ∀ c ∈ ph_b_open ++ ph_i_open ++ esc_angle t ++ ph_i_close ++
      ph_b_close, c ≠ '<' := by
    intro c hc hceq
    subst hceq
    simp only [List.mem_append] at hc
    rcases hc with ((((hc | hc) | hc) | hc) | hc)
    · exact absurd hc (by decide)
    · exact absurd hc (by decide)
    · exact lt_not_mem_esc t hc
    · exact absurd hc (by decide)
    · exact absurd hc (by decide)
  have hltS : '<' ∉ ph_b_open ++ ph_i_open ++ esc_angle t ++ ph_i_close ++
      ph_b_close := fun hm => hlt '<' hm rfl
  have hgtS : '>' ∉ ph_b_open ++ ph_i_open ++ esc_angle t ++ ph_i_close ++
      ph_b_close := by
    intro hm
    simp only [List.mem_append] at hm
    rcases hm with ((((hc | hc) | hc) | hc) | hc)
    · exact absurd hc (by decide)
    · exact absurd hc (by decide)
    · exact gt_not_mem_esc t hc
    · exact absurd hc (by decide)
    · exact absurd hc (by decide)
  obtain ⟨-, f2, f3, f4⟩ := no_lt_passes_id _ hlt
  have hA' : ∀ c ∈ amp_escape (esc_angle t), c ≠ '@' := by
    intro c hc hceq
    subst hceq
    exact at_not_mem_amp_esc t (fun hm => hat '@' hm rfl) hc
  have h1' : amp_escape (esc_angle t) ≠ "B_OPEN".toList := by
    intro heq
    have hnoamp : '&' ∉ amp_escape (esc_angle t) := by
      rw [heq]; decide
    exact hBO ((amp_esc_plain t hnoamp).symm.trans heq)
  have h2' : amp_escape (esc_angle t) ≠ "B_CLOSE".toList := by
    intro heq
    have hnoamp : '&' ∉ amp_escape (esc_angle t) := by
      rw [heq]; decide
    exact hBC ((amp_esc_plain t hnoamp).symm.trans heq)
  unfold escape_html_keep_bi_and_entities
  rw [if_neg (by simp), sub_nested_bi_wrap t hci, f2, f3, f4,
    esc_angle_id _ hltS hgtS]
  rw [show ph_b_open ++ ph_i_open ++ esc_angle t ++ ph_i_close ++ ph_b_close =
      (ph_b_open ++ ph_i_open) ++ (esc_angle t ++ (ph_i_close ++ ph_b_close))
      from by simp [List.append_assoc]]
  rw [amp_copy (ph_b_open ++ ph_i_open) (by decide) _]
  rw [show ph_i_close ++ ph_b_close =
      '@' :: ("@I_CLOSE@@".toList ++ ph_b_close) from rfl]
  rw [amp_append_at ("@I_CLOSE@@".toList ++ ph_b_close) (esc_angle t)]
  rw [amp_id_no_amp ('@' :: ("@I_CLOSE@@".toList ++ ph_b_close)) (by decide)]
  rw [show (ph_b_open ++ ph_i_open) ++
      (amp_escape (esc_angle t) ++ ('@' :: ("@I_CLOSE@@".toList ++ ph_b_close))) =
      ph_b_open ++ (ph_i_open ++
        (amp_escape (esc_angle t) ++ (ph_i_close ++ ph_b_close))) from by
    rw [show ('@' : Char) :: ("@I_CLOSE@@".toList ++ ph_b_close) =
      ph_i_close ++ ph_b_close from rfl]
    simp [List.append_assoc]]
  rw [restore_bi _ hA' h1' h2']
  rw [List.append_assoc]
  rfl

theorem escape_wrap_ib (t : List Char) (hat : ∀ c ∈ t, c ≠ '@')
    (hob : ciHasSub openB t = false) (hoi : ciHasSub openI t = false)
    (hcb : ciHasSub closeB t = false) :
    escape_html_keep_bi_and_entities
      ("<i><b>".toList ++ t ++ "</b></i>".toList) =
      "<i><b>".toList ++ amp_escape (esc_angle t) ++ "</b></i>".toList := by
  have hlt : ∀ c ∈ ph_i_open ++ ph_b_open ++ esc_angle t ++ ph_b_close ++
      ph_i_close, c ≠ '<' := by
    intro c hc hceq
    subst hceq
    simp only [List.mem_append] at hc
    rcases hc with ((((hc | hc) | hc) | hc) | hc)
    · exact absurd hc (by decide)
    · exact absurd hc (by decide)
    · exact lt_not_mem_esc t hc
    · exact absurd hc (by decide)
    · exact absurd hc (by decide)
  have hltS : '<' ∉ ph_i_open ++ ph_b_open ++ esc_angle t ++ ph_b_close ++
      ph_i_close := fun hm => hlt '<' hm rfl
  have hgtS : '>' ∉ ph_i_open ++ ph_b_open ++ esc_angle t ++ ph_b_close ++
      ph_i_close := by
    intro hm
    simp only [List.mem_append] at hm
    rcases hm with ((((hc | hc) | hc) | hc) | hc)
    · exact absurd hc (by decide)
    · exact absurd hc (by decide)
    · exact gt_not_mem_esc t hc
    · exact absurd hc (by decide)
    · exact absurd hc (by decide)
  obtain ⟨-, -, f3, f4⟩ := no_lt_passes_id _ hlt
  have hA' : ∀ c ∈ amp_escape (esc_angle t), c ≠ '@' := by
    intro c hc hceq
    subst hceq
    exact at_not_mem_amp_esc t (fun hm => hat '@' hm rfl) hc
  unfold escape_html_keep_bi_and_entities
  rw [if_neg (by simp), sub_nested_bi_wrap_ib_id t hob hoi,
    sub_nested_ib_wrap t hcb, f3, f4, esc_angle_id _ hltS hgtS]
  rw [show ph_i_open ++ ph_b_open ++ esc_angle t ++ ph_b_close ++ ph_i_close =
      (ph_i_open ++ ph_b_open) ++ (esc_angle t ++ (ph_b_close ++ ph_i_close))
      from by simp [List.append_assoc]]
  rw [amp_copy (ph_i_open ++ ph_b_open) (by decide) _]
  rw [show ph_b_close ++ ph_i_close =
      '@' :: ("@B_CLOSE@@".toList ++ ph_i_close) from rfl]
  rw [amp_append_at ("@B_CLOSE@@".toList ++ ph_i_close) (esc_angle t)]
  rw [amp_id_no_amp ('@' :: ("@B_CLOSE@@".toList ++ ph_i_close)) (by decide)]
  rw [show (ph_i_open ++ ph_b_open) ++
      (amp_escape (esc_angle t) ++ ('@' :: ("@B_CLOSE@@".toList ++ ph_i_close))) =
      ph_i_open ++ (ph_b_open ++
        (amp_escape (esc_angle t) ++ (ph_b_close ++ ph_i_close))) from by
    rw [show ('@' : Char) :: ("@B_CLOSE@@".toList ++ ph_i_close) =
      ph_b_close ++ ph_i_close from rfl]
    simp [List.append_assoc]]
  rw [restore_ib _ hA']
  rw [List.append_assoc]
  rfl

end PdfTagger

/-- C1 (amended): for a body text containing no `@` character, no
case-insensitive occurrence of any of the four tag literals, and not equal
to the bare placeholder words `B_OPEN` / `B_CLOSE`, escaping the
doubly-styled text yields exactly the configured outer/inner tag pair
around the angle-and-ampersand-escaped body. -/
theorem claim_C1_amended (t : List Char) (pref : PdfTagger.NestingPref)
    (hat : ∀ c ∈ t, c ≠ '@')
    (hob : PdfTagger.ciHasSub PdfTagger.openB t = false)
    (hcb : PdfTagger.ciHasSub PdfTagger.closeB t = false)
    (hoi : PdfTagger.ciHasSub PdfTagger.openI t = false)
    (hci : PdfTagger.ciHasSub PdfTagger.closeI t = false)
    (hBO : t ≠ "B_OPEN".toList) (hBC : t ≠ "B_CLOSE".toList) :
    PdfTagger.escape_html_keep_bi_and_entities
      (PdfTagger.wrap_span_text t true true pref) =
      (match pref with
       | PdfTagger.NestingPref.b_outside_i => "<b><i>".toList
       | PdfTagger.NestingPref.i_outside_b => "<i><b>".toList) ++
      PdfTagger.amp_escape (PdfTagger.esc_angle t) ++
      (match pref with
       | PdfTagger.NestingPref.b_outside_i => "</i></b>".toList
       | PdfTagger.NestingPref.i_outside_b => "</b></i>".toList) := by
  cases pref with
  | b_outside_i =>
    rw [show PdfTagger.wrap_span_text t true true
        PdfTagger.NestingPref.b_outside_i =
        "<b><i>".toList ++ t ++ "</i></b>".toList from rfl]
    exact PdfTagger.escape_wrap_bi t hat hci hBO hBC
  | i_outside_b =>
    rw [show PdfTagger.wrap_span_text t true true
        PdfTagger.NestingPref.i_outside_b =
        "<i><b>".toList ++ t ++ "</b></i>".toList from rfl]
    exact PdfTagger.escape_wrap_ib t hat hob hoi hcb

/-- C1 counterexample: for the body text `@@B_OPEN@@` (no `<`, `>` or `&`
at all) the escaped doubly-styled output is `<b><i><b></i></b>`: the
placeholder-restoring pass turns text characters into a third, unmatched
`<b>` tag, so the output is not the configured pair around the escaped
body. -/
theorem claim_C1_counterexample :
    PdfTagger.escape_html_keep_bi_and_entities
      (PdfTagger.wrap_span_text "@@B_OPEN@@".toList true true
        PdfTagger.NestingPref.b_outside_i) = "<b><i><b></i></b>".toList ∧
    PdfTagger.escape_html_keep_bi_and_entities
      (PdfTagger.wrap_span_text "@@B_OPEN@@".toList true true
        PdfTagger.NestingPref.b_outside_i) ≠
      "<b><i>".toList ++
        PdfTagger.amp_escape (PdfTagger.esc_angle "@@B_OPEN@@".toList) ++
        "</i></b>".toList :=
  ⟨by decide, by decide⟩

/-- C1 amended-theorem witness at the concrete body text `x & <y>` in the
`b_outside_i` order. -/
theorem claim_C1_amended_witness :
    (∀ c ∈ "x & <y>".toList, c ≠ '@') ∧
    PdfTagger.ciHasSub PdfTagger.openB "x & <y>".toList = false ∧
    PdfTagger.ciHasSub PdfTagger.closeB "x & <y>".toList = false ∧
    PdfTagger.ciHasSub PdfTagger.openI "x & <y>".toList = false ∧
    PdfTagger.ciHasSub PdfTagger.closeI "x & <y>".toList = false ∧
    "x & <y>".toList ≠ "B_OPEN".toList ∧
    "x & <y>".toList ≠ "B_CLOSE".toList ∧
    PdfTagger.escape_html_keep_bi_and_entities
      (PdfTagger.wrap_span_text "x & <y>".toList true true
        PdfTagger.NestingPref.b_outside_i) =
      "<b><i>".toList ++
        PdfTagger.amp_escape (PdfTagger.esc_angle "x & <y>".toList) ++
        "</i></b>".toList :=
  ⟨by decide, by decide, by decide, by decide, by decide, by decide,
    by decide,
    claim_C1_amended "x & <y>".toList PdfTagger.NestingPref.b_outside_i
      (by decide) (by decide) (by decide) (by decide) (by decide)
      (by decide) (by decide)⟩
